import Mathlib

/-!
# Counter file format of `counter/file.go`

A shallow embedding of the memory-mapped counter file: header construction,
record placement, the FNV-1a bucket hash, chain lookup and record allocation.

Modelling conventions

* A Go `string` / `[]byte` is a `List UInt8` (`Bytes`).
* `uint32` values are natural numbers; every `uint32` operation of the source
  is followed by an explicit reduction modulo `2 ^ 32` (`u32`).
* A pointer into the mapping (`*atomic.Uint64`, `*atomic.Uint32`) is the byte
  offset it points at; `nil` is `none`.
* The mapping is a shared mapping of the whole file, so in the sequential
  (single process) model the bytes of the mapping are the bytes of the file.
  Multi-byte words are little-endian.
* Operating-system failures (open, stat, write, mmap) are not modelled: the
  calls succeed.
-/

namespace Counter

/-- Raw bytes: the contents of a Go `string` or `[]byte`. -/
abbrev Bytes := List UInt8

/-- Reduction of an arithmetic result to `uint32`. -/
def u32 (x : Nat) : Nat := x % 2 ^ 32

/-- The bytes of an ASCII string literal. -/
def asBytes (s : String) : Bytes := s.toList.map (fun c => UInt8.ofNat c.toNat)

/-! ## The constant block -/

abbrev fileVersion : String := "v1"
abbrev hdrPrefix : Bytes := asBytes ("# telemetry/counter file " ++ fileVersion ++ "\n")
abbrev recordUnit : Nat := 32
abbrev maxMetaLen : Nat := 512
abbrev numHash : Nat := 512
abbrev maxNameLen : Nat := 256
abbrev limitOff : Nat := 0
abbrev hashOff : Nat := 4
abbrev pageSize : Nat := 4096
abbrev minFileLen : Nat := 4096

/-! ## Errors and outcomes -/

/-- The errors returned by the functions of the file. -/
inductive Err where
  | metadataTooLarge   -- "counter: metadata too large"
  | didNotExtend       -- "counter: writing file did not extend it"
  | headerMismatch     -- "counter: header mismatch"
  | nameTooLong        -- "counter name too long"
  | corrupt            -- errCorrupt
  deriving DecidableEq, Repr

/-- Outcome of running a piece of code that may panic or loop:
`ret a` is a normal return, `panic` a Go run-time panic, `diverge` means the
loop budget (fuel) was exhausted. -/
inductive Run (α : Type) where
  | ret : α → Run α
  | panic : Run α
  | diverge : Run α
  deriving DecidableEq, Repr

/-- Sequencing of outcomes. -/
def Run.bind {α β : Type} (r : Run α) (f : α → Run β) : Run β :=
  match r with
  | .ret a => f a
  | .panic => .panic
  | .diverge => .diverge

instance : Monad Run where
  pure := Run.ret
  bind := Run.bind

/-! ## Byte-level memory access -/

/-- The slice `d[off : off+n]`, cut at the end of `d`. -/
def readBytes (d : Bytes) (off n : Nat) : Bytes := (d.drop off).take n

/-- The effect of `copy(d[off:], bs)`: overwrite `d` from `off` with `bs`,
never growing `d`. -/
def writeBytes (d : Bytes) (off : Nat) (bs : Bytes) : Bytes :=
  if off ≤ d.length then
    d.take off ++ bs.take (d.length - off) ++ d.drop (off + bs.length)
  else d

/-- Little-endian value of a byte string. -/
def fromLE : Bytes → Nat
  | [] => 0
  | b :: bs => b.toNat + 256 * fromLE bs

/-- The `n` low-order bytes of `v`, little-endian. -/
def toLE : Nat → Nat → Bytes
  | 0, _ => []
  | n + 1, v => UInt8.ofNat (v % 256) :: toLE n (v / 256)

/-- The Go slice expression `d[a:b]`, which panics unless `a ≤ b ≤ len(d)`. -/
def slice (d : Bytes) (a b : Nat) : Run Bytes :=
  if a ≤ b ∧ b ≤ d.length then .ret (readBytes d a (b - a)) else .panic

/-! ## `round` -/

/-- The operator `x &^ y` on `w`-bit words. -/
def andNot (w x y : Nat) : Nat := x &&& (2 ^ w - 1 - y)

/-- `round[T int | uint32](x, unit) = (x + unit - 1) &^ (unit - 1)`, computed on
`w`-bit words with wrap-around (`w = 32` for `uint32`; `w = 64` for the bit
pattern of an `int`). -/
def round (w : Nat) (x unit : Nat) : Nat :=
  andNot w ((x + unit + (2 ^ w - 1)) % 2 ^ w) ((unit + (2 ^ w - 1)) % 2 ^ w)

/-- The 64-bit two's-complement bit pattern of a Go `int`. -/
def intBits (x : Int) : Nat := (x % 2 ^ 64).toNat

/-- The Go `int` with a given 64-bit pattern. -/
def bitsInt (n : Nat) : Int := if n < 2 ^ 63 then (n : Int) else (n : Int) - 2 ^ 64

/-- `round` at type `int`. -/
def roundInt (x unit : Int) : Int := bitsInt (round 64 (intBits x) (intBits unit))

/-- Reference: the least multiple of `unit` that is at least `x`. -/
def roundUp (x unit : Nat) : Nat := (x + unit - 1) / unit * unit

/-! ## `hash` -/

abbrev offset32 : Nat := 2166136261
abbrev prime32 : Nat := 16777619

/-- The loop `for i := 0; i < len(name); i++` of `hash`; the first argument is
the number of iterations left, `i` the index and `h` the running state. -/
def hashLoop (name : Bytes) : Nat → Nat → Nat → Nat
  | 0, _, h => h
  | k + 1, i, h => hashLoop name k (i + 1) (u32 ((h ^^^ (name.getD i 0).toNat) * prime32))

/-- `hash(name)`. -/
def hash (name : Bytes) : Nat :=
  let h := hashLoop name name.length 0 offset32
  (h ^^^ (h >>> 16)) % numHash

/-- Reference: one FNV-1a step on a 32-bit state. -/
def fnvStep (h : Nat) (c : UInt8) : Nat := ((h ^^^ c.toNat) * 16777619) % 2 ^ 32

/-- Reference: the 32-bit FNV-1a state after absorbing `name`. -/
def fnv1a (name : Bytes) : Nat := name.foldl fnvStep 2166136261

/-! ## The mapped file -/

/-- A counter file mapped into memory (`mappedFile`): `data` is
`mapping.Data`, which is also the content of the file `f`. The fields
`zero`, `closeOnce` carry no information needed here. -/
structure mappedFile where
  meta : Bytes
  hdrLen : Nat
  data : Bytes
  deriving DecidableEq, Repr

/-- The field `zero [4]byte`. -/
abbrev zero4 : Bytes := [0, 0, 0, 0]

/-- `mappedHeader(meta)`. -/
def mappedHeader (meta : Bytes) : Except Err Bytes :=
  if meta.length > maxMetaLen then .error .metadataTooLarge
  else
    let np := round 64 hdrPrefix.length 4
    let n := round 64 (np + 4 + meta.length) 32
    let hdr : Bytes := List.replicate n 0
    let hdr := writeBytes hdr 0 hdrPrefix
    let hdr := writeBytes hdr np (toLE 4 (u32 n))
    let hdr := writeBytes hdr (np + 4) meta
    .ok hdr

/-- `m.place(limit, name)`. -/
def place (m : mappedFile) (limit : Nat) (name : Bytes) : Nat × Nat :=
  let limit := if limit = 0 then u32 (m.hdrLen + hashOff + 4 * numHash) else limit
  let n := round 32 (u32 (16 + name.length)) recordUnit
  let start := round 32 limit recordUnit
  let start :=
    if start / pageSize ≠ u32 (start + n) / pageSize then round 32 limit pageSize else start
  (start, u32 (start + n))

/-- Reference placement, in unbounded arithmetic:
`n = round(16 + len(name), 32)`, `start = round(limit, 32)` unless `start` and
`start + n` lie in different pages, in which case `start = round(limit, 4096)`;
`end = start + n`. -/
def placeRef (limit : Nat) (name : Bytes) : Nat × Nat :=
  let n := roundUp (16 + name.length) 32
  let start := roundUp limit 32
  let start := if start / 4096 ≠ (start + n) / 4096 then roundUp limit 4096 else start
  (start, start + n)

/-- No `uint32` addition executed by `place(limit, name)` wraps around. -/
def placeNoWrap (m : mappedFile) (limit : Nat) (name : Bytes) : Prop :=
  let limit1 := if limit = 0 then m.hdrLen + hashOff + 4 * numHash else limit
  let n := round 32 (u32 (16 + name.length)) recordUnit
  let start := round 32 limit1 recordUnit
  limit1 < 2 ^ 32 ∧ 16 + name.length + recordUnit - 1 < 2 ^ 32 ∧
  limit1 + recordUnit - 1 < 2 ^ 32 ∧ start + n < 2 ^ 32 ∧
  (start / pageSize ≠ (start + n) / pageSize →
    limit1 + pageSize - 1 < 2 ^ 32 ∧ round 32 limit1 pageSize + n < 2 ^ 32)

instance (m : mappedFile) (limit : Nat) (name : Bytes) : Decidable (placeNoWrap m limit name) := by
  unfold placeNoWrap; exact inferInstance

/-! ## Loads, stores and compare-and-swap on the mapping -/

/-- `m.load32(off)`. Bytes past the end of the mapping read as zero. -/
def load32 (m : mappedFile) (off : Nat) : Nat :=
  if off ≥ m.data.length then 0 else fromLE (readBytes m.data off 4)

/-- An atomic 32-bit store through a pointer to offset `off`. -/
def store32 (m : mappedFile) (off v : Nat) : mappedFile :=
  { m with data := writeBytes m.data off (toLE 4 v) }

/-- `m.cas32(off, old, new)`: the success flag and the mapping afterwards. -/
def cas32 (m : mappedFile) (off old new : Nat) : Run (Bool × mappedFile) :=
  if off ≥ m.data.length then .panic -- "bad cas32"
  else if fromLE (readBytes m.data off 4) = old then .ret (true, store32 m off new)
  else .ret (false, m)

/-- The value of the 64-bit slot at offset `off`. -/
def load64 (d : Bytes) (off : Nat) : Nat := fromLE (readBytes d off 8)

/-- `(*atomic.Uint64).Add(delta)` on the slot at offset `off`. -/
def add64 (m : mappedFile) (off delta : Nat) : mappedFile :=
  { m with data := writeBytes m.data off (toLE 8 ((load64 m.data off + delta) % 2 ^ 64)) }

/-! ## Entries -/

/-- The successful result of `entryAt`: the name bytes, the `next` offset and
the (offset of the) value slot. -/
structure Entry where
  name : Bytes
  next : Nat
  v : Nat
  deriving DecidableEq, Repr

/-- `m.entryAt(off)`; `none` is `ok = false`. -/
def entryAt (m : mappedFile) (off : Nat) : Run (Option Entry) :=
  if off < u32 (m.hdrLen + hashOff) ∨ off + 16 > m.data.length then .ret none
  else
    let nameLen := load32 m (u32 (off + 8)) &&& 0x00ffffff
    if nameLen = 0 ∨ off + 16 + nameLen > m.data.length then .ret none
    else
      match slice m.data (u32 (off + 16)) (u32 (u32 (off + 16) + nameLen)) with
      | .ret name => .ret (some ⟨name, load32 m (u32 (off + 12)), off⟩)
      | .panic => .panic
      | .diverge => .diverge

/-- `m.writeEntryAt(off, name)`: on success the offsets of the `next` word and
of the value slot, together with the mapping afterwards. -/
def writeEntryAt (m : mappedFile) (off : Nat) (name : Bytes) : Option (Nat × Nat) × mappedFile :=
  if off < u32 (m.hdrLen + hashOff) ∨ off + 16 + name.length > m.data.length then (none, m)
  else
    let d := writeBytes m.data (u32 (off + 16)) name
    let d := writeBytes d (u32 (off + 8)) (toLE 4 (u32 name.length ||| 0xff000000))
    (some (u32 (off + 12), off), { m with data := d })

/-! ## `lookup` -/

/-- The four results of `m.lookup(name)`. -/
structure LookupResult where
  v : Option Nat
  headOff : Nat
  head : Nat
  ok : Bool
  deriving DecidableEq, Repr

/-- The loop `for off != 0` of `lookup`; the first argument bounds the number
of iterations. -/
def lookupLoop (m : mappedFile) (name : Bytes) (headOff head : Nat) :
    Nat → Nat → Run LookupResult
  | 0, off => if off = 0 then .ret ⟨none, headOff, head, true⟩ else .diverge
  | fuel + 1, off =>
    if off = 0 then .ret ⟨none, headOff, head, true⟩
    else
      match entryAt m off with
      | .ret none => .ret ⟨none, 0, 0, false⟩
      | .ret (some e) =>
        if e.name = name then .ret ⟨some e.v, headOff, head, true⟩
        else lookupLoop m name headOff head fuel e.next
      | .panic => .panic
      | .diverge => .diverge

/-- `m.lookup(name)`. -/
def lookup (fuel : Nat) (m : mappedFile) (name : Bytes) : Run LookupResult :=
  let h := hash name
  let headOff := u32 (m.hdrLen + hashOff + h * 4)
  let head := load32 m headOff
  lookupLoop m name headOff head fuel head

/-! ## Opening and extending -/

/-- `f.WriteAt(b, off)` on a file with content `file`: the file grows as
needed, a gap is filled with zero bytes. -/
def writeAt (file : Bytes) (b : Bytes) (off : Nat) : Bytes :=
  let padded := file ++ List.replicate (off + b.length - file.length) 0
  padded.take off ++ b ++ padded.drop (off + b.length)

/-- `openMapped(name, meta, existing)` on a file whose content is `file`
(a file that does not exist yet is created empty). The result is paired with
the content of the file afterwards. The argument `existing` is only a hint
to the mapping call and is omitted. -/
def openMapped (file : Bytes) (meta : Bytes) : Except Err mappedFile × Bytes :=
  match mappedHeader meta with
  | .error e => (.error e, file)
  | .ok hdr =>
    let file1 :=
      if file.length < minFileLen then
        writeAt (writeAt file hdr 0) zero4 (minFileLen - zero4.length)
      else file
    if file.length < minFileLen ∧ file1.length < minFileLen then (.error .didNotExtend, file1)
    else if hdr.isPrefixOf file1 then (.ok ⟨meta, u32 hdr.length, file1⟩, file1)
    else (.error .headerMismatch, file1)

/-- `m.extend(end)`, paired with the content of the file afterwards. -/
def extend (m : mappedFile) (end_ : Nat) : Except Err mappedFile × Bytes :=
  let end_ := round 32 end_ pageSize
  let file :=
    if m.data.length < end_ then writeAt m.data zero4 (end_ - zero4.length) else m.data
  openMapped file m.meta

/-! ## `newCounter` -/

/-- The results of `m.newCounter(name)`, with the content of the file when
the call returns. -/
structure NCResult where
  v : Option Nat
  m1 : Option mappedFile
  err : Option Err
  file : Bytes
  deriving DecidableEq, Repr

/-- A `return v, nil, err` of `newCounter` followed by its deferred function:
`changed` records `m != orig`. -/
def finish (changed : Bool) (m : mappedFile) (v : Option Nat) (err : Option Err) : NCResult :=
  ⟨v, if changed = true ∧ err = none then some m else none, err, m.data⟩

/-- Outcome of the duplicate check over the new elements of a chain. -/
inductive Dup where
  | corrupt
  | found (v : Nat)
  | absent
  deriving DecidableEq, Repr

/-- The loop `for off := head; off != old;` of `newCounter`. -/
def dupLoop (m : mappedFile) (name : Bytes) (old : Nat) : Nat → Nat → Run Dup
  | 0, off => if off = old then .ret .absent else .diverge
  | fuel + 1, off =>
    if off = old then .ret .absent
    else
      match entryAt m off with
      | .ret none => .ret .corrupt
      | .ret (some e) =>
        if e.name = name then .ret (.found e.v) else dupLoop m name old fuel e.next
      | .panic => .panic
      | .diverge => .diverge

/-- The loop that links the record at `start` into its hash chain. -/
def linkLoop (name : Bytes) (start headOff next v : Nat) (changed : Bool) (F : Nat) :
    Nat → mappedFile → Nat → Run NCResult
  | 0, _, _ => .diverge
  | fuel + 1, m, head =>
    let m := store32 m next head
    match cas32 m headOff head start with
    | .ret (true, m) => .ret (finish changed m (some v) none)
    | .ret (false, m) =>
      let old := head
      let head := load32 m headOff
      match dupLoop m name old F head with
      | .ret .corrupt => .ret (finish changed m none (some .corrupt))
      | .ret (.found w) => .ret (finish changed (store32 m next (u32 (2 ^ 32 - 1))) (some w) none)
      | .ret .absent => linkLoop name start headOff next v changed F fuel m head
      | .panic => .panic
      | .diverge => .diverge
    | .panic => .panic
    | .diverge => .diverge

/-- The part of `newCounter` after the space is reserved: write the record
and link it. -/
def writeAndLink (F : Nat) (m : mappedFile) (changed : Bool) (name : Bytes)
    (start headOff head : Nat) : Run NCResult :=
  match writeEntryAt m start name with
  | (none, m) => .ret (finish changed m none (some .corrupt))
  | (some (next, v), m) => linkLoop name start headOff next v changed F F m head

/-- The loop that reserves space for a new record. -/
def reserveLoop (F : Nat) (name : Bytes) (headOff head : Nat) :
    Nat → mappedFile → Bool → Run NCResult
  | 0, _, _ => .diverge
  | fuel + 1, m, changed =>
    let limit := load32 m (u32 (m.hdrLen + limitOff))
    let se := place m limit name
    if se.2 > m.data.length then
      match extend m se.2 with
      | (.error e, file) => .ret (finish changed { m with data := file } none (some e))
      | (.ok newM, _) => reserveLoop F name headOff head fuel newM true
    else
      match cas32 m (u32 (m.hdrLen + limitOff)) limit se.2 with
      | .ret (true, m) => writeAndLink F m changed name se.1 headOff head
      | .ret (false, m) => reserveLoop F name headOff head fuel m changed
      | .panic => .panic
      | .diverge => .diverge

/-- The loop `for !ok` of `newCounter` and what follows it. In the sequential
model the file has the bytes of the mapping, so the remapping reopens the
bytes of `m`; a file that another process has extended is modelled with an
explicit schedule (`race`). -/
def afterLookup (F : Nat) (name : Bytes) : Nat → mappedFile → Bool → LookupResult → Run NCResult
  | fuel, m, changed, r =>
    if r.ok = false then
      match fuel with
      | 0 => .diverge
      | fuel + 1 =>
        let limit := load32 m (u32 (m.hdrLen + limitOff))
        if limit ≤ m.data.length then .ret (finish changed m none (some .corrupt))
        else
          match openMapped m.data m.meta with
          | (.error e, file) => .ret (finish changed { m with data := file } none (some e))
          | (.ok newM, _) =>
            match lookup F newM name with
            | .ret r => afterLookup F name fuel newM true r
            | .panic => .panic
            | .diverge => .diverge
    else if r.v.isSome then .ret (finish changed m r.v none)
    else reserveLoop F name r.headOff r.head F m changed

/-- `m.newCounter(name)`; `fuel` bounds the number of iterations of each loop. -/
def newCounter (fuel : Nat) (m : mappedFile) (name : Bytes) : Run NCResult :=
  if name.length > maxNameLen then .ret ⟨none, none, some .nameTooLong, m.data⟩
  else
    match lookup fuel m name with
    | .ret r => afterLookup fuel name fuel m false r
    | .panic => .panic
    | .diverge => .diverge

/-- The mapping in use after a call of `newCounter` on `m`: the replacement
if there is one, otherwise `m` itself, whose bytes are those of the file. -/
def NCResult.current (r : NCResult) (m : mappedFile) : mappedFile :=
  match r.m1 with
  | some m1 => m1
  | none => { m with data := r.file }


/-! ## Runs and specification-level notions -/

/-- The file obtained by `openMapped` on a path at which no file exists. -/
def created (meta : Bytes) : Except Err mappedFile := (openMapped [] meta).1

/-- The value returned by a normal return, if any. -/
def Run.toOption {α : Type} : Run α → Option α
  | .ret a => some a
  | .panic => none
  | .diverge => none

/-- The 32-bit word stored at offset `off`. -/
def word (d : Bytes) (off : Nat) : Nat := fromLE (readBytes d off 4)

/-- The allocation limit, as `newCounter` reads it. -/
def limitOf (m : mappedFile) : Nat := load32 m (u32 (m.hdrLen + limitOff))

/-- The magic of a hypothetical earlier format version. -/
abbrev magicV0 : Bytes := asBytes "# telemetry/counter file v0\n"

/-- The files reachable from a freshly created file (with metadata `meta`) by
a sequence of `newCounter` calls that returned, made one after the other. -/
inductive Reachable (meta : Bytes) : mappedFile → Prop
  | fresh (m : mappedFile) : created meta = .ok m → Reachable meta m
  | step (m : mappedFile) (fuel : Nat) (name : Bytes) (r : NCResult) :
      Reachable meta m → newCounter fuel m name = .ret r → Reachable meta (r.current m)


/-- The bytes of the mapping after a record for `name` has been reserved at
`[s, e)`, written and linked at the head of the chain at `ho`, whose previous
head was `hd`; `H` is the header length. -/
def allocData (d : Bytes) (H s e : Nat) (name : Bytes) (ho hd : Nat) : Bytes :=
  let d := writeBytes d H (toLE 4 e)
  let d := writeBytes d (s + 16) name
  let d := writeBytes d (s + 8) (toLE 4 (u32 name.length ||| 0xff000000))
  let d := writeBytes d (s + 12) (toLE 4 hd)
  writeBytes d ho (toLE 4 s)

/-- The part of the file invariant that holds whatever names are used: the
header is in place, the length is a whole number of pages below `2 ^ 32`, and
the allocation limit is zero or lies between the end of the hash table and
the end of the file. -/
structure WInv (m : mappedFile) : Prop where
  hdr : ∃ hdr, mappedHeader m.meta = .ok hdr ∧ m.hdrLen = hdr.length ∧
    readBytes m.data 0 hdr.length = hdr
  len_min : 4096 ≤ m.data.length
  len_page : m.data.length % 4096 = 0
  len_max : m.data.length ≤ 2 ^ 32 - 4096
  limit_le : word m.data m.hdrLen ≤ m.data.length
  limit_lo : word m.data m.hdrLen = 0 ∨ m.hdrLen + 2052 ≤ word m.data m.hdrLen


/-- The number of bytes occupied by the record of `name`. -/
def recSize (name : Bytes) : Nat := roundUp (16 + name.length) 32

/-- The bytes of the file once it is long enough to hold a record that ends
at `e`: unchanged if `e` fits, otherwise zero-extended to the next page
boundary at or after `e`. -/
def grown (d : Bytes) (e : Nat) : Bytes :=
  if e ≤ d.length then d else d ++ List.replicate (roundUp e 4096 - d.length) 0


/-- The header for `meta`, empty if `mappedHeader` fails. -/
def header (meta : Bytes) : Bytes :=
  match mappedHeader meta with
  | .ok hdr => hdr
  | .error _ => []

/-- The mapped file that `openMapped` creates for `meta`: the header followed
by zero bytes up to 4096. -/
def freshFile (meta : Bytes) : mappedFile :=
  ⟨meta, (header meta).length, header meta ++ List.replicate (4096 - (header meta).length) 0⟩


/-! ## The records of a file -/

/-- A record of the file, as a specification-level value: its offset, its
name and the value of its 64-bit slot. -/
structure Rec where
  off : Nat
  name : Bytes
  val : Nat

/-- The offset of the first record for bucket `b` in a list of records given
newest first; 0 if there is none. -/
def chainHead : List Rec → Nat → Nat
  | [], _ => 0
  | r :: rest, b => if hash r.name = b then r.off else chainHead rest b

/-- The offset of the record named `name`, if there is one. -/
def findOff : List Rec → Bytes → Option Nat
  | [], _ => none
  | r :: rest, name => if r.name = name then some r.off else findOff rest name

/-- The value of the record named `name`; 0 if there is none. -/
def findVal : List Rec → Bytes → Nat
  | [], _ => 0
  | r :: rest, name => if r.name = name then r.val else findVal rest name

/-- The bytes at `r.off` hold the record `r`, with `next` as its link. -/
def RecAt (d : Bytes) (r : Rec) (next : Nat) : Prop :=
  load64 d r.off = r.val ∧ word d (r.off + 8) = (u32 r.name.length ||| 0xff000000) ∧
    word d (r.off + 12) = next ∧ readBytes d (r.off + 16) r.name.length = r.name

/-- Every record of the list (newest first) is in the file, linked to the
next older record of its bucket. -/
def RecsOK (d : Bytes) : List Rec → Prop
  | [] => True
  | r :: rest => RecAt d r (chainHead rest (hash r.name)) ∧ RecsOK d rest

/-- The records (newest first) have names of 1 to 256 bytes, pairwise
different, and occupy disjoint ranges at decreasing offsets, none below `lo`. -/
def Sorted (lo : Nat) : List Rec → Prop
  | [] => True
  | r :: rest => 1 ≤ r.name.length ∧ r.name.length ≤ 256 ∧ lo ≤ r.off ∧
      (∀ q ∈ rest, q.off + recSize q.name ≤ r.off ∧ q.name ≠ r.name) ∧ Sorted lo rest

/-- The invariant of a file whose records are `recs` (newest first). -/
structure Inv (m : mappedFile) (recs : List Rec) : Prop where
  winv : WInv m
  below : ∀ r ∈ recs, r.off + recSize r.name ≤ word m.data m.hdrLen
  heads : ∀ b, b < 512 → word m.data (m.hdrLen + 4 + 4 * b) = chainHead recs b
  recs_ok : RecsOK m.data recs
  sorted : Sorted (m.hdrLen + 2080) recs
  zeros : ∀ i, max (word m.data m.hdrLen) (m.hdrLen + 2052) ≤ i → i < m.data.length →
    m.data[i]? = some 0
  limit_ub : word m.data m.hdrLen ≤ m.hdrLen + 2052 + 607 * recs.length
  limit_lb : 32 * recs.length ≤ word m.data m.hdrLen


/-- The result of `newCounter` for the name `name` on the file freshly
created for the empty metadata: the record is placed at `[2112, e)` and linked
at the (empty) head of its bucket. -/
def firstResult (name : Bytes) (e : Nat) : NCResult :=
  finish false
    ⟨[], 32, allocData (freshFile []).data 32 2112 e name (32 + 4 + 4 * hash name) 0⟩
    (some 2112) none


/-! ## Incrementing a list of counters -/

/-- The records after `delta` has been added to the slot of `name`. -/
def bump (recs : List Rec) (name : Bytes) (delta : Nat) : List Rec :=
  recs.map (fun r => if r.name = name then ⟨r.off, r.name, (r.val + delta) % 2 ^ 64⟩ else r)

/-- For each pair `(name, delta)` in turn: resolve `name` with `newCounter`,
continue with the mapping in use after the call, and add `delta` to the
returned slot; a name for which no slot is returned is skipped (its counter
stays a no-op). -/
def incAll (fuel : Nat) : mappedFile → List (Bytes × Nat) → Run mappedFile
  | m, [] => .ret m
  | m, (name, delta) :: rest =>
    match newCounter fuel m name with
    | .ret r =>
      match r.v with
      | some v => incAll fuel (add64 (r.current m) v delta) rest
      | none => incAll fuel (r.current m) rest
    | .panic => .panic
    | .diverge => .diverge

/-- The sum of the deltas added under `name`. -/
def total : List (Bytes × Nat) → Bytes → Nat
  | [], _ => 0
  | (n, delta) :: rest, name => (if n = name then delta else 0) + total rest name

/-- `k` pairwise different 4-byte names, each with delta 1. -/
def manyNames (k : Nat) : List (Bytes × Nat) := (List.range k).map (fun i => (toLE 4 i, 1))



/-! ## Reference behaviour of `lookup`, in the words of the specification -/

/-- The stored 24-bit name length of the record at `off`. -/
def storedLen (d : Bytes) (off : Nat) : Nat := word d (off + 8) &&& 0x00ffffff

/-- The stored name bytes of the record at `off`. -/
def storedName (d : Bytes) (off : Nat) : Bytes := readBytes d (off + 16) (storedLen d off)

/-- The stored `next` link of the record at `off`. -/
def storedNext (d : Bytes) (off : Nat) : Nat := word d (off + 12)

/-- The conditions under which the specification says that `entryAt` fails:
the offset is below `hdrLen + 4`, the 16-byte record header or the name bytes
extend past the mapping length, or the stored name length is 0. -/
def entryFails (m : mappedFile) (off : Nat) : Prop :=
  off < m.hdrLen + 4 ∨ m.data.length < off + 16 ∨
    m.data.length < off + 16 + storedLen m.data off ∨ storedLen m.data off = 0

instance (m : mappedFile) (off : Nat) : Decidable (entryFails m off) := by
  unfold entryFails; exact inferInstance

/-- How a walk along a chain ends. -/
inductive WalkResult where
  | found (v : Nat)
  | absent
  | invalid
  deriving DecidableEq, Repr

/-- The walk `off, next(off), ...` of the specification, at most `n` steps
long: `none` if the walk has not ended after `n` steps. -/
def refWalk (m : mappedFile) (name : Bytes) : Nat → Nat → Option WalkResult
  | 0, off => if off = 0 then some .absent else none
  | n + 1, off =>
    if off = 0 then some .absent
    else if entryFails m off then some .invalid
    else if storedName m.data off = name then some (.found off)
    else refWalk m name n (storedNext m.data off)

/-- The four results that the specification gives for a walk that ended. -/
def refResult (headOff head : Nat) : WalkResult → LookupResult
  | .found v => ⟨some v, headOff, head, true⟩
  | .absent => ⟨none, headOff, head, true⟩
  | .invalid => ⟨none, 0, 0, false⟩

/-- Reference `lookup`: walk from the word stored at
`headOff = hdrLen + 4 + 4 * hash(name)`. -/
def refLookup (n : Nat) (m : mappedFile) (name : Bytes) : Option LookupResult :=
  (refWalk m name n (word m.data (m.hdrLen + 4 + 4 * hash name))).map
    (refResult (m.hdrLen + 4 + 4 * hash name) (word m.data (m.hdrLen + 4 + 4 * hash name)))

/-- A mapping of `2 ^ 32 + 9` bytes: the header for the empty metadata, the
head of the bucket of the name `a` pointing at offset `2 ^ 32 - 8`, and there a
record with stored name length 1 (at offset `2 ^ 32`) and stored name `a` (at
offset `2 ^ 32 + 8`); every other byte is zero. -/
def hugeMapping : mappedFile :=
  ⟨[], 32,
    writeBytes (writeBytes (writeBytes (header [] ++ List.replicate (2 ^ 32 + 9 - 32) 0)
      (32 + 4 + 4 * hash [97]) (toLE 4 (2 ^ 32 - 8))) (2 ^ 32) (toLE 4 1)) (2 ^ 32 + 8) [97]⟩

/-! ## Histories of a file -/

/-- The files reachable from a freshly created file (with metadata `meta`) by
calls of `newCounter` with non-empty names that returned and by additions to
slots that `lookup` returned, made one after the other. -/
inductive ReachableNE (meta : Bytes) : mappedFile → Prop
  | fresh (m : mappedFile) : created meta = .ok m → ReachableNE meta m
  | call (m : mappedFile) (fuel : Nat) (name : Bytes) (r : NCResult) :
      ReachableNE meta m → 1 ≤ name.length → newCounter fuel m name = .ret r →
      ReachableNE meta (r.current m)
  | add (m : mappedFile) (fuel : Nat) (name : Bytes) (lr : LookupResult) (v delta : Nat) :
      ReachableNE meta m → lookup fuel m name = .ret lr → lr.v = some v →
      ReachableNE meta (add64 m v delta)

/-- The 256-byte name all of whose bytes are `b`. -/
def wideName (b : Nat) : Bytes := List.replicate 256 (UInt8.ofNat b)

/-- The records of `filled k`, newest first. -/
def filledRecs : Nat → List Rec
  | 0 => []
  | k + 1 => ⟨2112 + 288 * k, wideName (k + 1), 0⟩ :: filledRecs k

/-- The file created for the empty metadata after `newCounter` has been
called for `wideName 1`, ..., `wideName k` in turn (`k ≤ 6`), in closed form:
the record of `wideName (k + 1)` lies at `[2112 + 288 * k, 2400 + 288 * k)` and
is the only one of its bucket. -/
def filled : Nat → mappedFile
  | 0 => freshFile []
  | k + 1 => ⟨[], 32, allocData (filled k).data 32 (2112 + 288 * k) (2400 + 288 * k)
      (wideName (k + 1)) (32 + 4 + 4 * hash (wideName (k + 1))) 0⟩

/-! ## Two processes creating one name -/

/-- A call of `newCounter(name)` that has reserved the space for its record
and is about to write and link it: its mapping, the start of the record and
the bucket head it saw. -/
structure Pending where
  m : mappedFile
  start : Nat
  headOff : Nat
  head : Nat
  deriving DecidableEq, Repr

/-- The steps of `m.newCounter(name)` up to the successful compare-and-swap
on the allocation limit, for a call that finds the name absent, needs no
remapping and wins the compare-and-swap at its first attempt: `lookup`,
`load32` of the limit, `place`, `cas32`. `none` if the call takes another
path. -/
def beforeWrite (fuel : Nat) (m : mappedFile) (name : Bytes) : Option Pending :=
  if name.length > maxNameLen then none
  else
    match lookup fuel m name with
    | .ret r =>
      if r.ok = false ∨ r.v.isSome then none
      else
        let limit := load32 m (u32 (m.hdrLen + limitOff))
        let se := place m limit name
        if se.2 > m.data.length then none
        else
          match cas32 m (u32 (m.hdrLen + limitOff)) limit se.2 with
          | .ret (true, m) => some ⟨m, se.1, r.headOff, r.head⟩
          | .ret (false, _) => none
          | .panic => none
          | .diverge => none
    | .panic => none
    | .diverge => none

/-- One schedule of two processes `P` and `Q` that both call
`newCounter(name)` on the same file, each through its own mapping of the file
bytes of `m`. `Q` runs until it has reserved its record; then `P` runs its
whole call (extending the file if it needs to); then `Q` writes and links its
record through its own mapping, which still has the old length and shows the
first bytes of the file as `P` left them. The results of `P` and of `Q` and
the file afterwards. -/
def race (fuel : Nat) (m : mappedFile) (name : Bytes) : Option (NCResult × NCResult × Bytes) :=
  match beforeWrite fuel m name with
  | none => none
  | some q =>
    match newCounter fuel q.m name with
    | .ret rP =>
      match writeAndLink fuel ⟨q.m.meta, q.m.hdrLen, rP.file.take q.m.data.length⟩ false name
          q.start q.headOff q.head with
      | .ret rQ => some (rP, rQ, rQ.file ++ rP.file.drop q.m.data.length)
      | .panic => none
      | .diverge => none
    | .panic => none
    | .diverge => none

/-! ## Library functions used by `file.init` and `file.filename`

These are functions of the Go standard library, modelled on byte strings from
their documentation; the path functions are those of a Unix system, where the
separator is the slash. -/

/-- `strings.Contains(s, sub)`. -/
def contains (s sub : Bytes) : Bool := s.tails.any (fun t => sub.isPrefixOf t)

/-- `strings.TrimSuffix(s, suffix)`. -/
def trimSuffix (s suffix : Bytes) : Bytes :=
  if suffix.isSuffixOf s then s.take (s.length - suffix.length) else s

/-- The elements of a path: the pieces between slashes. -/
def splitSlash : Bytes → List Bytes
  | [] => [[]]
  | c :: cs =>
    if c = 47 then [] :: splitSlash cs
    else
      match splitSlash cs with
      | [] => [[c]]
      | e :: es => (c :: e) :: es

/-- The path without its trailing slashes. -/
def stripSlashes (p : Bytes) : Bytes := (p.reverse.dropWhile (fun c => c = 47)).reverse

/-- `filepath.Base(path)`: the last element of the path, after trailing
slashes are removed; `.` for the empty path, `/` for a path of slashes only. -/
def base (path : Bytes) : Bytes :=
  if path = [] then asBytes "."
  else
    let last := (splitSlash (stripSlashes path)).getLastD []
    if last = [] then asBytes "/" else last

/-- One element of a path processed by `filepath.Clean`; `stack` holds the
elements kept so far, the last one first. -/
def cleanStep (rooted : Bool) (stack : List Bytes) (e : Bytes) : List Bytes :=
  if e = [] ∨ e = asBytes "." then stack
  else if e = asBytes ".." then
    match stack with
    | top :: rest => if top = asBytes ".." then e :: stack else rest
    | [] => if rooted then [] else [e]
  else e :: stack

/-- `filepath.Clean(path)`: the shortest equivalent path, by lexical
processing (no empty and no `.` elements, no inner `..` elements, no `..`
right after the root); `.` if the result is empty. -/
def clean (path : Bytes) : Bytes :=
  let rooted : Bool := decide (path.head? = some 47)
  let stack := (splitSlash path).foldl (cleanStep rooted) []
  let out := (if rooted then asBytes "/" else []) ++ (asBytes "/").intercalate stack.reverse
  if out = [] then asBytes "." else out

/-- `filepath.Join(dir, elem)`: empty elements are ignored, the others are
joined with a slash and the result is cleaned. -/
def join (dir elem : Bytes) : Bytes :=
  if dir ≠ [] then clean (dir ++ asBytes "/" ++ elem)
  else if elem ≠ [] then clean elem
  else []

/-- The decimal digits of `n` put in front of `acc`; the first argument bounds
the number of digits. -/
def decimalAux : Nat → Nat → Bytes → Bytes
  | 0, _, acc => acc
  | fuel + 1, n, acc =>
    if n / 10 = 0 then UInt8.ofNat (48 + n % 10) :: acc
    else decimalAux fuel (n / 10) (UInt8.ofNat (48 + n % 10) :: acc)

/-- The number `n` in decimal, padded with zeros to at least `w` digits. -/
def padNat (w n : Nat) : Bytes :=
  let ds := decimalAux (n + 1) n []
  List.replicate (w - ds.length) 48 ++ ds

/-- `now.Format("2006-01-02")` for a date with a non-negative year. -/
def formatDate (year month day : Nat) : Bytes :=
  padNat 4 year ++ asBytes "-" ++ padNat 2 month ++ asBytes "-" ++ padNat 2 day

/-! ## The counter file of the process (`file`) -/

/-- The errors that `file.init` stores in `f.err`. -/
inductive InitErr where
  | noBuildInfo   -- errNoBuildInfo
  | disabled      -- ErrDisabled
  | mkdir         -- the error of os.MkdirAll
  | metaTooLong   -- "metadata too long"
  deriving DecidableEq, Repr

/-- What `file.init` and `file.filename` learn from the runtime and the
environment: the results of `debug.ReadBuildInfo`, `telemetry.Enabled`,
`telemetry.LocalDir`, whether `os.MkdirAll` succeeds, `os.Args[0]`,
`runtime.GOOS`, `runtime.GOARCH` and the result of `fileValidity()`. -/
structure BuildEnv where
  hasInfo : Bool
  goVersion : Bytes
  path : Bytes
  mainVersion : Bytes
  enabled : Bool
  localDir : Bytes
  mkdirOk : Bool
  arg0 : Bytes
  goos : Bytes
  goarch : Bytes
  validity : Nat
  deriving DecidableEq, Repr

/-- The time `now` as `file.filename` uses it: the date `now.Date()`, the
RFC 3339 rendering of midnight of that day, and, for a validity of `incr` days,
the end time (as a number that is not zero) and its RFC 3339 rendering. -/
structure Clock where
  year : Nat
  month : Nat
  day : Nat
  beginStr : Bytes
  endStr : Nat → Bytes
  endTime : Nat → Nat

/-- A `*mappedFile` held by the process, with the name of its file
(`m.f.Name()`) and whether its file handle is still open and its mapping
still mapped. -/
structure Handle where
  name : Bytes
  m : mappedFile
  isOpen : Bool
  isMapped : Bool
  deriving DecidableEq, Repr

/-- The fields of the type `file` that rotation uses. -/
structure file where
  namePrefix : Bytes
  err : Option InitErr
  meta : Bytes
  current : Option Handle
  deriving DecidableEq, Repr

/-- The version strings with `devel` or `-` in them collapse to `devel`. -/
def collapse (vers : Bytes) : Bytes :=
  if contains vers (asBytes "devel") || contains vers (asBytes "-") then asBytes "devel" else vers

/-- The program name that `file.init` computes. -/
def progName (env : BuildEnv) : Bytes :=
  let prog := env.path
  let prog := if prog = [] then trimSuffix (base env.arg0) (asBytes ".exe") else prog
  base prog

/-- The metadata that `file.init` formats. -/
def metaOf (env : BuildEnv) (beginStr endStr : Bytes) : Bytes :=
  asBytes "TimeBegin: " ++ beginStr ++ asBytes "\nTimeEnd: " ++ endStr ++
    asBytes "\nProgram: " ++ progName env ++ asBytes "\nVersion: " ++ collapse env.mainVersion ++
    asBytes "\nGoVersion: " ++ collapse env.goVersion ++ asBytes "\nGOOS: " ++ env.goos ++
    asBytes "\nGOARCH: " ++ env.goarch ++ asBytes "\n\n"

/-- The prefix `prog[@progVers]-goVers-GOOS-GOARCH-` that `file.init` formats. -/
def prefixOf (env : BuildEnv) : Bytes :=
  let progVers := collapse env.mainVersion
  let progVers := if progVers ≠ [] then asBytes "@" ++ progVers else progVers
  progName env ++ progVers ++ asBytes "-" ++ collapse env.goVersion ++ asBytes "-" ++ env.goos ++
    asBytes "-" ++ env.goarch ++ asBytes "-"

/-- `f.init(begin, end)`; the two times enter through their RFC 3339
renderings. -/
def init (f : file) (env : BuildEnv) (beginStr endStr : Bytes) : file :=
  if env.hasInfo = false then { f with err := some .noBuildInfo }
  else if env.enabled = false then { f with err := some .disabled }
  else if env.mkdirOk = false then { f with err := some .mkdir }
  else
    let meta := metaOf env beginStr endStr
    if meta.length > maxMetaLen then { f with meta := meta, err := some .metaTooLong }
    else { f with meta := meta, namePrefix := join env.localDir (prefixOf env) }

/-- The results of `f.filename(now)`; `expire = none` is the zero time. The
third result is the named result `err`, which the function never assigns. -/
structure FilenameResult where
  name : Bytes
  expire : Option Nat
  err : Option InitErr
  deriving DecidableEq, Repr

/-- The statement `if f.namePrefix == "" && f.err == nil { f.init(begin, end) }`
of `f.filename(now)`. -/
def ensureInit (f : file) (env : BuildEnv) (now : Clock) : file :=
  if f.namePrefix = [] ∧ f.err = none then init f env now.beginStr (now.endStr env.validity)
  else f

/-- `f.filename(now)`, with the value of `f` afterwards. -/
def filename (f : file) (env : BuildEnv) (now : Clock) : FilenameResult × file :=
  let incr := env.validity
  let f := ensureInit f env now
  if f.err ≠ none then (⟨[], none, none⟩, f)
  else
    (⟨f.namePrefix ++ formatDate now.year now.month now.day ++
        asBytes ("." ++ fileVersion ++ ".count"), some (now.endTime incr), none⟩, f)

/-- The function that `rotate1` returns as `cleanup`. -/
inductive Cleanup where
  | nop
  | invalidateCounters
  deriving DecidableEq, Repr

/-- The results of `f.rotate1()` with the state afterwards: the value of `f`,
the files, the expiry time (`none` is the zero time), the cleanup function, and
whether the call used the previous mapping (for the counter
`counter/rotate-error`) after it had closed and unmapped it. What such a use
reads or writes is not modelled. -/
structure RotateResult where
  f : file
  fs : Bytes → Bytes
  expire : Option Nat
  cleanup : Cleanup
  usedAfterUnmap : Bool

/-- The files after the file `name` has got the content `content`. -/
def setFile (fs : Bytes → Bytes) (name content : Bytes) : Bytes → Bytes :=
  fun n => if n = name then content else fs n

/-- `f.rotate1()` at the time `now`, on the files `fs` (a file that does not
exist has the empty content). Closing the file handle and unmapping only
change the state of the handle. -/
def rotate1 (f : file) (env : BuildEnv) (now : Clock) (fs : Bytes → Bytes) : RotateResult :=
  match filename f env now with
  | (r, f) =>
    if r.err ≠ none then ⟨f, fs, none, .nop, false⟩
    else if r.name = [] then ⟨f, fs, none, .nop, false⟩
    else
      match f.current with
      | some cur =>
        if r.name = cur.name then ⟨f, fs, r.expire, .nop, false⟩
        else
          let closed : Handle := { cur with isOpen := false, isMapped := false }
          match openMapped (fs r.name) f.meta with
          | (.error _, file1) =>
            ⟨{ f with current := some closed }, setFile fs r.name file1, r.expire, .nop, true⟩
          | (.ok m, file1) =>
            ⟨{ f with current := some ⟨r.name, m, true, true⟩ }, setFile fs r.name file1,
              r.expire, .invalidateCounters, false⟩
      | none =>
        match openMapped (fs r.name) f.meta with
        | (.error _, file1) => ⟨f, setFile fs r.name file1, r.expire, .nop, false⟩
        | (.ok m, file1) =>
          ⟨{ f with current := some ⟨r.name, m, true, true⟩ }, setFile fs r.name file1,
            r.expire, .invalidateCounters, false⟩

/-! ## The calls of a process -/

/-- The environment of a sample process: the program `example.com/tool` at
version `v1.2.3`, built with `go1.21.3` for `linux/amd64`, with `/t` as local
directory and a validity of 7 days. -/
def sampleEnv : BuildEnv :=
  ⟨true, asBytes "go1.21.3", asBytes "example.com/tool", asBytes "v1.2.3", true, asBytes "/t",
    true, asBytes "/usr/bin/tool", asBytes "linux", asBytes "amd64", 7⟩

/-- The clock on a day of January 2024. -/
def sampleClock (day : Nat) : Clock :=
  ⟨2024, 1, day, asBytes "2024-01-" ++ padNat 2 day ++ asBytes "T00:00:00Z",
    fun incr => asBytes "2024-01-" ++ padNat 2 (day + incr) ++ asBytes "T00:00:00Z",
    fun incr => day + incr⟩

/-- The metadata of a sample process that started on the given day. -/
def sampleMeta (day : Nat) : Bytes :=
  metaOf sampleEnv (sampleClock day).beginStr ((sampleClock day).endStr 7)

/-- The state of a sample process that started on 2 January 2024 and has
opened the counter file of that day. -/
def sampleState : file :=
  ⟨asBytes "/t/tool@v1.2.3-go1.21.3-linux-amd64-", none, sampleMeta 2,
    some ⟨asBytes "/t/tool@v1.2.3-go1.21.3-linux-amd64-2024-01-02.v1.count",
      freshFile (sampleMeta 2), true, true⟩⟩

/-- Files among which the counter file of 9 January 2024 has already been
created by a process that started on 3 January 2024. -/
def sampleFiles : Bytes → Bytes :=
  setFile (fun _ => []) (asBytes "/t/tool@v1.2.3-go1.21.3-linux-amd64-2024-01-09.v1.count")
    (freshFile (sampleMeta 3)).data

/-- The offsets reachable from the head of bucket `b`: the head itself if it
is not 0, and the `next` field of a reachable record if it is not 0. -/
inductive OnChain (m : mappedFile) (b : Nat) : Nat → Prop
  | head : b < 512 → word m.data (m.hdrLen + 4 + 4 * b) ≠ 0 →
      OnChain m b (word m.data (m.hdrLen + 4 + 4 * b))
  | next (off : Nat) : OnChain m b off → storedNext m.data off ≠ 0 →
      OnChain m b (storedNext m.data off)

/-! ## `file.lookup`: mappings as objects

Where the identity of a mapping matters, the `mappedFile` objects of the
process are numbered in the order of their creation and a `*mappedFile` is
such a number. -/

/-- The type `counterPtr`: the field `m` (a `*mappedFile`) and the field
`count`, a pointer to a 64-bit slot, given by the object into whose mapping it
points and the offset of the slot there. -/
structure counterPtr where
  m : Nat
  count : Nat × Nat
  deriving DecidableEq, Repr

/-- The type `file` with `f.current` as a pointer: the `mappedFile` objects
created so far and the number of the active one, if any. -/
structure fileRefs where
  objs : List mappedFile
  current : Option Nat
  deriving DecidableEq, Repr

/-- `f.newCounter1(name)`: the slot pointer, the cleanup function and the
state afterwards. The object `current` keeps its length and shows the first
bytes of the file after the call; a replacement mapping is a new object, and
the slot that `current.newCounter` returns points into the mapping in use when
that call returns. -/
def newCounter1 (fuel : Nat) (f : fileRefs) (name : Bytes) :
    Run (Option (Nat × Nat) × Cleanup × fileRefs) :=
  match f.current with
  | none => .ret (none, .nop, f)
  | some c =>
    match f.objs[c]? with
    | none => .panic
    | some current =>
      match lookup fuel current name with
      | .ret lr =>
        match lr.v with
        | some v => .ret (some (c, v), .nop, f)
        | none =>
          match newCounter fuel current name with
          | .ret r =>
            let objs := f.objs.set c { current with data := r.file.take current.data.length }
            if r.err ≠ none then .ret (none, .nop, ⟨objs, f.current⟩)
            else
              match r.m1 with
              | some newM =>
                .ret (r.v.map (fun v => (f.objs.length, v)), .invalidateCounters,
                  ⟨objs ++ [newM], some f.objs.length⟩)
              | none => .ret (r.v.map (fun v => (c, v)), .nop, ⟨objs, f.current⟩)
          | .panic => .panic
          | .diverge => .diverge
      | .panic => .panic
      | .diverge => .diverge

/-- `f.newCounter(name)`: `newCounter1` followed by the cleanup. The methods
`invalidate` and `refresh` of `Counter`, which `f.invalidateCounters` calls for
each registered counter, are not part of this file: their joint effect on the
state is the parameter `refresh` (the identity when no counter is
registered). -/
def fileNewCounter (fuel : Nat) (refresh : fileRefs → fileRefs) (f : fileRefs) (name : Bytes) :
    Run (Option (Nat × Nat) × fileRefs) :=
  match newCounter1 fuel f name with
  | .ret (v, .nop, f1) => .ret (v, f1)
  | .ret (v, .invalidateCounters, f1) => .ret (v, refresh f1)
  | .panic => .panic
  | .diverge => .diverge

/-- `f.lookup(name)`: the `counterPtr` returned (`none` is the empty
`counterPtr{}`) and the state afterwards. -/
def fileLookup (fuel : Nat) (refresh : fileRefs → fileRefs) (f : fileRefs) (name : Bytes) :
    Run (Option counterPtr × fileRefs) :=
  match f.current with
  | none => .ret (none, f)
  | some current =>
    match fileNewCounter fuel refresh f name with
    | .ret (none, f1) => .ret (none, f1)
    | .ret (some ptr, f1) => .ret (some ⟨current, ptr⟩, f1)
    | .panic => .panic
    | .diverge => .diverge

/-- The replacement mapping after `newCounter` for `wideName 7` on
`filled 6`, in closed form: the file is extended to 8192 bytes and the record
lies at `[4096, 4384)`. -/
def extended : mappedFile :=
  ⟨[], 32, allocData (grown (filled 6).data 4384) 32 4096 4384 (wideName 7)
    (32 + 4 + 4 * hash (wideName 7)) 0⟩


/-! ## Arithmetic of `round` -/

theorem andNot_two_pow (w k a : Nat) (hk : k ≤ w) (ha : a < 2 ^ w) :
    andNot w a (2 ^ k - 1) = a / 2 ^ k * 2 ^ k := by
  unfold andNot
  have h1 : 2 ^ k - 1 < 2 ^ w := by
    have : 2 ^ k ≤ 2 ^ w := Nat.pow_le_pow_right (by norm_num) hk
    have : 0 < 2 ^ k := Nat.two_pow_pos _
    omega
  have h2 : 2 ^ w - 1 - (2 ^ k - 1) = 2 ^ w - ((2 ^ k - 1) + 1) := by omega
  rw [h2, Nat.mul_comm]
  apply Nat.eq_of_testBit_eq
  intro i
  rw [Nat.testBit_and, Nat.testBit_two_pow_sub_succ h1, Nat.testBit_two_pow_sub_one,
    Nat.testBit_mul_pow_two, ← Nat.shiftRight_eq_div_pow, Nat.testBit_shiftRight]
  by_cases hik : i < k
  · have : ¬ i ≥ k := by omega
    simp [hik, this]
  · have hge : i ≥ k := by omega
    have e : k + (i - k) = i := by omega
    simp only [hik, hge, e, decide_True, decide_False, Bool.not_false, Bool.and_true,
      Bool.true_and]
    by_cases hiw : i < w
    · simp [hiw]
    · have : a < 2 ^ i := lt_of_lt_of_le ha (Nat.pow_le_pow_right (by norm_num) (by omega))
      simp [Nat.testBit_lt_two_pow this]

theorem round_two_pow (w k x : Nat) (hk : k ≤ w) (hx : x + 2 ^ k - 1 < 2 ^ w) :
    round w x (2 ^ k) = roundUp x (2 ^ k) := by
  have hp : 0 < 2 ^ k := Nat.two_pow_pos _
  have hw : 0 < 2 ^ w := Nat.two_pow_pos _
  have e1 : (x + 2 ^ k + (2 ^ w - 1)) % 2 ^ w = x + 2 ^ k - 1 := by
    have : x + 2 ^ k + (2 ^ w - 1) = (x + 2 ^ k - 1) + 2 ^ w := by omega
    rw [this, Nat.add_mod_right, Nat.mod_eq_of_lt hx]
  have e2 : (2 ^ k + (2 ^ w - 1)) % 2 ^ w = 2 ^ k - 1 := by
    have : 2 ^ k + (2 ^ w - 1) = (2 ^ k - 1) + 2 ^ w := by omega
    rw [this, Nat.add_mod_right, Nat.mod_eq_of_lt (by omega)]
  unfold round roundUp
  rw [e1, e2, andNot_two_pow w k _ hk hx]

theorem roundUp_dvd (x u : Nat) : u ∣ roundUp x u := Dvd.intro_left _ rfl

theorem roundUp_mod (x u : Nat) : roundUp x u % u = 0 := Nat.mul_mod_left _ _

theorem roundUp_ge (x u : Nat) (hu : 0 < u) : x ≤ roundUp x u := by
  unfold roundUp
  have h := Nat.div_add_mod (x + u - 1) u
  have h2 := Nat.mod_lt (x + u - 1) hu
  have h3 : u * ((x + u - 1) / u) = (x + u - 1) / u * u := Nat.mul_comm _ _
  omega

theorem roundUp_lt (x u : Nat) (hu : 0 < u) : roundUp x u < x + u := by
  unfold roundUp
  have h := Nat.div_add_mod (x + u - 1) u
  have h3 : u * ((x + u - 1) / u) = (x + u - 1) / u * u := Nat.mul_comm _ _
  omega

theorem roundUp_least (x u y : Nat) (hu : 0 < u) (hy : u ∣ y) (hxy : x ≤ y) :
    roundUp x u ≤ y := by
  obtain ⟨c, rfl⟩ := hy
  unfold roundUp
  have : (x + u - 1) / u ≤ c := by
    rw [Nat.div_le_iff_le_mul_add_pred hu]
    have : u * c + (u - 1) = u * c + u - 1 := by omega
    omega
  calc (x + u - 1) / u * u ≤ c * u := Nat.mul_le_mul_right _ this
    _ = u * c := Nat.mul_comm _ _

theorem roundUp_of_dvd (x u : Nat) (hu : 0 < u) (h : u ∣ x) : roundUp x u = x := by
  apply le_antisymm
  · exact roundUp_least x u x hu h le_rfl
  · exact roundUp_ge x u hu


theorem round_two_pow_wrap (w k a : Nat) (hk : k ≤ w) :
    round w a (2 ^ k) = (a + 2 ^ k + (2 ^ w - 1)) % 2 ^ w / 2 ^ k * 2 ^ k := by
  have hp : 0 < 2 ^ k := Nat.two_pow_pos _
  have hw : 0 < 2 ^ w := Nat.two_pow_pos _
  have hle : 2 ^ k ≤ 2 ^ w := Nat.pow_le_pow_right (by norm_num) hk
  have e2 : (2 ^ k + (2 ^ w - 1)) % 2 ^ w = 2 ^ k - 1 := by
    have : 2 ^ k + (2 ^ w - 1) = (2 ^ k - 1) + 2 ^ w := by omega
    rw [this, Nat.add_mod_right, Nat.mod_eq_of_lt (by omega)]
  unfold round
  rw [e2, andNot_two_pow w k _ hk (Nat.mod_lt _ hw)]

/-- The properties of rounding up, for the reference function. -/
theorem roundUp_spec (x u : Nat) (hu : 0 < u) :
    roundUp x u % u = 0 ∧ x ≤ roundUp x u ∧ roundUp x u < x + u ∧
      (∀ y, y % u = 0 → x ≤ y → roundUp x u ≤ y) ∧ roundUp (roundUp x u) u = roundUp x u :=
  ⟨roundUp_mod x u, roundUp_ge x u hu, roundUp_lt x u hu,
    fun y hy hxy => roundUp_least x u y hu (Nat.dvd_of_mod_eq_zero hy) hxy,
    roundUp_of_dvd _ u hu (roundUp_dvd x u)⟩

theorem round_word_spec (w k x : Nat) (hk : k ≤ w) (hx : x + 2 ^ k - 1 < 2 ^ w) :
    round w x (2 ^ k) % 2 ^ k = 0 ∧ x ≤ round w x (2 ^ k) ∧ round w x (2 ^ k) < x + 2 ^ k ∧
      (∀ y, y % 2 ^ k = 0 → x ≤ y → round w x (2 ^ k) ≤ y) ∧
      round w (round w x (2 ^ k)) (2 ^ k) = round w x (2 ^ k) := by
  have hp : 0 < 2 ^ k := Nat.two_pow_pos _
  have hr := round_two_pow w k x hk hx
  obtain ⟨h1, h2, h3, h4, h5⟩ := roundUp_spec x (2 ^ k) hp
  rw [hr]
  refine ⟨h1, h2, h3, h4, ?_⟩
  have hle : roundUp x (2 ^ k) + 2 ^ k - 1 < 2 ^ w := by
    -- a multiple of 2^k below 2^w is at most 2^w - 2^k
    obtain ⟨c, hc⟩ := roundUp_dvd x (2 ^ k)
    obtain ⟨d, hd⟩ : 2 ^ k ∣ 2 ^ w := pow_dvd_pow 2 hk
    have hlt : roundUp x (2 ^ k) < 2 ^ w := by omega
    rw [hc, hd] at hlt
    have hcd : c < d := lt_of_mul_lt_mul_left hlt (Nat.zero_le _)
    have : 2 ^ k * (c + 1) ≤ 2 ^ k * d := Nat.mul_le_mul_left _ hcd
    rw [hc, hd]
    have e : 2 ^ k * (c + 1) = 2 ^ k * c + 2 ^ k := by ring
    omega
  rw [round_two_pow w k _ hk hle, h5]


theorem intBits_cast (x : Int) : ((intBits x : Nat) : Int) = x % 2 ^ 64 := by
  unfold intBits
  exact Int.toNat_of_nonneg (Int.emod_nonneg _ (by norm_num))

theorem intBits_two_pow (k : Nat) (hk : k ≤ 62) : intBits ((2 : Int) ^ k) = 2 ^ k := by
  have h1 : (2 : Int) ^ k < 2 ^ 64 := by
    have : (2 : Int) ^ k ≤ 2 ^ 62 := pow_le_pow_right₀ (by norm_num) hk
    have : (2 : Int) ^ 62 < 2 ^ 64 := by norm_num
    omega
  have h0 : (0 : Int) ≤ 2 ^ k := by positivity
  apply Int.ofNat_inj.mp
  rw [intBits_cast, Int.emod_eq_of_lt h0 h1]
  push_cast
  rfl

theorem roundInt_two_pow (k : Nat) (x : Int) (hk : k ≤ 62) (hlo : -2 ^ 63 ≤ x)
    (hhi : x + 2 ^ k - 1 < 2 ^ 63) :
    roundInt x (2 ^ k) = (x + 2 ^ k - 1) / 2 ^ k * 2 ^ k := by
  unfold roundInt
  rw [intBits_two_pow k hk, round_two_pow_wrap 64 k _ (by omega)]
  set y : Int := x + 2 ^ k - 1 with hy
  set s : Nat := (intBits x + 2 ^ k + (2 ^ 64 - 1)) % 2 ^ 64 with hs
  have hUpos : (0 : Int) < 2 ^ k := by positivity
  have hU1 : (1 : Int) ≤ 2 ^ k := by omega
  have hsy : (s : Int) = y % 2 ^ 64 := by
    rw [hs]
    push_cast
    rw [intBits_cast]
    omega
  have hdvd : ((2 : Int) ^ k) ∣ 2 ^ 64 := pow_dvd_pow 2 (by omega)
  have hsm : (s : Int) % 2 ^ k = y % 2 ^ k := by
    rw [hsy, Int.emod_emod_of_dvd _ hdvd]
  have hn : ((s / 2 ^ k * 2 ^ k : Nat) : Int) = (s : Int) - y % 2 ^ k := by
    push_cast
    rw [← hsm]
    have := Int.emod_add_ediv (s : Int) (2 ^ k)
    have e : (s : Int) / 2 ^ k * 2 ^ k = 2 ^ k * ((s : Int) / 2 ^ k) := by ring
    omega
  have hr : y / 2 ^ k * 2 ^ k = y - y % 2 ^ k := by
    have := Int.emod_add_ediv y (2 ^ k)
    have e : y / 2 ^ k * 2 ^ k = 2 ^ k * (y / 2 ^ k) := by ring
    omega
  have hm0 := Int.emod_nonneg y (ne_of_gt hUpos)
  have hm1 := Int.emod_lt_of_pos y hUpos
  rw [hr]
  have hylo : -2 ^ 63 ≤ y := by omega
  unfold bitsInt
  by_cases hy0 : 0 ≤ y
  · have hsv : (s : Int) = y := by rw [hsy]; exact Int.emod_eq_of_lt hy0 (by omega)
    have hlt : s / 2 ^ k * 2 ^ k < 2 ^ 63 := by
      have : ((s / 2 ^ k * 2 ^ k : Nat) : Int) < 2 ^ 63 := by rw [hn, hsv]; omega
      exact_mod_cast this
    rw [if_pos hlt, hn, hsv]
  · have hsv : (s : Int) = y + 2 ^ 64 := by
      rw [hsy]
      have : y % 2 ^ 64 = (y + 2 ^ 64) % 2 ^ 64 := by simp
      rw [this]
      exact Int.emod_eq_of_lt (by omega) (by omega)
    have hge : ¬ s / 2 ^ k * 2 ^ k < 2 ^ 63 := by
      intro h
      have : ((s / 2 ^ k * 2 ^ k : Nat) : Int) < 2 ^ 63 := by exact_mod_cast h
      rw [hn, hsv] at this
      omega
    rw [if_neg hge, hn, hsv]
    ring


theorem roundInt_spec (k : Nat) (x : Int) (hk : k ≤ 62) (hlo : -2 ^ 63 ≤ x)
    (hhi : x + 2 ^ k - 1 < 2 ^ 63) :
    roundInt x (2 ^ k) % 2 ^ k = 0 ∧ x ≤ roundInt x (2 ^ k) ∧ roundInt x (2 ^ k) < x + 2 ^ k ∧
      (∀ y : Int, y % 2 ^ k = 0 → x ≤ y → roundInt x (2 ^ k) ≤ y) ∧
      roundInt (roundInt x (2 ^ k)) (2 ^ k) = roundInt x (2 ^ k) := by
  have hUpos : (0 : Int) < 2 ^ k := by positivity
  rw [roundInt_two_pow k x hk hlo hhi]
  set U : Int := 2 ^ k with hU
  have hdm := Int.emod_add_ediv (x + U - 1) U
  set q : Int := (x + U - 1) / U with hq
  have hm0 := Int.emod_nonneg (x + U - 1) (ne_of_gt hUpos)
  have hm1 := Int.emod_lt_of_pos (x + U - 1) hUpos
  have hcomm : q * U = U * q := by ring
  have hge : x ≤ q * U := by omega
  have hlt : q * U < x + U := by omega
  have hmod : q * U % U = 0 := Int.mul_emod_left q U
  have hleast : ∀ y : Int, y % U = 0 → x ≤ y → q * U ≤ y := by
    intro y hy hxy
    obtain ⟨c, rfl⟩ := Int.dvd_of_emod_eq_zero hy
    have hqc : q ≤ c := by
      by_contra hcon
      have h1 : c + 1 ≤ q := by omega
      have h2 : U * (c + 1) ≤ U * q := mul_le_mul_of_nonneg_left h1 (le_of_lt hUpos)
      have h3 : U * (c + 1) = U * c + U := by ring
      omega
    have := mul_le_mul_of_nonneg_left hqc (le_of_lt hUpos)
    omega
  refine ⟨hmod, hge, hlt, hleast, ?_⟩
  have hbound : q * U + U - 1 < 2 ^ 63 := by
    have hd : (2 : Int) ^ 63 = U * 2 ^ (63 - k) := by
      rw [hU, ← pow_add]; congr 1; omega
    have h1 : q * U < 2 ^ 63 := by omega
    have hqd : q < 2 ^ (63 - k) := by
      rw [hd, hcomm] at h1
      exact lt_of_mul_lt_mul_left h1 (le_of_lt hUpos)
    have h2 : U * (q + 1) ≤ U * 2 ^ (63 - k) :=
      mul_le_mul_of_nonneg_left (by omega) (le_of_lt hUpos)
    have h3 : U * (q + 1) = U * q + U := by ring
    omega
  rw [roundInt_two_pow k (q * U) hk (by omega) hbound]
  have : (q * U + U - 1) / U = q := by
    have e : q * U + U - 1 = (U - 1) + U * q := by ring
    rw [e, Int.add_mul_ediv_left _ _ (ne_of_gt hUpos), Int.ediv_eq_zero_of_lt (by omega) (by omega)]
    simp
  rw [this]

/-- C10: for a power-of-two `unit` and an `x` such that `x + unit - 1` does not
wrap in the operand type, `round(x, unit)` is a multiple of `unit`, lies in
`[x, x + unit)`, is the least multiple of `unit` at or above `x`, and is a
fixed point of `round`; at type `uint32` (first part) and at type `int`
(second part). -/
theorem round_least_multiple :
    (∀ k x : Nat, k < 32 → x + 2 ^ k - 1 < 2 ^ 32 →
      round 32 x (2 ^ k) % 2 ^ k = 0 ∧ x ≤ round 32 x (2 ^ k) ∧
      round 32 x (2 ^ k) < x + 2 ^ k ∧
      (∀ y, y % 2 ^ k = 0 → x ≤ y → round 32 x (2 ^ k) ≤ y) ∧
      round 32 (round 32 x (2 ^ k)) (2 ^ k) = round 32 x (2 ^ k)) ∧
    (∀ (k : Nat) (x : Int), k ≤ 62 → -2 ^ 63 ≤ x → x + 2 ^ k - 1 < 2 ^ 63 →
      roundInt x (2 ^ k) % 2 ^ k = 0 ∧ x ≤ roundInt x (2 ^ k) ∧
      roundInt x (2 ^ k) < x + 2 ^ k ∧
      (∀ y : Int, y % 2 ^ k = 0 → x ≤ y → roundInt x (2 ^ k) ≤ y) ∧
      roundInt (roundInt x (2 ^ k)) (2 ^ k) = roundInt x (2 ^ k)) :=
  ⟨fun k x hk hx => round_word_spec 32 k x (le_of_lt hk) hx,
   fun k x hk hlo hhi => roundInt_spec k x hk hlo hhi⟩

theorem round_least_multiple_witness :
    (round 32 2084 (2 ^ 5) % 2 ^ 5 = 0 ∧ 2084 ≤ round 32 2084 (2 ^ 5) ∧
      round 32 2084 (2 ^ 5) < 2084 + 2 ^ 5 ∧
      (∀ y, y % 2 ^ 5 = 0 → 2084 ≤ y → round 32 2084 (2 ^ 5) ≤ y) ∧
      round 32 (round 32 2084 (2 ^ 5)) (2 ^ 5) = round 32 2084 (2 ^ 5)) ∧
    (roundInt (-5) (2 ^ 2) % 2 ^ 2 = 0 ∧ -5 ≤ roundInt (-5) (2 ^ 2) ∧
      roundInt (-5) (2 ^ 2) < -5 + 2 ^ 2 ∧
      (∀ y : Int, y % 2 ^ 2 = 0 → -5 ≤ y → roundInt (-5) (2 ^ 2) ≤ y) ∧
      roundInt (roundInt (-5) (2 ^ 2)) (2 ^ 2) = roundInt (-5) (2 ^ 2)) :=
  ⟨round_least_multiple.1 5 2084 (by decide) (by decide),
   round_least_multiple.2 2 (-5) (by decide) (by decide) (by decide)⟩


/-! ## `hash` is FNV-1a -/

theorem hashLoop_eq_foldl (name : Bytes) :
    ∀ (k i h : Nat), i + k ≤ name.length →
      hashLoop name k i h = ((name.drop i).take k).foldl fnvStep h := by
  intro k
  induction k with
  | zero => intro i h _; simp [hashLoop]
  | succ k ih =>
    intro i h hle
    have hi : i < name.length := by omega
    rw [hashLoop, ih (i + 1) _ (by omega)]
    rw [List.drop_eq_getElem_cons hi, List.take_succ_cons, List.foldl_cons]
    have : name.getD i 0 = name[i] := by
      rw [List.getD_eq_getElem?_getD, List.getElem?_eq_getElem hi]; rfl
    rw [this]
    rfl

theorem hash_lt (name : Bytes) : hash name < 512 := by
  unfold hash
  exact Nat.mod_lt _ (by norm_num)

/-- C9: `hash(name)` is the 32-bit FNV-1a state of `name`, folded by
`h xor (h >> 16)` and reduced modulo 512; it is below 512, and the hash of the
empty name is 217. -/
theorem hash_is_fnv1a (name : Bytes) :
    hash name = (fnv1a name ^^^ (fnv1a name >>> 16)) % 512 ∧ hash name < 512 ∧
      hash [] = 217 := by
  refine ⟨?_, hash_lt name, by decide⟩
  unfold hash fnv1a
  rw [hashLoop_eq_foldl name name.length 0 _ (by omega)]
  simp


/-! ## Byte-level lemmas -/

@[simp] theorem length_writeBytes (d : Bytes) (off : Nat) (bs : Bytes) :
    (writeBytes d off bs).length = d.length := by
  unfold writeBytes
  split
  · simp only [List.length_append, List.length_take, List.length_drop]
    omega
  · rfl

theorem getElem?_writeBytes (d : Bytes) (off : Nat) (bs : Bytes) (i : Nat) :
    (writeBytes d off bs)[i]? =
      if off ≤ i ∧ i < off + bs.length ∧ i < d.length then bs[i - off]? else d[i]? := by
  unfold writeBytes
  by_cases hoff : off ≤ d.length
  · rw [if_pos hoff, List.append_assoc, List.getElem?_append]
    simp only [List.length_take, min_eq_left hoff]
    by_cases h1 : i < off
    · have : ¬ (off ≤ i ∧ i < off + bs.length ∧ i < d.length) := by omega
      rw [if_pos h1, if_neg this, List.getElem?_take, if_pos h1]
    · rw [if_neg h1, List.getElem?_append]
      simp only [List.length_take]
      by_cases h2 : i < off + bs.length ∧ i < d.length
      · have h3 : i - off < min (d.length - off) bs.length := by omega
        have h4 : off ≤ i ∧ i < off + bs.length ∧ i < d.length := ⟨by omega, h2.1, h2.2⟩
        rw [if_pos h3, if_pos h4, List.getElem?_take, if_pos (by omega)]
      · have h3 : ¬ i - off < min (d.length - off) bs.length := by omega
        have h4 : ¬ (off ≤ i ∧ i < off + bs.length ∧ i < d.length) := by omega
        rw [if_neg h3, if_neg h4, List.getElem?_drop]
        by_cases h5 : i < d.length
        · have h6 : bs.length ≤ d.length - off := by omega
          congr 1
          rw [min_eq_right h6]
          omega
        · rw [List.getElem?_eq_none (by omega), List.getElem?_eq_none (by omega)]
  · have : ¬ (off ≤ i ∧ i < off + bs.length ∧ i < d.length) := by omega
    rw [if_neg hoff, if_neg this]

theorem getElem?_readBytes (d : Bytes) (off n i : Nat) :
    (readBytes d off n)[i]? = if i < n then d[off + i]? else none := by
  unfold readBytes
  rw [List.getElem?_take, List.getElem?_drop]

theorem length_readBytes (d : Bytes) (off n : Nat) (h : off + n ≤ d.length) :
    (readBytes d off n).length = n := by
  unfold readBytes
  simp only [List.length_take, List.length_drop]
  omega

theorem readBytes_writeBytes_same (d : Bytes) (off : Nat) (bs : Bytes)
    (h : off + bs.length ≤ d.length) : readBytes (writeBytes d off bs) off bs.length = bs := by
  apply List.ext_getElem?
  intro i
  rw [getElem?_readBytes, getElem?_writeBytes]
  by_cases hi : i < bs.length
  · rw [if_pos hi, if_pos (by omega)]
    congr 1
    omega
  · rw [if_neg hi, List.getElem?_eq_none (by omega)]

theorem readBytes_writeBytes_disjoint (d : Bytes) (off : Nat) (bs : Bytes) (o n : Nat)
    (h : o + n ≤ off ∨ off + bs.length ≤ o) :
    readBytes (writeBytes d off bs) o n = readBytes d o n := by
  apply List.ext_getElem?
  intro i
  rw [getElem?_readBytes, getElem?_readBytes, getElem?_writeBytes]
  by_cases hi : i < n
  · rw [if_pos hi, if_pos hi, if_neg (by omega)]
  · rw [if_neg hi, if_neg hi]

theorem readBytes_congr (d d1 : Bytes) (o n : Nat)
    (h : ∀ i, o ≤ i → i < o + n → d1[i]? = d[i]?) : readBytes d1 o n = readBytes d o n := by
  apply List.ext_getElem?
  intro i
  rw [getElem?_readBytes, getElem?_readBytes]
  by_cases hi : i < n
  · rw [if_pos hi, if_pos hi]
    exact h _ (by omega) (by omega)
  · rw [if_neg hi, if_neg hi]

@[simp] theorem length_toLE (n v : Nat) : (toLE n v).length = n := by
  induction n generalizing v with
  | zero => rfl
  | succ n ih => simp [toLE, ih]

theorem fromLE_toLE (n v : Nat) : fromLE (toLE n v) = v % 256 ^ n := by
  induction n generalizing v with
  | zero => simp [toLE, fromLE, Nat.mod_one]
  | succ n ih =>
    rw [toLE, fromLE, ih]
    have h1 : (UInt8.ofNat (v % 256)).toNat = v % 256 := by
      show (v % 256) % 256 = v % 256
      exact Nat.mod_mod _ _
    rw [h1, pow_succ, Nat.mul_comm (256 ^ n) 256, Nat.mod_mul]

theorem fromLE_lt (bs : Bytes) : fromLE bs < 256 ^ bs.length := by
  induction bs with
  | nil => simp [fromLE]
  | cons b bs ih =>
    rw [fromLE, List.length_cons, pow_succ]
    have := UInt8.toNat_lt b
    have h256 : (2 : Nat) ^ 8 = 256 := by norm_num
    omega


/-! ## The header -/

theorem hdrPrefix_length : hdrPrefix.length = 28 := by decide

theorem mappedHeader_eq (meta : Bytes) (h : meta.length ≤ 512) :
    mappedHeader meta = .ok (writeBytes (writeBytes (writeBytes
      (List.replicate (roundUp (32 + meta.length) 32) 0) 0 hdrPrefix) 28
      (toLE 4 (u32 (roundUp (32 + meta.length) 32)))) 32 meta) := by
  unfold mappedHeader
  have hnp : round 64 hdrPrefix.length 4 = 28 := by decide
  have hn : round 64 (28 + 4 + meta.length) 32 = roundUp (32 + meta.length) 32 := by
    have := round_two_pow 64 5 (28 + 4 + meta.length) (by omega) (by norm_num; omega)
    simpa [Nat.add_comm, Nat.add_left_comm] using this
  rw [if_neg (by simp only [maxMetaLen]; omega)]
  simp only [hnp, hn]

theorem mappedHeader_ok_iff (meta hdr : Bytes) (h : mappedHeader meta = .ok hdr) :
    meta.length ≤ 512 := by
  unfold mappedHeader at h
  by_contra hc
  rw [if_pos (by simp only [maxMetaLen]; omega)] at h
  cases h

theorem mappedHeader_length (meta hdr : Bytes) (h : mappedHeader meta = .ok hdr) :
    hdr.length = roundUp (32 + meta.length) 32 := by
  have hm := mappedHeader_ok_iff meta hdr h
  rw [mappedHeader_eq meta hm] at h
  cases h
  simp

theorem mappedHeader_length_bounds (meta hdr : Bytes) (h : mappedHeader meta = .ok hdr) :
    hdr.length % 32 = 0 ∧ 32 ≤ hdr.length ∧ hdr.length ≤ 544 := by
  have hm := mappedHeader_ok_iff meta hdr h
  rw [mappedHeader_length meta hdr h]
  have h1 := roundUp_mod (32 + meta.length) 32
  have h2 := roundUp_ge (32 + meta.length) 32 (by norm_num)
  have h3 := roundUp_lt (32 + meta.length) 32 (by norm_num)
  omega

/-! ## `place` -/

theorem u32_of_lt (x : Nat) (h : x < 2 ^ 32) : u32 x = x := Nat.mod_eq_of_lt h

theorem round32_unit (x : Nat) (h : x + 32 - 1 < 2 ^ 32) : round 32 x 32 = roundUp x 32 :=
  round_two_pow 32 5 x (by omega) h

theorem round32_page (x : Nat) (h : x + 4096 - 1 < 2 ^ 32) : round 32 x 4096 = roundUp x 4096 :=
  round_two_pow 32 12 x (by omega) h

theorem place_eq_placeRef (m : mappedFile) (limit : Nat) (name : Bytes) (hl : limit ≠ 0)
    (hw : placeNoWrap m limit name) :
    place m limit name = placeRef limit name := by
  unfold placeNoWrap at hw
  simp only [if_neg hl, recordUnit, pageSize] at hw
  obtain ⟨h0, h1, h2, h3, h4⟩ := hw
  have hn : round 32 (u32 (16 + name.length)) 32 = roundUp (16 + name.length) 32 := by
    rw [u32_of_lt _ (by omega), round32_unit _ h1]
  have hs : round 32 limit 32 = roundUp limit 32 := round32_unit _ h2
  rw [hn, hs] at h3 h4
  unfold place placeRef
  simp only [if_neg hl, recordUnit, pageSize, hn, hs, u32_of_lt _ h3]
  by_cases hp : roundUp limit 32 / 4096 ≠ (roundUp limit 32 + roundUp (16 + name.length) 32) / 4096
  · obtain ⟨h5, h6⟩ := h4 hp
    rw [round32_page _ h5] at h6
    rw [if_pos hp, if_pos hp, round32_page _ h5, u32_of_lt _ h6]
  · rw [if_neg hp, if_neg hp, u32_of_lt _ h3]

theorem placeRef_start_ge (limit : Nat) (name : Bytes) : limit ≤ (placeRef limit name).1 := by
  unfold placeRef
  simp only
  split
  · exact roundUp_ge _ _ (by norm_num)
  · exact roundUp_ge _ _ (by norm_num)

theorem place_zero (m : mappedFile) (name : Bytes) (h : m.hdrLen + 2052 < 2 ^ 32) :
    place m 0 name = place m (m.hdrLen + 2052) name := by
  unfold place
  have : ¬ (m.hdrLen + 2052 = 0) := by omega
  simp only [if_pos, if_neg this, hashOff, numHash]
  rw [u32_of_lt _ (by omega)]

theorem placeNoWrap_zero (m : mappedFile) (name : Bytes) (hw : placeNoWrap m 0 name) :
    placeNoWrap m (m.hdrLen + 2052) name := by
  unfold placeNoWrap at hw ⊢
  have : ¬ (m.hdrLen + 2052 = 0) := by omega
  simp only [if_pos, if_neg this, hashOff, numHash] at hw ⊢
  exact hw

theorem roundUp_name_bounds (n : Nat) (h : n ≤ 256) :
    32 ≤ roundUp (16 + n) 32 ∧ roundUp (16 + n) 32 ≤ 288 ∧ roundUp (16 + n) 32 % 32 = 0 ∧
      16 + n ≤ roundUp (16 + n) 32 := by
  have h1 := roundUp_mod (16 + n) 32
  have h2 := roundUp_ge (16 + n) 32 (by norm_num)
  have h3 := roundUp_lt (16 + n) 32 (by norm_num)
  omega

theorem placeRef_props (limit : Nat) (name : Bytes) (hn : name.length ≤ 256) :
    (placeRef limit name).1 % 32 = 0 ∧
      (placeRef limit name).2 = (placeRef limit name).1 + roundUp (16 + name.length) 32 ∧
      (placeRef limit name).1 / 4096 = ((placeRef limit name).2 - 1) / 4096 ∧
      (placeRef limit name).2 / 4096 = (placeRef limit name).1 / 4096 := by
  obtain ⟨b1, b2, b3, b4⟩ := roundUp_name_bounds name.length hn
  unfold placeRef
  simp only
  split
  · have h1 := roundUp_mod limit 4096
    refine ⟨by omega, by first | rfl | trivial, by omega, by omega⟩
  · rename_i hp
    have h1 := roundUp_mod limit 32
    push_neg at hp
    refine ⟨h1, by first | rfl | trivial, by omega, by omega⟩

/-- C7: for a non-zero limit, when no 32-bit addition wraps, `place` returns
the reference placement, and the start is not below the limit. -/
theorem place_eq_reference (m : mappedFile) (limit : Nat) (name : Bytes) (hl : limit ≠ 0)
    (hw : placeNoWrap m limit name) :
    place m limit name = placeRef limit name ∧ limit ≤ (place m limit name).1 := by
  have heq := place_eq_placeRef m limit name hl hw
  exact ⟨heq, heq ▸ placeRef_start_ge limit name⟩

theorem place_eq_reference_witness :
    place ⟨[], 32, []⟩ 2144 [97] = placeRef 2144 [97] ∧ 2144 ≤ (place ⟨[], 32, []⟩ 2144 [97]).1 :=
  place_eq_reference ⟨[], 32, []⟩ 2144 [97] (by decide) (by decide)

/-- C3: for a header length produced by `mappedHeader`, any limit (zero or
not) for which no 32-bit addition wraps, and a name of at most 256 bytes, the
record placed by `place` starts at a multiple of 32, has length
`round(16 + len(name), 32)`, and lies within one 4096-byte page. -/
theorem place_within_page (meta hdr : Bytes) (m : mappedFile) (limit : Nat) (name : Bytes)
    (hh : mappedHeader meta = .ok hdr) (hm : m.hdrLen = hdr.length)
    (hn : name.length ≤ 256) (hw : placeNoWrap m limit name) :
    (place m limit name).1 % 32 = 0 ∧
      (place m limit name).2 = (place m limit name).1 + round 32 (16 + name.length) 32 ∧
      (place m limit name).1 / 4096 = ((place m limit name).2 - 1) / 4096 := by
  have hb := mappedHeader_length_bounds meta hdr hh
  have hr : round 32 (16 + name.length) 32 = roundUp (16 + name.length) 32 :=
    round32_unit _ (by omega)
  rw [hr]
  by_cases hl : limit = 0
  · subst hl
    have hw1 := placeNoWrap_zero m name hw
    rw [place_zero m name (by omega), place_eq_placeRef m _ name (by omega) hw1]
    obtain ⟨p1, p2, p3, _⟩ := placeRef_props (m.hdrLen + 2052) name hn
    exact ⟨p1, p2, p3⟩
  · rw [place_eq_placeRef m limit name hl hw]
    obtain ⟨p1, p2, p3, _⟩ := placeRef_props limit name hn
    exact ⟨p1, p2, p3⟩

theorem place_within_page_witness :
    (place ⟨[], 32, []⟩ 4064 [97]).1 % 32 = 0 ∧
      (place ⟨[], 32, []⟩ 4064 [97]).2 =
        (place ⟨[], 32, []⟩ 4064 [97]).1 + round 32 (16 + [(97 : UInt8)].length) 32 ∧
      (place ⟨[], 32, []⟩ 4064 [97]).1 / 4096 = ((place ⟨[], 32, []⟩ 4064 [97]).2 - 1) / 4096 :=
  place_within_page []
    (writeBytes (writeBytes (writeBytes (List.replicate 32 0) 0 hdrPrefix) 28 (toLE 4 (u32 32))) 32 [])
    ⟨[], 32, []⟩ 4064 [97] rfl (by decide) (by decide) (by decide)

theorem place_first_start (m : mappedFile) (name : Bytes) (hH1 : m.hdrLen % 32 = 0)
    (hH3 : m.hdrLen ≤ 544) (hn : name.length ≤ 256) :
    (place m 0 name).1 = roundUp (m.hdrLen + hashOff + 4 * numHash) 32 ∧
      (place m 0 name).1 = m.hdrLen + 2080 := by
  obtain ⟨b1, b2, b3, b4⟩ := roundUp_name_bounds name.length hn
  have hru : roundUp (m.hdrLen + 2052) 32 = m.hdrLen + 2080 := by
    have h1 := roundUp_mod (m.hdrLen + 2052) 32
    have h2 := roundUp_ge (m.hdrLen + 2052) 32 (by norm_num)
    have h3 := roundUp_lt (m.hdrLen + 2052) 32 (by norm_num)
    omega
  have hw : placeNoWrap m (m.hdrLen + 2052) name := by
    unfold placeNoWrap
    have : ¬ (m.hdrLen + 2052 = 0) := by omega
    simp only [if_neg this, recordUnit, pageSize]
    rw [u32_of_lt _ (by omega), round32_unit _ (by omega), round32_unit _ (by omega), hru]
    refine ⟨by omega, by omega, by omega, by omega, fun hp => ?_⟩
    exfalso
    apply hp
    omega
  rw [place_zero m name (by omega), place_eq_placeRef m _ name (by omega) hw]
  have hst : (placeRef (m.hdrLen + 2052) name).1 = m.hdrLen + 2080 := by
    unfold placeRef
    simp only [hru]
    rw [if_neg]
    push_neg
    omega
  rw [hst]
  have e : m.hdrLen + hashOff + 4 * numHash = m.hdrLen + 2052 := by
    simp only [hashOff, numHash]
  rw [e, hru]
  exact ⟨rfl, rfl⟩

/-- C8 (as the code has it): with no record allocated yet (`limit = 0`), the
first record starts at the header length plus the 4-byte limit word plus the
2048-byte hash table, rounded up to a multiple of 32, which is `hdrLen + 2080`. -/
theorem place_first_record (meta hdr : Bytes) (m : mappedFile) (name : Bytes)
    (hh : mappedHeader meta = .ok hdr) (hm : m.hdrLen = hdr.length)
    (hn : name.length ≤ 256) :
    (place m 0 name).1 = roundUp (m.hdrLen + hashOff + 4 * numHash) 32 ∧
      (place m 0 name).1 = m.hdrLen + 2080 := by
  have hb := mappedHeader_length_bounds meta hdr hh
  exact place_first_start m name (by omega) (by omega) hn

theorem place_first_record_witness :
    (place ⟨[], 32, []⟩ 0 [97]).1 = roundUp (32 + hashOff + 4 * numHash) 32 ∧
      (place ⟨[], 32, []⟩ 0 [97]).1 = 32 + 2080 :=
  place_first_record []
    (writeBytes (writeBytes (writeBytes (List.replicate 32 0) 0 hdrPrefix) 28 (toLE 4 (u32 32))) 32 [])
    ⟨[], 32, []⟩ [97] rfl (by decide) (by decide)

/-- C8 fails as stated: for the header of the empty metadata (32 bytes) and
the name "a", `place` with `limit = 0` starts the record at 2112, while the
header length plus the 2048 bytes of the hash table, rounded up to 32, is 2080. -/
theorem first_record_not_at_table_end :
    (mappedHeader []).toOption.map List.length = some 32 ∧
      (place ⟨[], 32, []⟩ 0 [97]).1 = 2112 ∧ roundUp (32 + 4 * numHash) 32 = 2080 ∧
      (place ⟨[], 32, []⟩ 0 [97]).1 ≠ roundUp (32 + 4 * numHash) 32 := by
  decide


/-! ## Opening a file -/

theorem getElem?_writeAt (file b : Bytes) (off i : Nat) :
    (writeAt file b off)[i]? =
      if i < off then (if i < file.length then file[i]? else some 0)
      else if i < off + b.length then b[i - off]? else file[i]? := by
  unfold writeAt
  simp only
  have hpl : (file ++ List.replicate (off + b.length - file.length) (0 : UInt8)).length
      = max file.length (off + b.length) := by
    simp only [List.length_append, List.length_replicate]; omega
  have hp : ∀ j, (file ++ List.replicate (off + b.length - file.length) (0 : UInt8))[j]? =
      if j < file.length then file[j]? else if j < off + b.length then some 0 else none := by
    intro j
    rw [List.getElem?_append]
    by_cases hj : j < file.length
    · rw [if_pos hj, if_pos hj]
    · rw [if_neg hj, if_neg hj, List.getElem?_replicate]
      by_cases hj2 : j < off + b.length
      · rw [if_pos (by omega), if_pos hj2]
      · rw [if_neg (by omega), if_neg hj2]
  rw [List.append_assoc, List.getElem?_append]
  simp only [List.length_take, hpl]
  by_cases h1 : i < off
  · rw [if_pos (by omega), if_pos h1, List.getElem?_take, if_pos h1, hp]
    by_cases h2 : i < file.length
    · rw [if_pos h2, if_pos h2]
    · rw [if_neg h2, if_neg h2, if_pos (by omega)]
  · rw [if_neg (by omega), if_neg h1, List.getElem?_append]
    have hm : min off (max file.length (off + b.length)) = off := by omega
    rw [hm]
    by_cases h2 : i < off + b.length
    · rw [if_pos (by omega), if_pos h2]
    · rw [if_neg (by omega), if_neg h2, List.getElem?_drop, hp]
      have e : off + b.length + (i - off - b.length) = i := by omega
      rw [e]
      by_cases h3 : i < file.length
      · rw [if_pos h3]
      · rw [if_neg h3, if_neg h2, List.getElem?_eq_none (by omega)]

theorem length_writeAt (file b : Bytes) (off : Nat) :
    (writeAt file b off).length = max file.length (off + b.length) := by
  unfold writeAt
  simp only [List.length_append, List.length_take, List.length_drop, List.length_replicate]
  omega

theorem writeAt_zero_extend (d : Bytes) (E : Nat) (h : d.length + 4 ≤ E) :
    writeAt d zero4 (E - 4) = d ++ List.replicate (E - d.length) 0 := by
  apply List.ext_getElem?
  intro i
  rw [getElem?_writeAt, List.getElem?_append, List.getElem?_replicate]
  have hz : zero4.length = 4 := rfl
  rw [hz]
  by_cases h1 : i < E - 4
  · rw [if_pos h1]
    by_cases h2 : i < d.length
    · rw [if_pos h2, if_pos h2]
    · rw [if_neg h2, if_neg h2, if_pos (by omega)]
  · rw [if_neg h1]
    by_cases h2 : i < E - 4 + 4
    · rw [if_pos h2]
      have h3 : i - (E - 4) < 4 := by omega
      have hz : zero4[i - (E - 4)]? = some 0 := by
        generalize i - (E - 4) = j at h3
        interval_cases j <;> rfl
      rw [hz]
      by_cases h4 : i < d.length
      · rw [if_pos h4]
        exfalso; omega
      · rw [if_neg h4, if_pos (by omega)]
    · rw [if_neg h2, if_neg (by omega), if_neg (by omega)]
      exact List.getElem?_eq_none (by omega)


theorem mappedHeader_magic_bytes (meta hdr : Bytes) (h : mappedHeader meta = .ok hdr)
    (i : Nat) (hi : i < 28) : hdr[i]? = hdrPrefix[i]? := by
  have hm := mappedHeader_ok_iff meta hdr h
  have hb := mappedHeader_length_bounds meta hdr h
  have hl := mappedHeader_length meta hdr h
  rw [mappedHeader_eq meta hm] at h
  cases h
  have hru := roundUp_ge (32 + meta.length) 32 (by norm_num)
  rw [getElem?_writeBytes, if_neg (by omega), getElem?_writeBytes, if_neg (by omega),
    getElem?_writeBytes, if_pos ⟨by omega, by rw [hdrPrefix_length]; omega, by simp; omega⟩]
  rfl

theorem isPrefixOf_eq_true_iff (a b : Bytes) : a.isPrefixOf b = true ↔ a <+: b :=
  List.isPrefixOf_iff_prefix

theorem openMapped_existing (meta hdr file : Bytes) (h : mappedHeader meta = .ok hdr)
    (hl : 4096 ≤ file.length) :
    openMapped file meta =
      if hdr.isPrefixOf file then (.ok ⟨meta, u32 hdr.length, file⟩, file)
      else (.error .headerMismatch, file) := by
  unfold openMapped
  rw [h]
  simp only [minFileLen]
  have : ¬ file.length < 4096 := by omega
  simp only [this, false_and, if_false]

theorem openMapped_created (meta hdr : Bytes) (h : mappedHeader meta = .ok hdr) :
    openMapped [] meta =
      (.ok ⟨meta, hdr.length, hdr ++ List.replicate (4096 - hdr.length) 0⟩,
        hdr ++ List.replicate (4096 - hdr.length) 0) := by
  have hb := mappedHeader_length_bounds meta hdr h
  have e : writeAt (writeAt [] hdr 0) zero4 (minFileLen - zero4.length) =
      hdr ++ List.replicate (4096 - hdr.length) 0 := by
    apply List.ext_getElem?
    intro i
    have hz : zero4.length = 4 := rfl
    rw [getElem?_writeAt, List.getElem?_append, List.getElem?_replicate, length_writeAt,
      getElem?_writeAt, hz]
    simp only [minFileLen, List.length_nil, Nat.zero_add, Nat.not_lt_zero, if_false]
    have hmax : max 0 hdr.length = hdr.length := by omega
    rw [hmax]
    by_cases h1 : i < hdr.length
    · rw [if_pos (by omega), if_pos h1, if_pos h1, if_pos h1, Nat.sub_zero]
    · by_cases h2 : i < 4096 - 4
      · rw [if_pos h2, if_neg h1, if_neg h1, if_pos (by omega)]
      · rw [if_neg h2, if_neg h1, if_neg h1, List.getElem?_nil]
        by_cases h3 : i < 4096 - 4 + 4
        · rw [if_pos h3, if_pos (by omega)]
          have h4 : i - (4096 - 4) < 4 := by omega
          generalize i - (4096 - 4) = j at h4
          interval_cases j <;> rfl
        · rw [if_neg h3, if_neg (by omega)]
  unfold openMapped
  rw [h]
  simp only [e]
  have hlen : (hdr ++ List.replicate (4096 - hdr.length) (0 : UInt8)).length = 4096 := by
    simp only [List.length_append, List.length_replicate]; omega
  have hp : hdr.isPrefixOf (hdr ++ List.replicate (4096 - hdr.length) (0 : UInt8)) = true :=
    (isPrefixOf_eq_true_iff _ _).2 (List.prefix_append _ _)
  have hu : u32 hdr.length = hdr.length := u32_of_lt _ (by omega)
  simp [minFileLen, hlen, hp, hu]

/-- C6 (as the code has it): a pre-existing file of at least 4096 bytes that
begins with the version-0 magic is rejected with the header-mismatch error, no
mapped file is returned and the file is left as it was. -/
theorem openMapped_rejects_v0 (meta file : Bytes) (hm : meta.length ≤ 512)
    (hl : 4096 ≤ file.length) (hp : magicV0 <+: file) :
    openMapped file meta = (.error .headerMismatch, file) := by
  have hh := mappedHeader_eq meta hm
  rw [openMapped_existing meta _ file hh hl]
  rw [if_neg]
  intro hpre
  have hpre := (isPrefixOf_eq_true_iff _ _).1 hpre
  obtain ⟨t, ht⟩ := hpre
  obtain ⟨t0, ht0⟩ := hp
  have h1 := mappedHeader_magic_bytes meta _ hh 26 (by norm_num)
  have hb := mappedHeader_length_bounds meta _ hh
  have h2 : file[26]? = hdrPrefix[26]? := by
    rw [← ht, List.getElem?_append_left (by omega), h1]
  have h3 : file[26]? = magicV0[26]? := by
    rw [← ht0, List.getElem?_append_left (by decide)]
  rw [h3] at h2
  revert h2
  decide

theorem openMapped_rejects_v0_witness :
    openMapped (magicV0 ++ List.replicate 4096 0) [] =
      (.error .headerMismatch, magicV0 ++ List.replicate 4096 0) :=
  openMapped_rejects_v0 [] (magicV0 ++ List.replicate 4096 0) (by decide)
    (by rw [List.length_append, List.length_replicate]; omega) (List.prefix_append _ _)

/-- C6 fails as stated: a pre-existing file that consists of the version-0
magic only (28 bytes, shorter than 4096) is opened without error, and its
first 28 bytes are overwritten with the version-1 magic. -/
theorem openMapped_overwrites_short_v0 :
    magicV0 <+: magicV0 ∧ magicV0.length = 28 ∧
      (openMapped magicV0 []).1.toOption.isSome = true ∧
      (openMapped magicV0 []).2.take 28 = hdrPrefix ∧ hdrPrefix ≠ magicV0 := by
  refine ⟨List.prefix_refl _, by decide, by decide!, by decide!, by decide⟩


/-! ## Words in the mapping -/

theorem load32_eq_word (m : mappedFile) (off : Nat) : load32 m off = word m.data off := by
  unfold load32 word
  split
  · rename_i h
    have : readBytes m.data off 4 = [] := by
      unfold readBytes
      rw [List.drop_eq_nil_of_le h]
      rfl
    rw [this]
    rfl
  · rfl

theorem word_lt (d : Bytes) (off : Nat) : word d off < 2 ^ 32 := by
  unfold word
  have h := fromLE_lt (readBytes d off 4)
  have hl : (readBytes d off 4).length ≤ 4 := by
    unfold readBytes
    simp only [List.length_take]
    omega
  have : 256 ^ (readBytes d off 4).length ≤ 256 ^ 4 := Nat.pow_le_pow_right (by norm_num) hl
  have e : (256 : Nat) ^ 4 = 2 ^ 32 := by norm_num
  omega

theorem word_write_same (d : Bytes) (off v : Nat) (h : off + 4 ≤ d.length) (hv : v < 2 ^ 32) :
    word (writeBytes d off (toLE 4 v)) off = v := by
  unfold word
  have := readBytes_writeBytes_same d off (toLE 4 v) (by rw [length_toLE]; exact h)
  rw [length_toLE] at this
  rw [this, fromLE_toLE]
  exact Nat.mod_eq_of_lt (by norm_num at hv ⊢; exact hv)

theorem word_write_disjoint (d : Bytes) (off : Nat) (bs : Bytes) (o : Nat)
    (h : o + 4 ≤ off ∨ off + bs.length ≤ o) : word (writeBytes d off bs) o = word d o := by
  unfold word
  rw [readBytes_writeBytes_disjoint d off bs o 4 h]

theorem load64_write_disjoint (d : Bytes) (off : Nat) (bs : Bytes) (o : Nat)
    (h : o + 8 ≤ off ∨ off + bs.length ≤ o) : load64 (writeBytes d off bs) o = load64 d o := by
  unfold load64
  rw [readBytes_writeBytes_disjoint d off bs o 8 h]

theorem load64_write_same (d : Bytes) (off v : Nat) (h : off + 8 ≤ d.length) (hv : v < 2 ^ 64) :
    load64 (writeBytes d off (toLE 8 v)) off = v := by
  unfold load64
  have := readBytes_writeBytes_same d off (toLE 8 v) (by rw [length_toLE]; exact h)
  rw [length_toLE] at this
  rw [this, fromLE_toLE]
  exact Nat.mod_eq_of_lt (by norm_num at hv ⊢; exact hv)

theorem tag_and (n : Nat) (h : n ≤ 256) : (u32 n ||| 0xff000000) &&& 0x00ffffff = n := by
  rw [u32_of_lt _ (by omega)]
  have e1 : (0x00ffffff : Nat) = 2 ^ 24 - 1 := by norm_num
  rw [e1, Nat.and_pow_two_sub_one_eq_mod]
  apply Nat.eq_of_testBit_eq
  intro i
  rw [Nat.testBit_mod_two_pow, Nat.testBit_or]
  by_cases hi : i < 24
  · have : Nat.testBit 0xff000000 i = false := by
      interval_cases i <;> rfl
    simp [hi, this]
  · have hn : n < 2 ^ i := lt_of_lt_of_le (by omega : n < 2 ^ 24)
      (Nat.pow_le_pow_right (by norm_num) (by omega))
    simp [hi, Nat.testBit_lt_two_pow hn]

theorem tag_lt (n : Nat) (h : n ≤ 256) : u32 n ||| 0xff000000 < 2 ^ 32 := by
  rw [u32_of_lt _ (by omega)]
  exact Nat.or_lt_two_pow (by omega) (by norm_num)


/-! ## The allocation path of `newCounter` -/

theorem cas32_limit (m : mappedFile) (L e : Nat) (hH : m.hdrLen ≤ 544)
    (hlen : 4096 ≤ m.data.length) (hL : word m.data m.hdrLen = L) :
    cas32 m (u32 (m.hdrLen + limitOff)) L e = .ret (true, store32 m m.hdrLen e) := by
  have hu : u32 (m.hdrLen + limitOff) = m.hdrLen := u32_of_lt _ (by simp only [limitOff]; omega)
  unfold cas32
  rw [hu, if_neg (by omega)]
  have : fromLE (readBytes m.data m.hdrLen 4) = L := hL
  rw [if_pos this]

theorem writeAndLink_run (m : mappedFile) (name : Bytes) (s e ho hd F : Nat) (changed : Bool)
    (hH : m.hdrLen ≤ 544) (hho : m.hdrLen + 4 ≤ ho) (hho2 : ho + 4 ≤ m.hdrLen + 2052)
    (hs : m.hdrLen + 2052 ≤ s) (hse : s + 16 + name.length ≤ e) (he : e ≤ m.data.length)
    (he2 : e < 2 ^ 32) (hhd : word m.data ho = hd) (hF : 1 ≤ F) :
    writeAndLink F (store32 m m.hdrLen e) changed name s ho hd =
      .ret (finish changed ⟨m.meta, m.hdrLen, allocData m.data m.hdrLen s e name ho hd⟩
        (some s) none) := by
  obtain ⟨F', rfl⟩ : ∃ F', F = F' + 1 := ⟨F - 1, by omega⟩
  have hu4 : u32 (m.hdrLen + hashOff) = m.hdrLen + 4 := u32_of_lt _ (by simp only [hashOff]; omega)
  have hu8 : u32 (s + 8) = s + 8 := u32_of_lt _ (by omega)
  have hu12 : u32 (s + 12) = s + 12 := u32_of_lt _ (by omega)
  have hu16 : u32 (s + 16) = s + 16 := u32_of_lt _ (by omega)
  unfold writeAndLink writeEntryAt
  simp only [store32, length_writeBytes, hu4, hu8, hu12, hu16]
  rw [if_neg (by omega)]
  simp only [linkLoop, store32, cas32, length_writeBytes]
  rw [if_neg (by omega)]
  have hw : fromLE (readBytes (writeBytes (writeBytes (writeBytes (writeBytes m.data m.hdrLen
      (toLE 4 e)) (s + 16) name) (s + 8) (toLE 4 (u32 name.length ||| 0xff000000))) (s + 12)
      (toLE 4 hd)) ho 4) = hd := by
    show word _ ho = hd
    rw [word_write_disjoint _ _ _ _ (by rw [length_toLE]; omega),
      word_write_disjoint _ _ _ _ (by rw [length_toLE]; omega),
      word_write_disjoint _ _ _ _ (by omega),
      word_write_disjoint _ _ _ _ (by rw [length_toLE]; omega), hhd]
  rw [if_pos hw]
  rfl


theorem WInv.hdrLen_bounds {m : mappedFile} (h : WInv m) :
    m.hdrLen % 32 = 0 ∧ 32 ≤ m.hdrLen ∧ m.hdrLen ≤ 544 := by
  obtain ⟨hdr, h1, h2, _⟩ := h.hdr
  rw [h2]
  exact mappedHeader_length_bounds _ _ h1

theorem placeRef_end_le (L : Nat) (name : Bytes) (hn : name.length ≤ 256) :
    (placeRef L name).2 ≤ L + 607 := by
  obtain ⟨b1, b2, b3, b4⟩ := roundUp_name_bounds name.length hn
  have h1 := roundUp_mod L 32
  have h2 := roundUp_ge L 32 (by norm_num)
  have h3 := roundUp_lt L 32 (by norm_num)
  have h4 := roundUp_mod L 4096
  have h5 := roundUp_ge L 4096 (by norm_num)
  have h6 := roundUp_lt L 4096 (by norm_num)
  unfold placeRef
  simp only
  split
  · rename_i hp
    have hl : roundUp L 4096 ≤ 4096 * ((roundUp L 32 + roundUp (16 + name.length) 32) / 4096) := by
      apply roundUp_least _ _ _ (by norm_num) (Dvd.intro _ rfl)
      omega
    omega
  · omega

/-- The facts about `place` at the current limit of a well-formed file. -/
theorem place_facts (m : mappedFile) (name : Bytes) (L : Nat) (hw : WInv m)
    (hn : name.length ≤ 256) (hL : L ≤ m.data.length) (hlo : L = 0 ∨ m.hdrLen + 2052 ≤ L) :
    (place m L name).1 % 32 = 0 ∧ m.hdrLen + 2080 ≤ (place m L name).1 ∧
      L ≤ (place m L name).1 ∧
      (place m L name).2 = (place m L name).1 + recSize name ∧
      (place m L name).2 < 2 ^ 32 ∧
      (place m L name).1 / 4096 = ((place m L name).2 - 1) / 4096 ∧
      (place m L name).2 ≤ (if L = 0 then m.hdrLen + 2052 else L) + 607 := by
  obtain ⟨hH1, hH2, hH3⟩ := hw.hdrLen_bounds
  have hmax := hw.len_max
  obtain ⟨b1, b2, b3, b4⟩ := roundUp_name_bounds name.length hn
  have key : ∀ L', L' ≠ 0 → L' ≤ 2 ^ 32 - 4096 → placeNoWrap m L' name := by
    intro L' h0 hle
    unfold placeNoWrap
    simp only [if_neg h0, recordUnit, pageSize]
    rw [u32_of_lt _ (by omega), round32_unit _ (by omega), round32_unit _ (by omega)]
    have h2 := roundUp_ge L' 32 (by norm_num)
    have h3 := roundUp_lt L' 32 (by norm_num)
    refine ⟨by omega, by omega, by omega, by omega, fun _ => ⟨by omega, ?_⟩⟩
    rw [round32_page _ (by omega)]
    have : roundUp L' 4096 ≤ 2 ^ 32 - 4096 :=
      roundUp_least _ _ _ (by norm_num) (by norm_num) hle
    omega
  have main : ∀ L', L' ≠ 0 → L' ≤ 2 ^ 32 - 4096 → place m L' name = placeRef L' name :=
    fun L' h0 hle => place_eq_placeRef m L' name h0 (key L' h0 hle)
  unfold recSize
  by_cases h0 : L = 0
  · subst h0
    rw [place_zero m name (by omega), main _ (by omega) (by omega), if_pos rfl]
    obtain ⟨p1, p2, p3, p4⟩ := placeRef_props (m.hdrLen + 2052) name hn
    have p5 := placeRef_start_ge (m.hdrLen + 2052) name
    have p6 := placeRef_end_le (m.hdrLen + 2052) name hn
    refine ⟨p1, by omega, by omega, p2, by omega, p3, p6⟩
  · rw [main _ h0 (by omega), if_neg h0]
    obtain ⟨p1, p2, p3, p4⟩ := placeRef_props L name hn
    have p5 := placeRef_start_ge L name
    have p6 := placeRef_end_le L name hn
    refine ⟨p1, by omega, p5, p2, by omega, p3, p6⟩


theorem readBytes_append_left (d z : Bytes) (o n : Nat) (h : o + n ≤ d.length) :
    readBytes (d ++ z) o n = readBytes d o n := by
  apply readBytes_congr
  intro i _ hi
  rw [List.getElem?_append_left (by omega)]

theorem readBytes_zero (d : Bytes) (n : Nat) : readBytes d 0 n = d.take n := rfl

theorem openMapped_self (m : mappedFile) (hw : WInv m) :
    openMapped m.data m.meta = (.ok m, m.data) := by
  obtain ⟨hdr, h1, h2, h3⟩ := hw.hdr
  have hb := mappedHeader_length_bounds _ _ h1
  rw [openMapped_existing _ _ _ h1 hw.len_min]
  have hp : hdr.isPrefixOf m.data = true := by
    rw [isPrefixOf_eq_true_iff, ← h3, readBytes_zero]
    exact List.take_prefix _ _
  rw [if_pos hp, u32_of_lt _ (by omega), ← h2]

theorem length_grown (d : Bytes) (e : Nat) :
    (grown d e).length = if e ≤ d.length then d.length else roundUp e 4096 := by
  unfold grown
  split
  · rfl
  · have := roundUp_ge e 4096 (by norm_num)
    simp only [List.length_append, List.length_replicate]
    omega

theorem grown_getElem? (d : Bytes) (e i : Nat) (hi : i < d.length) :
    (grown d e)[i]? = d[i]? := by
  unfold grown
  split
  · rfl
  · exact List.getElem?_append_left hi

theorem readBytes_grown (d : Bytes) (e o n : Nat) (h : o + n ≤ d.length) :
    readBytes (grown d e) o n = readBytes d o n := by
  unfold grown
  split
  · rfl
  · exact readBytes_append_left d _ o n h

theorem word_grown (d : Bytes) (e o : Nat) (h : o + 4 ≤ d.length) :
    word (grown d e) o = word d o := by
  unfold word
  rw [readBytes_grown d e o 4 h]

theorem WInv_grown (m : mappedFile) (hw : WInv m) (e : Nat) (he : e ≤ 2 ^ 32 - 4096) :
    WInv ⟨m.meta, m.hdrLen, grown m.data e⟩ := by
  obtain ⟨hH1, hH2, hH3⟩ := hw.hdrLen_bounds
  obtain ⟨hdr, h1, h2, h3⟩ := hw.hdr
  have hmin := hw.len_min
  have hlen := length_grown m.data e
  have hr1 := roundUp_mod e 4096
  have hr2 := roundUp_ge e 4096 (by norm_num)
  have hr3 : roundUp e 4096 ≤ 2 ^ 32 - 4096 :=
    roundUp_least _ _ _ (by norm_num) (by norm_num) he
  have hpage := hw.len_page
  have hmax := hw.len_max
  have hwd : word (grown m.data e) m.hdrLen = word m.data m.hdrLen :=
    word_grown _ _ _ (by omega)
  refine ⟨⟨hdr, h1, h2, ?_⟩, ?_, ?_, ?_, ?_, ?_⟩
  · show readBytes (grown m.data e) 0 hdr.length = hdr
    rw [readBytes_grown _ _ _ _ (by omega), h3]
  · show 4096 ≤ (grown m.data e).length
    rw [hlen]; split <;> omega
  · show (grown m.data e).length % 4096 = 0
    rw [hlen]; split <;> omega
  · show (grown m.data e).length ≤ 2 ^ 32 - 4096
    rw [hlen]; split <;> omega
  · show word (grown m.data e) m.hdrLen ≤ (grown m.data e).length
    have := hw.limit_le
    rw [hwd, hlen]; split <;> omega
  · show word (grown m.data e) m.hdrLen = 0 ∨ m.hdrLen + 2052 ≤ word (grown m.data e) m.hdrLen
    rw [hwd]; exact hw.limit_lo

theorem extend_grow (m : mappedFile) (hw : WInv m) (e : Nat) (he : m.data.length < e)
    (he2 : e ≤ 2 ^ 32 - 4096) :
    extend m e = (.ok ⟨m.meta, m.hdrLen, grown m.data e⟩, grown m.data e) := by
  have hr1 := roundUp_mod e 4096
  have hr2 := roundUp_ge e 4096 (by norm_num)
  have hpage := hw.len_page
  have hg : grown m.data e = m.data ++ List.replicate (roundUp e 4096 - m.data.length) 0 := by
    unfold grown
    rw [if_neg (by omega)]
  unfold extend
  simp only [pageSize]
  rw [round32_page _ (by omega), if_pos (by omega)]
  have hz : zero4.length = 4 := rfl
  rw [hz, writeAt_zero_extend _ _ (by omega), ← hg]
  exact openMapped_self _ (WInv_grown m hw e he2)

theorem round32_page_wrap (e : Nat) (h1 : 2 ^ 32 - 4096 < e) (h2 : e < 2 ^ 32) :
    round 32 e 4096 = 0 := by
  have := round_two_pow_wrap 32 12 e (by omega)
  norm_num at this
  rw [this]
  have h3 : (e + 4096 + 4294967295) % 4294967296 = e + 4095 - 4294967296 := by omega
  rw [h3]
  have : (e + 4095 - 4294967296) / 4096 = 0 := by omega
  rw [this]

theorem extend_wrap (m : mappedFile) (hw : WInv m) (e : Nat) (h1 : 2 ^ 32 - 4096 < e)
    (h2 : e < 2 ^ 32) : extend m e = (.ok m, m.data) := by
  unfold extend
  simp only [pageSize]
  rw [round32_page_wrap e h1 h2, if_neg (by omega)]
  exact openMapped_self m hw


theorem limit_read (m : mappedFile) (h : m.hdrLen ≤ 544) :
    load32 m (u32 (m.hdrLen + limitOff)) = word m.data m.hdrLen := by
  rw [load32_eq_word, u32_of_lt _ (by simp only [limitOff]; omega)]
  rfl

theorem limitOf_eq (m : mappedFile) (h : m.hdrLen ≤ 544) : limitOf m = word m.data m.hdrLen :=
  limit_read m h

/-- The facts about `place` at the current limit, for a named result. -/
theorem place_facts_at (m : mappedFile) (name : Bytes) (L s e : Nat) (hw : WInv m)
    (hn : name.length ≤ 256) (hL : word m.data m.hdrLen = L) (hp : place m L name = (s, e)) :
    s % 32 = 0 ∧ m.hdrLen + 2080 ≤ s ∧ L ≤ s ∧ e = s + recSize name ∧ e < 2 ^ 32 ∧
      s / 4096 = (e - 1) / 4096 ∧ e ≤ (if L = 0 then m.hdrLen + 2052 else L) + 607 := by
  have := place_facts m name L hw hn (hL ▸ hw.limit_le) (hL ▸ hw.limit_lo)
  rw [hp] at this
  exact this

theorem reserve_fit (m : mappedFile) (name : Bytes) (ho hd F fuel L s e : Nat) (changed : Bool)
    (hw : WInv m) (hn : name.length ≤ 256) (hho1 : m.hdrLen + 4 ≤ ho)
    (hho2 : ho + 4 ≤ m.hdrLen + 2052) (hhd : word m.data ho = hd) (hF : 1 ≤ F)
    (hL : word m.data m.hdrLen = L) (hp : place m L name = (s, e))
    (hfit : e ≤ m.data.length) :
    reserveLoop F name ho hd (fuel + 1) m changed =
      .ret (finish changed ⟨m.meta, m.hdrLen, allocData m.data m.hdrLen s e name ho hd⟩
        (some s) none) := by
  obtain ⟨hH1, hH2, hH3⟩ := hw.hdrLen_bounds
  obtain ⟨p1, p2, p3, p4, p5, p6, p7⟩ := place_facts_at m name L s e hw hn hL hp
  have hrs : 16 + name.length ≤ recSize name := by
    unfold recSize; exact roundUp_ge _ _ (by norm_num)
  rw [reserveLoop]
  simp only [limit_read m hH3, hL, hp]
  rw [if_neg (by omega), cas32_limit m _ _ hH3 hw.len_min hL]
  simp only
  exact writeAndLink_run m name _ _ ho hd F changed hH3 hho1 hho2 (by omega) (by omega) hfit p5
    hhd hF

theorem reserve_wrap_diverges (m : mappedFile) (name : Bytes) (ho hd F L s e : Nat)
    (hw : WInv m) (hn : name.length ≤ 256)
    (hL : word m.data m.hdrLen = L) (hp : place m L name = (s, e))
    (hbig : 2 ^ 32 - 4096 < e) :
    ∀ fuel changed, reserveLoop F name ho hd fuel m changed = .diverge := by
  obtain ⟨hH1, hH2, hH3⟩ := hw.hdrLen_bounds
  obtain ⟨p1, p2, p3, p4, p5, p6, p7⟩ := place_facts_at m name L s e hw hn hL hp
  have hmax := hw.len_max
  intro fuel
  induction fuel with
  | zero => intro changed; rfl
  | succ fuel ih =>
    intro changed
    rw [reserveLoop]
    simp only [limit_read m hH3, hL, hp]
    rw [if_pos (by omega), extend_wrap m hw _ hbig p5]
    simp only
    exact ih true

theorem reserve_cases (m : mappedFile) (name : Bytes) (ho hd F L s e : Nat)
    (hw : WInv m) (hn : name.length ≤ 256) (hho1 : m.hdrLen + 4 ≤ ho)
    (hho2 : ho + 4 ≤ m.hdrLen + 2052) (hhd : word m.data ho = hd) (hF : 1 ≤ F)
    (hL : word m.data m.hdrLen = L) (hp : place m L name = (s, e))
    (fuel : Nat) (changed : Bool) :
    (reserveLoop F name ho hd fuel m changed = .diverge ∧ (fuel < 2 ∨ 2 ^ 32 - 4096 < e)) ∨
    reserveLoop F name ho hd fuel m changed =
      .ret (finish (changed || decide (m.data.length < e))
        ⟨m.meta, m.hdrLen, allocData (grown m.data e) m.hdrLen s e name ho hd⟩ (some s) none) := by
  obtain ⟨hH1, hH2, hH3⟩ := hw.hdrLen_bounds
  obtain ⟨p1, p2, p3, p4, p5, p6, p7⟩ := place_facts_at m name L s e hw hn hL hp
  have hmin := hw.len_min
  cases fuel with
  | zero => left; exact ⟨rfl, by omega⟩
  | succ fuel =>
    by_cases hfit : e ≤ m.data.length
    · right
      rw [reserve_fit m name ho hd F fuel L s e changed hw hn hho1 hho2 hhd hF hL hp hfit]
      have hd1 : decide (m.data.length < e) = false := by
        simp only [decide_eq_false_iff_not]; omega
      have hg : grown m.data e = m.data := by
        unfold grown; rw [if_pos hfit]
      rw [hd1, hg, Bool.or_false]
    · by_cases hbig : 2 ^ 32 - 4096 < e
      · left
        exact ⟨reserve_wrap_diverges m name ho hd F L s e hw hn hL hp hbig _ _, Or.inr hbig⟩
      · rw [reserveLoop]
        simp only [limit_read m hH3, hL, hp]
        rw [if_pos (by omega), extend_grow m hw _ (by omega) (by omega)]
        simp only
        cases fuel with
        | zero => left; exact ⟨rfl, by omega⟩
        | succ fuel =>
          right
          have hw2 := WInv_grown m hw e (by omega)
          have hlen := length_grown m.data e
          rw [if_neg hfit] at hlen
          have hr2 := roundUp_ge e 4096 (by norm_num)
          have hd1 : decide (m.data.length < e) = true := by
            simp only [decide_eq_true_eq]; omega
          rw [hd1, Bool.or_true]
          exact reserve_fit ⟨m.meta, m.hdrLen, grown m.data e⟩ name ho hd F fuel L s e true hw2 hn
            hho1 hho2 (by show word (grown _ _) ho = hd; rw [word_grown _ _ _ (by omega), hhd]) hF
            (by show word (grown _ _) m.hdrLen = L; rw [word_grown _ _ _ (by omega), hL])
            hp (by show e ≤ (grown _ _).length; rw [hlen]; exact hr2)


/-! ## What `lookup` returns -/

theorem lookupLoop_fields (m : mappedFile) (name : Bytes) (ho hd : Nat) :
    ∀ (fuel off : Nat) (r : LookupResult), lookupLoop m name ho hd fuel off = .ret r →
      r.ok = true → r.headOff = ho ∧ r.head = hd := by
  intro fuel
  induction fuel with
  | zero =>
    intro off r h hok
    rw [lookupLoop] at h
    split at h
    · cases h; exact ⟨rfl, rfl⟩
    · cases h
  | succ fuel ih =>
    intro off r h hok
    rw [lookupLoop] at h
    split at h
    · cases h; exact ⟨rfl, rfl⟩
    · split at h
      · cases h; cases hok
      · split at h
        · cases h; exact ⟨rfl, rfl⟩
        · exact ih _ r h hok
      · cases h
      · cases h

theorem headOff_eq (m : mappedFile) (name : Bytes) (h : m.hdrLen ≤ 544) :
    u32 (m.hdrLen + hashOff + hash name * 4) = m.hdrLen + 4 + 4 * hash name := by
  have := hash_lt name
  rw [u32_of_lt _ (by simp only [hashOff]; omega)]
  simp only [hashOff]
  omega

theorem lookup_fields (m : mappedFile) (name : Bytes) (fuel : Nat) (r : LookupResult)
    (hH : m.hdrLen ≤ 544) (h : lookup fuel m name = .ret r) (hok : r.ok = true) :
    r.headOff = m.hdrLen + 4 + 4 * hash name ∧ r.head = word m.data r.headOff := by
  unfold lookup at h
  simp only [headOff_eq m name hH] at h
  obtain ⟨h1, h2⟩ := lookupLoop_fields m name _ _ fuel _ r h hok
  rw [h1, h2, load32_eq_word]
  exact ⟨rfl, rfl⟩

/-! ## The bytes after an allocation -/

@[simp] theorem length_allocData (d : Bytes) (H s e : Nat) (name : Bytes) (ho hd : Nat) :
    (allocData d H s e name ho hd).length = d.length := by
  unfold allocData
  simp only [length_writeBytes]

theorem allocData_frame (d : Bytes) (H s e : Nat) (name : Bytes) (ho hd o n : Nat)
    (h1 : o + n ≤ H ∨ H + 4 ≤ o) (h2 : o + n ≤ ho ∨ ho + 4 ≤ o)
    (h3 : o + n ≤ s + 8 ∨ s + 16 + name.length ≤ o) :
    readBytes (allocData d H s e name ho hd) o n = readBytes d o n := by
  unfold allocData
  simp only
  rw [readBytes_writeBytes_disjoint _ _ _ _ _ (by rw [length_toLE]; omega),
    readBytes_writeBytes_disjoint _ _ _ _ _ (by rw [length_toLE]; omega),
    readBytes_writeBytes_disjoint _ _ _ _ _ (by rw [length_toLE]; omega),
    readBytes_writeBytes_disjoint _ _ _ _ _ (by omega),
    readBytes_writeBytes_disjoint _ _ _ _ _ (by rw [length_toLE]; omega)]

theorem allocData_limit (d : Bytes) (H s e : Nat) (name : Bytes) (ho hd : Nat)
    (hH : H + 4 ≤ ho) (hho : ho + 4 ≤ s) (hlen : H + 4 ≤ d.length) (he : e < 2 ^ 32) :
    word (allocData d H s e name ho hd) H = e := by
  unfold allocData
  simp only
  rw [word_write_disjoint _ _ _ _ (by rw [length_toLE]; omega),
    word_write_disjoint _ _ _ _ (by rw [length_toLE]; omega),
    word_write_disjoint _ _ _ _ (by rw [length_toLE]; omega),
    word_write_disjoint _ _ _ _ (by omega),
    word_write_same _ _ _ hlen he]

theorem allocData_head (d : Bytes) (H s e : Nat) (name : Bytes) (ho hd : Nat)
    (hlen : ho + 4 ≤ d.length) (hs : s < 2 ^ 32) :
    word (allocData d H s e name ho hd) ho = s := by
  unfold allocData
  simp only
  rw [word_write_same _ _ _ (by simp only [length_writeBytes]; exact hlen) hs]

theorem allocData_next (d : Bytes) (H s e : Nat) (name : Bytes) (ho hd : Nat)
    (hho : ho + 4 ≤ s) (hlen : s + 16 ≤ d.length) (hhd : hd < 2 ^ 32) :
    word (allocData d H s e name ho hd) (s + 12) = hd := by
  unfold allocData
  simp only
  rw [word_write_disjoint _ _ _ _ (by rw [length_toLE]; omega),
    word_write_same _ _ _ (by simp only [length_writeBytes]; omega) hhd]

theorem allocData_tag (d : Bytes) (H s e : Nat) (name : Bytes) (ho hd : Nat)
    (hho : ho + 4 ≤ s) (hlen : s + 16 ≤ d.length) (hn : name.length ≤ 256) :
    word (allocData d H s e name ho hd) (s + 8) = u32 name.length ||| 0xff000000 := by
  unfold allocData
  simp only
  rw [word_write_disjoint _ _ _ _ (by rw [length_toLE]; omega),
    word_write_disjoint _ _ _ _ (by rw [length_toLE]; omega),
    word_write_same _ _ _ (by simp only [length_writeBytes]; omega) (tag_lt _ hn)]

theorem allocData_name (d : Bytes) (H s e : Nat) (name : Bytes) (ho hd : Nat)
    (hho : ho + 4 ≤ s) (hlen : s + 16 + name.length ≤ d.length) :
    readBytes (allocData d H s e name ho hd) (s + 16) name.length = name := by
  unfold allocData
  simp only
  rw [readBytes_writeBytes_disjoint _ _ _ _ _ (by rw [length_toLE]; omega),
    readBytes_writeBytes_disjoint _ _ _ _ _ (by rw [length_toLE]; omega),
    readBytes_writeBytes_disjoint _ _ _ _ _ (by rw [length_toLE]; omega),
    readBytes_writeBytes_same _ _ _ (by simp only [length_writeBytes]; omega)]


/-! ## The four ways in which `newCounter` returns -/

theorem finish_current (m : mappedFile) (c : Bool) (d : Bytes) (v : Option Nat) :
    (finish c ⟨m.meta, m.hdrLen, d⟩ v none).current m = ⟨m.meta, m.hdrLen, d⟩ := by
  unfold finish NCResult.current
  cases c <;> simp

theorem current_unchanged (m : mappedFile) (v : Option Nat) (err : Option Err) :
    (NCResult.mk v none err m.data).current m = m := by
  unfold NCResult.current
  rfl

theorem newCounter_cases (m : mappedFile) (name : Bytes) (fuel : Nat) (r : NCResult)
    (hw : WInv m) (h : newCounter fuel m name = .ret r) :
    (256 < name.length ∧ r = ⟨none, none, some .nameTooLong, m.data⟩) ∨
    (name.length ≤ 256 ∧ ∃ lr, lookup fuel m name = .ret lr ∧ lr.ok = false ∧
      r = ⟨none, none, some .corrupt, m.data⟩) ∨
    (name.length ≤ 256 ∧ ∃ lr v, lookup fuel m name = .ret lr ∧ lr.ok = true ∧
      lr.v = some v ∧ r = ⟨some v, none, none, m.data⟩) ∨
    (name.length ≤ 256 ∧ ∃ lr s e, lookup fuel m name = .ret lr ∧ lr.ok = true ∧
      lr.v = none ∧ lr.headOff = m.hdrLen + 4 + 4 * hash name ∧
      lr.head = word m.data lr.headOff ∧
      place m (word m.data m.hdrLen) name = (s, e) ∧ e ≤ 2 ^ 32 - 4096 ∧
      r = finish (decide (m.data.length < e))
        ⟨m.meta, m.hdrLen, allocData (grown m.data e) m.hdrLen s e name lr.headOff lr.head⟩
        (some s) none) := by
  obtain ⟨hH1, hH2, hH3⟩ := hw.hdrLen_bounds
  unfold newCounter at h
  by_cases hlen : name.length > maxNameLen
  · rw [if_pos hlen] at h
    left
    cases h
    exact ⟨hlen, rfl⟩
  · rw [if_neg hlen] at h
    have hn : name.length ≤ 256 := by simp only [maxNameLen] at hlen; omega
    right
    cases hlk : lookup fuel m name with
    | panic => rw [hlk] at h; cases h
    | diverge => rw [hlk] at h; cases h
    | ret lr =>
      rw [hlk] at h
      simp only at h
      unfold afterLookup at h
      by_cases hok : lr.ok = false
      · rw [if_pos hok] at h
        left
        cases fuel with
        | zero => cases h
        | succ fuel =>
          simp only [limit_read m hH3] at h
          rw [if_pos hw.limit_le] at h
          cases h
          exact ⟨hn, lr, rfl, hok, rfl⟩
      · rw [if_neg hok] at h
        have hok' : lr.ok = true := by simpa using hok
        right
        by_cases hv : lr.v.isSome = true
        · rw [if_pos hv] at h
          left
          obtain ⟨v, hv'⟩ := Option.isSome_iff_exists.1 hv
          cases h
          refine ⟨hn, lr, v, rfl, hok', hv', ?_⟩
          rw [hv']
          rfl
        · rw [if_neg hv] at h
          right
          have hvn : lr.v = none := by
            cases hlv : lr.v with
            | none => rfl
            | some v => rw [hlv] at hv; simp at hv
          obtain ⟨f1, f2⟩ := lookup_fields m name fuel lr hH3 hlk hok'
          have hh := hash_lt name
          obtain ⟨s, e, hp⟩ : ∃ s e, place m (word m.data m.hdrLen) name = (s, e) :=
            ⟨_, _, rfl⟩
          cases fuel with
          | zero => rw [reserveLoop] at h; cases h
          | succ fuel =>
            have hc := reserve_cases m name lr.headOff lr.head (fuel + 1) (word m.data m.hdrLen)
              s e hw hn (by omega) (by omega) f2.symm (by omega) rfl hp (fuel + 1) false
            rcases hc with ⟨hd, _⟩ | hr
            · rw [hd] at h; cases h
            · rw [hr] at h
              cases h
              refine ⟨hn, lr, s, e, rfl, hok', hvn, f1, f2, hp, ?_, ?_⟩
              · by_contra hbig
                have := reserve_wrap_diverges m name lr.headOff lr.head (fuel + 1)
                  (word m.data m.hdrLen) s e hw hn rfl hp (by omega) (fuel + 1) false
                rw [this] at hr
                cases hr
              · rw [Bool.false_or]


/-! ## The weak invariant holds in every reachable file -/

theorem fromLE_zeros (bs : Bytes) (h : ∀ b ∈ bs, b = 0) : fromLE bs = 0 := by
  induction bs with
  | nil => rfl
  | cons b bs ih =>
    rw [fromLE, ih (fun c hc => h c (List.mem_cons_of_mem _ hc)), h b (List.mem_cons_self _ _)]
    rfl

theorem readBytes_all_zero (d : Bytes) (o n : Nat)
    (h : ∀ i, o ≤ i → i < o + n → i < d.length → d[i]? = some 0) :
    fromLE (readBytes d o n) = 0 := by
  apply fromLE_zeros
  intro b hb
  obtain ⟨j, hj⟩ := List.mem_iff_getElem?.1 hb
  rw [getElem?_readBytes] at hj
  split at hj
  · rename_i hjn
    have hlt : o + j < d.length := by
      by_contra hc
      rw [List.getElem?_eq_none (by omega)] at hj
      cases hj
    have := h (o + j) (by omega) (by omega) hlt
    rw [this] at hj
    cases hj
    rfl
  · cases hj

theorem created_eq (meta : Bytes) (h : meta.length ≤ 512) : created meta = .ok (freshFile meta) := by
  have hh := mappedHeader_eq meta h
  unfold created
  rw [openMapped_created meta _ hh]
  unfold freshFile header
  rw [hh]

theorem created_ok (meta : Bytes) (m : mappedFile) (h : created meta = .ok m) :
    meta.length ≤ 512 ∧ m = freshFile meta := by
  have hm : meta.length ≤ 512 := by
    by_contra hc
    unfold created openMapped mappedHeader at h
    rw [if_pos (by simp only [maxMetaLen]; omega)] at h
    cases h
  refine ⟨hm, ?_⟩
  rw [created_eq meta hm] at h
  cases h
  rfl

theorem header_ok (meta : Bytes) (h : meta.length ≤ 512) :
    mappedHeader meta = .ok (header meta) := by
  have hh := mappedHeader_eq meta h
  unfold header
  rw [hh]

theorem freshFile_getElem?_zero (meta : Bytes) (h : meta.length ≤ 512) (i : Nat)
    (hi : (header meta).length ≤ i) (hi2 : i < 4096) : (freshFile meta).data[i]? = some 0 := by
  have hb := mappedHeader_length_bounds _ _ (header_ok meta h)
  unfold freshFile
  simp only
  rw [List.getElem?_append_right hi, List.getElem?_replicate, if_pos (by omega)]

theorem freshFile_length (meta : Bytes) (h : meta.length ≤ 512) :
    (freshFile meta).data.length = 4096 := by
  have hb := mappedHeader_length_bounds _ _ (header_ok meta h)
  unfold freshFile
  simp only [List.length_append, List.length_replicate]
  omega

theorem freshFile_word_zero (meta : Bytes) (h : meta.length ≤ 512) (o : Nat)
    (ho : (header meta).length ≤ o) : word (freshFile meta).data o = 0 := by
  unfold word
  apply readBytes_all_zero
  intro i h1 _ h3
  rw [freshFile_length meta h] at h3
  exact freshFile_getElem?_zero meta h i (by omega) h3

theorem WInv_freshFile (meta : Bytes) (h : meta.length ≤ 512) : WInv (freshFile meta) := by
  have hh := header_ok meta h
  have hb := mappedHeader_length_bounds _ _ hh
  have hlen := freshFile_length meta h
  have hw0 : word (freshFile meta).data (freshFile meta).hdrLen = 0 :=
    freshFile_word_zero meta h _ (le_refl _)
  refine ⟨⟨header meta, hh, rfl, ?_⟩, by omega, by omega, by omega, by omega, Or.inl hw0⟩
  show readBytes (header meta ++ _) 0 (header meta).length = header meta
  rw [readBytes_zero, List.take_left']
  rfl

theorem WInv_alloc (m : mappedFile) (G : Bytes) (name : Bytes) (s e ho hd : Nat)
    (hw : WInv ⟨m.meta, m.hdrLen, G⟩) (hho1 : m.hdrLen + 4 ≤ ho)
    (hho2 : ho + 4 ≤ m.hdrLen + 2052) (hs : m.hdrLen + 2080 ≤ s) (hse : s ≤ e)
    (he : e ≤ G.length) (he2 : e < 2 ^ 32) :
    WInv ⟨m.meta, m.hdrLen, allocData G m.hdrLen s e name ho hd⟩ := by
  obtain ⟨hdr, h1, h2, h3⟩ := hw.hdr
  have hmin := hw.len_min
  have hp := hw.len_page
  have hmax := hw.len_max
  have hlim : word (allocData G m.hdrLen s e name ho hd) m.hdrLen = e :=
    allocData_limit _ _ _ _ _ _ _ hho1 (by omega) (by simp only at hmin; omega) he2
  simp only at h2 h3 hmin hp hmax
  refine ⟨⟨hdr, h1, h2, ?_⟩, ?_, ?_, ?_, ?_, ?_⟩
  · show readBytes (allocData _ _ _ _ _ _ _) 0 hdr.length = hdr
    rw [allocData_frame _ _ _ _ _ _ _ _ _ (by omega) (by omega) (by omega), h3]
  · show 4096 ≤ (allocData _ _ _ _ _ _ _).length
    rw [length_allocData]; exact hmin
  · show (allocData _ _ _ _ _ _ _).length % 4096 = 0
    rw [length_allocData]; exact hp
  · show (allocData _ _ _ _ _ _ _).length ≤ 2 ^ 32 - 4096
    rw [length_allocData]; exact hmax
  · show word (allocData _ _ _ _ _ _ _) m.hdrLen ≤ (allocData _ _ _ _ _ _ _).length
    rw [hlim, length_allocData]; exact he
  · show word (allocData _ _ _ _ _ _ _) m.hdrLen = 0 ∨
      m.hdrLen + 2052 ≤ word (allocData _ _ _ _ _ _ _) m.hdrLen
    rw [hlim]; right; omega

/-- The mapping after a call that returned, and its limit, in the four cases. -/
theorem newCounter_after (m : mappedFile) (name : Bytes) (fuel : Nat) (r : NCResult)
    (hw : WInv m) (h : newCounter fuel m name = .ret r) :
    WInv (r.current m) ∧ limitOf m ≤ limitOf (r.current m) ∧
      (∀ lr, lookup fuel m name = .ret lr → lr.ok = true → lr.v = none →
        name.length ≤ 256 →
        ∃ s, r.v = some s ∧ limitOf m ≤ s ∧ s < limitOf (r.current m)) := by
  obtain ⟨hH1, hH2, hH3⟩ := hw.hdrLen_bounds
  rcases newCounter_cases m name fuel r hw h with ⟨hl, rfl⟩ | ⟨_, lr, h1, h2, rfl⟩ |
    ⟨_, lr, v, h1, h2, h3, rfl⟩ | ⟨hn, lr, s, e, h1, h2, h3, h4, h5, hp, he, rfl⟩
  · rw [current_unchanged]
    refine ⟨hw, le_refl _, fun lr _ _ _ hn => ?_⟩
    omega
  · rw [current_unchanged]
    refine ⟨hw, le_refl _, fun lr' hlr hok _ _ => ?_⟩
    rw [h1] at hlr; cases hlr
    rw [h2] at hok; cases hok
  · rw [current_unchanged]
    refine ⟨hw, le_refl _, fun lr' hlr _ hv _ => ?_⟩
    rw [h1] at hlr; cases hlr
    rw [h3] at hv; cases hv
  · rw [finish_current]
    have hh := hash_lt name
    obtain ⟨p1, p2, p3, p4, p5, p6, p7⟩ := place_facts_at m name _ s e hw hn rfl hp
    have hrs : 16 + name.length ≤ recSize name := by
      unfold recSize; exact roundUp_ge _ _ (by norm_num)
    have hwg := WInv_grown m hw e he
    have hlg := length_grown m.data e
    have hr2 := roundUp_ge e 4096 (by norm_num)
    have heg : e ≤ (grown m.data e).length := by rw [hlg]; split <;> omega
    have hw' := WInv_alloc m (grown m.data e) name s e lr.headOff lr.head hwg (by omega)
      (by omega) p2 (by omega) heg p5
    have hlim : limitOf ⟨m.meta, m.hdrLen, allocData (grown m.data e) m.hdrLen s e name
        lr.headOff lr.head⟩ = e := by
      refine (limitOf_eq (mappedFile.mk m.meta m.hdrLen
        (allocData (grown m.data e) m.hdrLen s e name lr.headOff lr.head)) hH3).trans ?_
      exact allocData_limit _ _ _ _ _ _ _ (by omega) (by omega)
        (by have := hwg.len_min; simp only at this; omega) p5
    rw [hlim, limitOf_eq m hH3]
    refine ⟨hw', by omega, fun _ _ _ _ _ => ⟨s, rfl, p3, by omega⟩⟩

theorem Reachable.winv {meta : Bytes} {m : mappedFile} (h : Reachable meta m) : WInv m := by
  induction h with
  | fresh m hc =>
    obtain ⟨hm, rfl⟩ := created_ok meta m hc
    exact WInv_freshFile meta hm
  | step m fuel name r _ hnc ih => exact (newCounter_after m name fuel r ih hnc).1

/-- C4: in every file reachable from a freshly created file by sequential
`newCounter` calls, a further call that returns (with or without error, with
or without extension) leaves the allocation limit at least as large as it
was; and when the call allocates, that is when `lookup` reported the name
absent, the returned slot lies at or above the old limit and strictly below
the new one, so the limit has grown. -/
theorem limit_never_decreases (meta : Bytes) (m : mappedFile) (fuel : Nat) (name : Bytes)
    (r : NCResult) (hr : Reachable meta m) (h : newCounter fuel m name = .ret r) :
    limitOf m ≤ limitOf (r.current m) ∧
      (∀ lr, lookup fuel m name = .ret lr → lr.ok = true → lr.v = none →
        name.length ≤ 256 →
        ∃ s, r.v = some s ∧ limitOf m ≤ s ∧ s < limitOf (r.current m)) :=
  (newCounter_after m name fuel r hr.winv h).2


/-! ## Reading the records of a file -/

theorem entryAt_of_RecAt (m : mappedFile) (r : Rec) (next : Nat)
    (hH : m.hdrLen ≤ 544) (h : RecAt m.data r next) (hn1 : 1 ≤ r.name.length)
    (hn : r.name.length ≤ 256) (hlo : m.hdrLen + 4 ≤ r.off)
    (hhi : r.off + 16 + r.name.length ≤ m.data.length) (hmax : m.data.length ≤ 2 ^ 32 - 4096) :
    entryAt m r.off = .ret (some ⟨r.name, next, r.off⟩) := by
  obtain ⟨_, h2, h3, h4⟩ := h
  have hu4 : u32 (m.hdrLen + hashOff) = m.hdrLen + 4 := u32_of_lt _ (by simp only [hashOff]; omega)
  have hu8 : u32 (r.off + 8) = r.off + 8 := u32_of_lt _ (by omega)
  have hu12 : u32 (r.off + 12) = r.off + 12 := u32_of_lt _ (by omega)
  have hu16 : u32 (r.off + 16) = r.off + 16 := u32_of_lt _ (by omega)
  unfold entryAt
  rw [hu4, if_neg (by omega)]
  simp only [load32_eq_word, hu8, hu12, hu16, h2, h3, tag_and _ hn]
  rw [if_neg (by omega), u32_of_lt _ (by omega)]
  unfold slice
  rw [if_pos ⟨by omega, hhi⟩]
  have e : r.off + 16 + r.name.length - (r.off + 16) = r.name.length := by omega
  simp only [e, h4]

theorem findOff_cons (r : Rec) (rest : List Rec) (name : Bytes) :
    findOff (r :: rest) name = if r.name = name then some r.off else findOff rest name := rfl

theorem findVal_cons (r : Rec) (rest : List Rec) (name : Bytes) :
    findVal (r :: rest) name = if r.name = name then r.val else findVal rest name := rfl

theorem chainHead_cons (r : Rec) (rest : List Rec) (b : Nat) :
    chainHead (r :: rest) b = if hash r.name = b then r.off else chainHead rest b := rfl

theorem findOff_none_iff (recs : List Rec) (name : Bytes) :
    findOff recs name = none ↔ ∀ r ∈ recs, r.name ≠ name := by
  induction recs with
  | nil => simp [findOff]
  | cons r rest ih =>
    rw [findOff_cons]
    by_cases h : r.name = name
    · simp [h]
    · simp [h, ih]

theorem lookupLoop_chain (m : mappedFile) (name : Bytes) (ho hd L : Nat)
    (hH : m.hdrLen ≤ 544) (hL : L ≤ m.data.length) (hmax : m.data.length ≤ 2 ^ 32 - 4096) :
    ∀ (recs : List Rec), RecsOK m.data recs → Sorted (m.hdrLen + 2080) recs →
      (∀ r ∈ recs, r.off + recSize r.name ≤ L) →
      ∀ fuel, lookupLoop m name ho hd fuel (chainHead recs (hash name)) =
          .ret ⟨findOff recs name, ho, hd, true⟩ ∨
        (lookupLoop m name ho hd fuel (chainHead recs (hash name)) = .diverge ∧
          fuel < recs.length) := by
  intro recs
  induction recs with
  | nil =>
    intro _ _ _ fuel
    left
    cases fuel <;> simp [chainHead, findOff, lookupLoop]
  | cons r rest ih =>
    intro hok hs hb fuel
    obtain ⟨hr, hok'⟩ := hok
    obtain ⟨hn1, hn, hlo, hq, hs'⟩ := hs
    have hb' : ∀ q ∈ rest, q.off + recSize q.name ≤ L :=
      fun q hq => hb q (List.mem_cons_of_mem _ hq)
    have hbr := hb r (List.mem_cons_self _ _)
    have hrs : 16 + r.name.length ≤ recSize r.name := by
      unfold recSize; exact roundUp_ge _ _ (by norm_num)
    by_cases hh : hash r.name = hash name
    · have hch : chainHead (r :: rest) (hash name) = r.off := by
        rw [chainHead_cons, if_pos hh]
      rw [hch]
      cases fuel with
      | zero =>
        right
        rw [lookupLoop, if_neg (by omega)]
        exact ⟨rfl, by simp⟩
      | succ fuel =>
        rw [lookupLoop, if_neg (by omega),
          entryAt_of_RecAt m r _ hH hr hn1 hn (by omega) (by omega) hmax]
        simp only
        by_cases hname : r.name = name
        · left
          rw [if_pos hname]
          rw [findOff_cons, if_pos hname]
        · rw [if_neg hname, hh]
          have hf : findOff (r :: rest) name = findOff rest name := by
            rw [findOff_cons, if_neg hname]
          rw [hf]
          rcases ih hok' hs' hb' fuel with h1 | ⟨h1, h2⟩
          · left; exact h1
          · right; exact ⟨h1, by simp only [List.length_cons]; omega⟩
    · have hch : chainHead (r :: rest) (hash name) = chainHead rest (hash name) := by
        rw [chainHead_cons, if_neg hh]
      have hname : r.name ≠ name := fun h => hh (by rw [h])
      have hf : findOff (r :: rest) name = findOff rest name := by
        rw [findOff_cons, if_neg hname]
      rw [hch, hf]
      rcases ih hok' hs' hb' fuel with h1 | ⟨h1, h2⟩
      · left; exact h1
      · right; exact ⟨h1, by simp only [List.length_cons]; omega⟩

theorem lookup_inv (m : mappedFile) (recs : List Rec) (name : Bytes) (fuel : Nat)
    (hinv : Inv m recs) :
    lookup fuel m name =
        .ret ⟨findOff recs name, m.hdrLen + 4 + 4 * hash name, chainHead recs (hash name), true⟩ ∨
      (lookup fuel m name = .diverge ∧ fuel < recs.length) := by
  obtain ⟨hH1, hH2, hH3⟩ := hinv.winv.hdrLen_bounds
  unfold lookup
  simp only [headOff_eq m name hH3, load32_eq_word, hinv.heads _ (hash_lt name)]
  exact lookupLoop_chain m name _ _ _ hH3 hinv.winv.limit_le hinv.winv.len_max recs
    hinv.recs_ok hinv.sorted hinv.below fuel


/-! ## Frame lemmas for the record invariant -/

theorem getElem?_writeBytes_outside (d : Bytes) (off : Nat) (bs : Bytes) (i : Nat)
    (h : i < off ∨ off + bs.length ≤ i) : (writeBytes d off bs)[i]? = d[i]? := by
  rw [getElem?_writeBytes, if_neg (by omega)]

theorem allocData_getElem? (d : Bytes) (H s e : Nat) (name : Bytes) (ho hd i : Nat)
    (h1 : i < H ∨ H + 4 ≤ i) (h2 : i < ho ∨ ho + 4 ≤ i)
    (h3 : i < s + 8 ∨ s + 16 + name.length ≤ i) :
    (allocData d H s e name ho hd)[i]? = d[i]? := by
  unfold allocData
  simp only
  rw [getElem?_writeBytes_outside _ _ _ _ (by rw [length_toLE]; omega),
    getElem?_writeBytes_outside _ _ _ _ (by rw [length_toLE]; omega),
    getElem?_writeBytes_outside _ _ _ _ (by rw [length_toLE]; omega),
    getElem?_writeBytes_outside _ _ _ _ (by omega),
    getElem?_writeBytes_outside _ _ _ _ (by rw [length_toLE]; omega)]

theorem RecAt_congr (d d1 : Bytes) (r : Rec) (next : Nat)
    (h : ∀ i, r.off ≤ i → i < r.off + 16 + r.name.length → d1[i]? = d[i]?)
    (hr : RecAt d r next) : RecAt d1 r next := by
  obtain ⟨h1, h2, h3, h4⟩ := hr
  refine ⟨?_, ?_, ?_, ?_⟩
  · rw [← h1]; unfold load64
    rw [readBytes_congr d d1 _ _ (fun i hi1 hi2 => h i (by omega) (by omega))]
  · rw [← h2]; unfold word
    rw [readBytes_congr d d1 _ _ (fun i hi1 hi2 => h i (by omega) (by omega))]
  · rw [← h3]; unfold word
    rw [readBytes_congr d d1 _ _ (fun i hi1 hi2 => h i (by omega) (by omega))]
  · rw [readBytes_congr d d1 _ _ (fun i hi1 hi2 => h i (by omega) (by omega)), h4]

theorem RecsOK_congr (d d1 : Bytes) :
    ∀ (recs : List Rec),
      (∀ r ∈ recs, ∀ i, r.off ≤ i → i < r.off + 16 + r.name.length → d1[i]? = d[i]?) →
      RecsOK d recs → RecsOK d1 recs := by
  intro recs
  induction recs with
  | nil => intro _ _; trivial
  | cons r rest ih =>
    intro h hok
    exact ⟨RecAt_congr d d1 r _ (h r (List.mem_cons_self _ _)) hok.1,
      ih (fun q hq => h q (List.mem_cons_of_mem _ hq)) hok.2⟩

theorem recSize_ge (name : Bytes) : 16 + name.length ≤ recSize name := by
  unfold recSize; exact roundUp_ge _ _ (by norm_num)

theorem recSize_ge_32 (name : Bytes) : 32 ≤ recSize name := by
  have h1 := recSize_ge name
  have h2 : recSize name % 32 = 0 := roundUp_mod _ _
  omega

theorem Inv_grown (m : mappedFile) (recs : List Rec) (e : Nat) (hinv : Inv m recs)
    (he : e ≤ 2 ^ 32 - 4096) : Inv ⟨m.meta, m.hdrLen, grown m.data e⟩ recs := by
  obtain ⟨hH1, hH2, hH3⟩ := hinv.winv.hdrLen_bounds
  have hmin := hinv.winv.len_min
  have hle := hinv.winv.limit_le
  have hwd : word (grown m.data e) m.hdrLen = word m.data m.hdrLen :=
    word_grown _ _ _ (by omega)
  refine ⟨WInv_grown m hinv.winv e he, ?_, ?_, ?_, hinv.sorted, ?_, ?_, ?_⟩
  · intro r hr
    show r.off + recSize r.name ≤ word (grown m.data e) m.hdrLen
    rw [hwd]; exact hinv.below r hr
  · intro b hb
    show word (grown m.data e) (m.hdrLen + 4 + 4 * b) = chainHead recs b
    rw [word_grown _ _ _ (by omega)]; exact hinv.heads b hb
  · show RecsOK (grown m.data e) recs
    refine RecsOK_congr m.data _ recs (fun r hr i _ hi2 => ?_) hinv.recs_ok
    have := hinv.below r hr
    have := recSize_ge r.name
    exact grown_getElem? _ _ _ (by omega)
  · intro i hi1 hi2
    show (grown m.data e)[i]? = some 0
    simp only at hi1 hi2
    rw [hwd] at hi1
    by_cases hlt : i < m.data.length
    · rw [grown_getElem? _ _ _ hlt]; exact hinv.zeros i hi1 hlt
    · unfold grown at hi2 ⊢
      split
      · rename_i h; rw [if_pos h] at hi2; omega
      · rename_i h
        rw [if_neg h] at hi2
        simp only [List.length_append, List.length_replicate] at hi2
        rw [List.getElem?_append_right (by omega), List.getElem?_replicate, if_pos (by omega)]
  · show word (grown m.data e) m.hdrLen ≤ _
    rw [hwd]; exact hinv.limit_ub
  · show _ ≤ word (grown m.data e) m.hdrLen
    rw [hwd]; exact hinv.limit_lb


theorem Sorted_mem (lo : Nat) :
    ∀ (recs : List Rec), Sorted lo recs → ∀ r ∈ recs,
      1 ≤ r.name.length ∧ r.name.length ≤ 256 ∧ lo ≤ r.off := by
  intro recs
  induction recs with
  | nil => intro _ r hr; cases hr
  | cons q rest ih =>
    intro hs r hr
    rcases List.mem_cons.1 hr with rfl | hr'
    · exact ⟨hs.1, hs.2.1, hs.2.2.1⟩
    · exact ih hs.2.2.2.2 r hr'

theorem Inv_alloc (m : mappedFile) (recs : List Rec) (name : Bytes) (s e : Nat)
    (hinv : Inv m recs) (hn1 : 1 ≤ name.length) (hn : name.length ≤ 256)
    (hnew : findOff recs name = none)
    (hp : place m (word m.data m.hdrLen) name = (s, e)) (hfit : e ≤ m.data.length) :
    Inv ⟨m.meta, m.hdrLen, allocData m.data m.hdrLen s e name (m.hdrLen + 4 + 4 * hash name)
      (chainHead recs (hash name))⟩ (⟨s, name, 0⟩ :: recs) := by
  obtain ⟨hH1, hH2, hH3⟩ := hinv.winv.hdrLen_bounds
  obtain ⟨p1, p2, p3, p4, p5, p6, p7⟩ := place_facts_at m name _ s e hinv.winv hn rfl hp
  have hh := hash_lt name
  have hrs := recSize_ge name
  have hmin := hinv.winv.len_min
  have hhd : word m.data (m.hdrLen + 4 + 4 * hash name) = chainHead recs (hash name) :=
    hinv.heads _ hh
  have hhd2 : chainHead recs (hash name) < 2 ^ 32 := by rw [← hhd]; exact word_lt _ _
  have hwm : WInv ⟨m.meta, m.hdrLen, m.data⟩ := hinv.winv
  have hw' := WInv_alloc m m.data name s e (m.hdrLen + 4 + 4 * hash name)
    (chainHead recs (hash name)) hwm (by omega) (by omega) p2 (by omega) hfit p5
  have hlim : word (allocData m.data m.hdrLen s e name (m.hdrLen + 4 + 4 * hash name)
      (chainHead recs (hash name))) m.hdrLen = e :=
    allocData_limit _ _ _ _ _ _ _ (by omega) (by omega) (by omega) p5
  have hbelow := hinv.below
  have hub := hinv.limit_ub
  have hlb := hinv.limit_lb
  refine ⟨hw', ?_, ?_, ?_, ?_, ?_, ?_, ?_⟩
  · intro r hr
    show r.off + recSize r.name ≤ word (allocData _ _ _ _ _ _ _) m.hdrLen
    rw [hlim]
    rcases List.mem_cons.1 hr with rfl | hr'
    · show s + recSize name ≤ e
      omega
    · have := hbelow r hr'; omega
  · intro b hb
    show word (allocData _ _ _ _ _ _ _) (m.hdrLen + 4 + 4 * b) = chainHead (_ :: recs) b
    rw [chainHead_cons]
    show _ = if hash name = b then s else chainHead recs b
    by_cases hbe : hash name = b
    · rw [if_pos hbe, ← hbe]
      exact allocData_head _ _ _ _ _ _ _ (by omega) (by omega)
    · rw [if_neg hbe, ← hinv.heads b hb]
      unfold word
      rw [allocData_frame _ _ _ _ _ _ _ _ _ (by omega) (by omega) (by omega)]
  · show RecAt (allocData _ _ _ _ _ _ _) ⟨s, name, 0⟩ (chainHead recs (hash name)) ∧
      RecsOK (allocData _ _ _ _ _ _ _) recs
    refine ⟨⟨?_, ?_, ?_, ?_⟩, ?_⟩
    · show load64 (allocData _ _ _ _ _ _ _) s = 0
      unfold load64
      rw [allocData_frame _ _ _ _ _ _ _ _ _ (by omega) (by omega) (by omega)]
      apply readBytes_all_zero
      intro i hi1 hi2 hi3
      exact hinv.zeros i (by omega) hi3
    · exact allocData_tag _ _ _ _ _ _ _ (by omega) (by omega) hn
    · exact allocData_next _ _ _ _ _ _ _ (by omega) (by omega) hhd2
    · exact allocData_name _ _ _ _ _ _ _ (by omega) (by omega)
    · refine RecsOK_congr m.data _ recs (fun r hr i hi1 hi2 => ?_) hinv.recs_ok
      have := hbelow r hr
      have := recSize_ge r.name
      have hlo := (Sorted_mem _ recs hinv.sorted r hr).2.2
      exact allocData_getElem? _ _ _ _ _ _ _ _ (by omega) (by omega) (by omega)
  · show 1 ≤ name.length ∧ name.length ≤ 256 ∧ m.hdrLen + 2080 ≤ s ∧
      (∀ q ∈ recs, q.off + recSize q.name ≤ s ∧ q.name ≠ name) ∧ Sorted (m.hdrLen + 2080) recs
    refine ⟨hn1, hn, p2, fun q hq => ⟨?_, ?_⟩, hinv.sorted⟩
    · have := hbelow q hq; omega
    · exact (findOff_none_iff recs name).1 hnew q hq
  · intro i hi1 hi2
    show (allocData _ _ _ _ _ _ _)[i]? = some 0
    simp only at hi1 hi2
    rw [hlim] at hi1
    rw [length_allocData] at hi2
    rw [allocData_getElem? _ _ _ _ _ _ _ _ (by omega) (by omega) (by omega)]
    exact hinv.zeros i (by omega) hi2
  · show word (allocData _ _ _ _ _ _ _) m.hdrLen ≤ m.hdrLen + 2052 + 607 * (recs.length + 1)
    rw [hlim]
    split at p7 <;> omega
  · show 32 * (recs.length + 1) ≤ word (allocData _ _ _ _ _ _ _) m.hdrLen
    rw [hlim]
    have := recSize_ge_32 name
    omega


theorem Inv_freshFile (meta : Bytes) (h : meta.length ≤ 512) : Inv (freshFile meta) [] := by
  have hw := WInv_freshFile meta h
  obtain ⟨hH1, hH2, hH3⟩ := hw.hdrLen_bounds
  have hlen := freshFile_length meta h
  have hw0 : word (freshFile meta).data (freshFile meta).hdrLen = 0 :=
    freshFile_word_zero meta h _ (le_refl _)
  refine ⟨hw, fun r hr => (by cases hr), fun b _ => ?_, trivial, trivial, fun i hi1 hi2 => ?_,
    (by omega), (by simp)⟩
  · show _ = 0
    exact freshFile_word_zero meta h _ (by show (header meta).length ≤ (header meta).length + 4 + 4 * b; omega)
  · rw [hlen] at hi2
    exact freshFile_getElem?_zero meta h i
      (by have : (freshFile meta).hdrLen = (header meta).length := rfl; omega) hi2

/-- A call of `newCounter` for a name that is not in the file: it allocates,
unless it runs out of fuel or the record would end beyond `2 ^ 32 - 4096`. -/
theorem newCounter_new (m : mappedFile) (recs : List Rec) (name : Bytes) (fuel s e : Nat)
    (hinv : Inv m recs) (hn1 : 1 ≤ name.length) (hn : name.length ≤ 256)
    (hnew : findOff recs name = none)
    (hp : place m (word m.data m.hdrLen) name = (s, e)) :
    (newCounter fuel m name = .diverge ∧
      (fuel < recs.length ∨ fuel < 2 ∨ 2 ^ 32 - 4096 < e)) ∨
    (newCounter fuel m name = .ret (finish (decide (m.data.length < e))
        ⟨m.meta, m.hdrLen, allocData (grown m.data e) m.hdrLen s e name
          (m.hdrLen + 4 + 4 * hash name) (chainHead recs (hash name))⟩ (some s) none) ∧
      e ≤ 2 ^ 32 - 4096 ∧
      Inv ⟨m.meta, m.hdrLen, allocData (grown m.data e) m.hdrLen s e name
          (m.hdrLen + 4 + 4 * hash name) (chainHead recs (hash name))⟩
        (⟨s, name, 0⟩ :: recs)) := by
  have hw := hinv.winv
  obtain ⟨hH1, hH2, hH3⟩ := hw.hdrLen_bounds
  have hh := hash_lt name
  have hmin := hw.len_min
  unfold newCounter
  rw [if_neg (by simp only [maxNameLen]; omega)]
  rcases lookup_inv m recs name fuel hinv with hlk | ⟨hlk, hf⟩
  · rw [hlk, hnew]
    simp only
    unfold afterLookup
    rw [if_neg (by simp), if_neg (by simp)]
    simp only
    cases fuel with
    | zero => left; exact ⟨rfl, Or.inr (Or.inl (by omega))⟩
    | succ fuel =>
      have hc := reserve_cases m name (m.hdrLen + 4 + 4 * hash name) (chainHead recs (hash name))
        (fuel + 1) (word m.data m.hdrLen) s e hw hn (by omega) (by omega)
        (hinv.heads _ hh) (by omega) rfl hp (fuel + 1) false
      rcases hc with ⟨hd, hcause⟩ | hr
      · left
        exact ⟨hd, Or.inr hcause⟩
      · right
        rw [Bool.false_or] at hr
        have he : e ≤ 2 ^ 32 - 4096 := by
          by_contra hbig
          have := reserve_wrap_diverges m name (m.hdrLen + 4 + 4 * hash name)
            (chainHead recs (hash name)) (fuel + 1) (word m.data m.hdrLen) s e hw hn rfl hp
            (by omega) (fuel + 1) false
          rw [this] at hr
          cases hr
        refine ⟨hr, he, ?_⟩
        have hig := Inv_grown m recs e hinv he
        have hwd : word (grown m.data e) m.hdrLen = word m.data m.hdrLen :=
          word_grown _ _ _ (by omega)
        have hlg := length_grown m.data e
        have hr2 := roundUp_ge e 4096 (by norm_num)
        exact Inv_alloc ⟨m.meta, m.hdrLen, grown m.data e⟩ recs name s e hig hn1 hn hnew
          (by show place _ (word (grown m.data e) m.hdrLen) name = (s, e); rw [hwd]; exact hp)
          (by show e ≤ (grown m.data e).length; rw [hlg]; split <;> omega)
  · left
    rw [hlk]
    exact ⟨rfl, Or.inl hf⟩

/-- A call of `newCounter` for a name that is in the file returns its slot
and changes nothing. -/
theorem newCounter_found (m : mappedFile) (recs : List Rec) (name : Bytes) (fuel v : Nat)
    (hinv : Inv m recs) (hn : name.length ≤ 256) (hf : findOff recs name = some v) :
    (newCounter fuel m name = .diverge ∧ fuel < recs.length) ∨
      newCounter fuel m name = .ret ⟨some v, none, none, m.data⟩ := by
  unfold newCounter
  rw [if_neg (by simp only [maxNameLen]; omega)]
  rcases lookup_inv m recs name fuel hinv with hlk | ⟨hlk, hfu⟩
  · right
    rw [hlk, hf]
    simp only
    unfold afterLookup
    rw [if_neg (by simp), if_pos (by simp)]
    rfl
  · left
    rw [hlk]
    exact ⟨rfl, hfu⟩


theorem limit_never_decreases_witness :
    limitOf (freshFile []) ≤ limitOf ((firstResult [97] 2144).current (freshFile [])) ∧
      (∀ lr, lookup 4 (freshFile []) [97] = .ret lr → lr.ok = true → lr.v = none →
        [(97 : UInt8)].length ≤ 256 →
        ∃ s, (firstResult [97] 2144).v = some s ∧ limitOf (freshFile []) ≤ s ∧
          s < limitOf ((firstResult [97] 2144).current (freshFile []))) :=
  limit_never_decreases [] (freshFile []) 4 [97] (firstResult [97] 2144)
    (Reachable.fresh _ (created_eq [] (by decide))) (by decide!)

/-- C5: a name longer than 256 bytes makes `newCounter` return the
name-too-long error, with no slot and no replacement mapping, and the file
bytes are those it had before the call; a name of exactly 256 bytes on a
freshly created file is given a slot, without error. -/
theorem name_length_boundary :
    (∀ (fuel : Nat) (m : mappedFile) (name : Bytes), 256 < name.length →
      newCounter fuel m name = .ret ⟨none, none, some .nameTooLong, m.data⟩) ∧
    (∀ (meta : Bytes) (m : mappedFile) (name : Bytes) (fuel : Nat),
      created meta = .ok m → name.length = 256 → 2 ≤ fuel →
      ∃ r, newCounter fuel m name = .ret r ∧ r.v = some (m.hdrLen + 2080) ∧
        r.m1 = none ∧ r.err = none) := by
  constructor
  · intro fuel m name h
    unfold newCounter
    rw [if_pos (by simp only [maxNameLen]; omega)]
  · intro meta m name fuel hc hn hf
    obtain ⟨hm, rfl⟩ := created_ok meta m hc
    have hinv := Inv_freshFile meta hm
    obtain ⟨hH1, hH2, hH3⟩ := hinv.winv.hdrLen_bounds
    have hlen := freshFile_length meta hm
    have hw0 : word (freshFile meta).data (freshFile meta).hdrLen = 0 :=
      freshFile_word_zero meta hm _ (le_refl _)
    obtain ⟨s, e, hp⟩ : ∃ s e, place (freshFile meta) (word (freshFile meta).data
        (freshFile meta).hdrLen) name = (s, e) := ⟨_, _, rfl⟩
    obtain ⟨p1, p2, p3, p4, p5, p6, p7⟩ :=
      place_facts_at (freshFile meta) name _ s e hinv.winv (by omega) rfl hp
    rw [hw0, if_pos rfl] at p7
    have hs : s = (freshFile meta).hdrLen + 2080 := by
      have := (place_first_start (freshFile meta) name hH1 hH3 (by omega)).2
      rw [hw0] at hp
      rw [hp] at this
      exact this
    rcases newCounter_new (freshFile meta) [] name fuel s e hinv (by omega) (by omega) rfl hp
      with ⟨_, hcause⟩ | ⟨hr, _, _⟩
    · exfalso
      simp only [List.length_nil] at hcause
      omega
    · refine ⟨_, hr, ?_, ?_, rfl⟩
      · show some s = _
        rw [hs]
      · unfold finish
        have : decide ((freshFile meta).data.length < e) = false := by
          simp only [decide_eq_false_iff_not]; omega
        simp [this]

theorem name_length_boundary_witness :
    newCounter 2 (freshFile []) (List.replicate 257 65) =
        .ret ⟨none, none, some .nameTooLong, (freshFile []).data⟩ ∧
      ∃ r, newCounter 2 (freshFile []) (List.replicate 256 65) = .ret r ∧
        r.v = some ((freshFile []).hdrLen + 2080) ∧ r.m1 = none ∧ r.err = none :=
  ⟨name_length_boundary.1 2 (freshFile []) (List.replicate 257 65)
     (by rw [List.length_replicate]; omega),
   name_length_boundary.2 [] (freshFile []) (List.replicate 256 65) 2
     (created_eq [] (by decide)) (List.length_replicate _ _) (by decide)⟩

/-- C1 fails at the empty name: on the file freshly created for the empty
metadata, `newCounter("")` returns the slot at offset 2112 without error and
links the record at the head of bucket `hash("") = 217`; but `entryAt` rejects
that record (its stored name length is 0), so the walk of the chain visits no
entry named "", `lookup("")` returns `ok = false`, and a second
`newCounter("")` returns the corrupt-file error. -/
theorem empty_name_record_unreadable :
    newCounter 4 (freshFile []) [] = .ret (firstResult [] 2144) ∧
      (firstResult [] 2144).v = some 2112 ∧ (firstResult [] 2144).err = none ∧
      load32 ((firstResult [] 2144).current (freshFile [])) (32 + 4 + 4 * hash []) = 2112 ∧
      entryAt ((firstResult [] 2144).current (freshFile [])) 2112 = .ret none ∧
      lookup 4 ((firstResult [] 2144).current (freshFile [])) [] = .ret ⟨none, 0, 0, false⟩ ∧
      newCounter 4 ((firstResult [] 2144).current (freshFile [])) [] =
        .ret ⟨none, none, some .corrupt, (firstResult [] 2144).file⟩ := by
  refine ⟨by decide!, by decide!, by decide!, by decide!, by decide!, by decide!, by decide!⟩


/-! ## Adding to a slot -/

theorem findOff_mem (recs : List Rec) (name : Bytes) (v : Nat) (h : findOff recs name = some v) :
    ∃ r ∈ recs, r.name = name ∧ r.off = v := by
  induction recs with
  | nil => cases h
  | cons r rest ih =>
    rw [findOff_cons] at h
    by_cases hn : r.name = name
    · rw [if_pos hn] at h
      cases h
      exact ⟨r, List.mem_cons_self _ _, hn, rfl⟩
    · rw [if_neg hn] at h
      obtain ⟨q, hq, h1, h2⟩ := ih h
      exact ⟨q, List.mem_cons_of_mem _ hq, h1, h2⟩

theorem findVal_of_none (recs : List Rec) (name : Bytes) (h : findOff recs name = none) :
    findVal recs name = 0 := by
  induction recs with
  | nil => rfl
  | cons r rest ih =>
    rw [findOff_cons] at h
    rw [findVal_cons]
    by_cases hn : r.name = name
    · rw [if_pos hn] at h; cases h
    · rw [if_neg hn] at h ⊢; exact ih h

theorem load64_of_find (d : Bytes) (recs : List Rec) (name : Bytes) (v : Nat)
    (hok : RecsOK d recs) (h : findOff recs name = some v) : load64 d v = findVal recs name := by
  induction recs with
  | nil => cases h
  | cons r rest ih =>
    rw [findOff_cons] at h
    rw [findVal_cons]
    by_cases hn : r.name = name
    · rw [if_pos hn] at h ⊢
      cases h
      exact hok.1.1
    · rw [if_neg hn] at h ⊢
      exact ih hok.2 h

theorem bump_cons (r : Rec) (rest : List Rec) (name : Bytes) (delta : Nat) :
    bump (r :: rest) name delta =
      (if r.name = name then ⟨r.off, r.name, (r.val + delta) % 2 ^ 64⟩ else r) ::
        bump rest name delta := rfl

@[simp] theorem length_bump (recs : List Rec) (name : Bytes) (delta : Nat) :
    (bump recs name delta).length = recs.length := by
  unfold bump; simp

theorem mem_bump (recs : List Rec) (name : Bytes) (delta : Nat) (q : Rec)
    (h : q ∈ bump recs name delta) : ∃ r ∈ recs, q.off = r.off ∧ q.name = r.name := by
  unfold bump at h
  obtain ⟨r, hr, rfl⟩ := List.mem_map.1 h
  refine ⟨r, hr, ?_⟩
  split <;> exact ⟨rfl, rfl⟩

theorem chainHead_bump (recs : List Rec) (name : Bytes) (delta b : Nat) :
    chainHead (bump recs name delta) b = chainHead recs b := by
  induction recs with
  | nil => rfl
  | cons r rest ih =>
    rw [bump_cons, chainHead_cons, chainHead_cons, ih]
    split <;> rfl

theorem findOff_bump (recs : List Rec) (name : Bytes) (delta : Nat) (n : Bytes) :
    findOff (bump recs name delta) n = findOff recs n := by
  induction recs with
  | nil => rfl
  | cons r rest ih =>
    rw [bump_cons, findOff_cons, findOff_cons, ih]
    split <;> rfl

theorem findVal_bump_other (recs : List Rec) (name : Bytes) (delta : Nat) (n : Bytes)
    (h : n ≠ name) : findVal (bump recs name delta) n = findVal recs n := by
  induction recs with
  | nil => rfl
  | cons r rest ih =>
    rw [bump_cons, findVal_cons, findVal_cons, ih]
    by_cases hr : r.name = name
    · have : ¬ r.name = n := fun h' => h (h' ▸ hr)
      rw [if_pos hr]
      simp only [this, if_false]
    · rw [if_neg hr]

theorem findVal_bump_same (recs : List Rec) (name : Bytes) (delta : Nat)
    (h : findOff recs name ≠ none) :
    findVal (bump recs name delta) name = (findVal recs name + delta) % 2 ^ 64 := by
  induction recs with
  | nil => exact absurd rfl h
  | cons r rest ih =>
    rw [bump_cons, findVal_cons, findVal_cons]
    by_cases hr : r.name = name
    · rw [if_pos hr]
      simp only [hr, if_true]
    · rw [if_neg hr, if_neg hr, if_neg hr]
      apply ih
      rw [findOff_cons, if_neg hr] at h
      exact h

theorem Sorted_bump (lo : Nat) (recs : List Rec) (name : Bytes) (delta : Nat)
    (h : Sorted lo recs) : Sorted lo (bump recs name delta) := by
  induction recs with
  | nil => trivial
  | cons r rest ih =>
    obtain ⟨h1, h2, h3, h4, h5⟩ := h
    rw [bump_cons]
    have key : ∀ q ∈ bump rest name delta, q.off + recSize q.name ≤ r.off ∧ q.name ≠ r.name := by
      intro q hq
      obtain ⟨q', hq', e1, e2⟩ := mem_bump rest name delta q hq
      rw [e1, e2]
      exact h4 q' hq'
    by_cases hr : r.name = name
    · rw [if_pos hr]
      exact ⟨h1, h2, h3, key, ih h5⟩
    · rw [if_neg hr]
      exact ⟨h1, h2, h3, key, ih h5⟩

theorem RecsOK_bump (d : Bytes) (lo v nv : Nat) (name : Bytes) (delta : Nat)
    (hv : v + 8 ≤ d.length) (hnv : nv < 2 ^ 64) :
    ∀ (recs : List Rec), Sorted lo recs → RecsOK d recs →
      ((findOff recs name = some v ∧ nv = (findVal recs name + delta) % 2 ^ 64) ∨
        (∀ r ∈ recs, r.name ≠ name ∧ r.off + recSize r.name ≤ v)) →
      RecsOK (writeBytes d v (toLE 8 nv)) (bump recs name delta) := by
  intro recs
  induction recs with
  | nil => intro _ _ _; trivial
  | cons r rest ih =>
    intro hs hok hcase
    obtain ⟨h1, h2, h3, h4, h5⟩ := hs
    obtain ⟨hr, hok'⟩ := hok
    have hrs := recSize_ge r.name
    have frame : ∀ (q : Rec) (next : Nat), (q.off + 16 + q.name.length ≤ v ∨ v + 8 ≤ q.off) →
        RecAt d q next → RecAt (writeBytes d v (toLE 8 nv)) q next := by
      intro q next hq hqa
      refine RecAt_congr d _ q next (fun i hi1 hi2 => ?_) hqa
      exact getElem?_writeBytes_outside _ _ _ _ (by rw [length_toLE]; omega)
    rw [bump_cons]
    by_cases hname : r.name = name
    · rw [if_pos hname]
      rcases hcase with ⟨hf, hval⟩ | hB
      · rw [findOff_cons, if_pos hname] at hf
        rw [findVal_cons, if_pos hname] at hval
        cases hf
        refine ⟨⟨?_, ?_, ?_, ?_⟩, ?_⟩
        · show load64 _ r.off = (r.val + delta) % 2 ^ 64
          rw [load64_write_same _ _ _ hv hnv, hval]
        · show word _ (r.off + 8) = _
          rw [word_write_disjoint _ _ _ _ (by rw [length_toLE]; omega)]
          exact hr.2.1
        · show word _ (r.off + 12) = _
          rw [word_write_disjoint _ _ _ _ (by rw [length_toLE]; omega), chainHead_bump]
          exact hr.2.2.1
        · show readBytes _ (r.off + 16) r.name.length = r.name
          rw [readBytes_writeBytes_disjoint _ _ _ _ _ (by rw [length_toLE]; omega)]
          exact hr.2.2.2
        · apply ih h5 hok'
          right
          intro q hq
          obtain ⟨h6, h7⟩ := h4 q hq
          exact ⟨fun h => h7 (h.trans hname.symm), h6⟩
      · exact absurd hname (hB r (List.mem_cons_self _ _)).1
    · rw [if_neg hname]
      rcases hcase with ⟨hf, hval⟩ | hB
      · rw [findOff_cons, if_neg hname] at hf
        rw [findVal_cons, if_neg hname] at hval
        obtain ⟨r0, hr0, _, hoff⟩ := findOff_mem rest name v hf
        have := (h4 r0 hr0).1
        have := recSize_ge_32 r0.name
        refine ⟨?_, ih h5 hok' (Or.inl ⟨hf, hval⟩)⟩
        rw [chainHead_bump]
        exact frame r _ (by omega) hr
      · have := (hB r (List.mem_cons_self _ _)).2
        refine ⟨?_, ih h5 hok' (Or.inr (fun q hq => hB q (List.mem_cons_of_mem _ hq)))⟩
        rw [chainHead_bump]
        exact frame r _ (by omega) hr

theorem load64_lt (d : Bytes) (off : Nat) : load64 d off < 2 ^ 64 := by
  unfold load64
  have h := fromLE_lt (readBytes d off 8)
  have hl : (readBytes d off 8).length ≤ 8 := by
    unfold readBytes
    simp only [List.length_take]
    omega
  have : 256 ^ (readBytes d off 8).length ≤ 256 ^ 8 := Nat.pow_le_pow_right (by norm_num) hl
  have e : (256 : Nat) ^ 8 = 2 ^ 64 := by norm_num
  omega


theorem Inv_add (m : mappedFile) (recs : List Rec) (name : Bytes) (v delta : Nat)
    (hinv : Inv m recs) (hf : findOff recs name = some v) :
    Inv (add64 m v delta) (bump recs name delta) := by
  obtain ⟨hH1, hH2, hH3⟩ := hinv.winv.hdrLen_bounds
  obtain ⟨hdr, g1, g2, g3⟩ := hinv.winv.hdr
  obtain ⟨r0, hr0, hname0, hoff0⟩ := findOff_mem recs name v hf
  have hlo := (Sorted_mem _ recs hinv.sorted r0 hr0).2.2
  have hb0 := hinv.below r0 hr0
  have hs0 := recSize_ge_32 r0.name
  have hle := hinv.winv.limit_le
  rw [hoff0] at hlo hb0
  have hnv : (load64 m.data v + delta) % 2 ^ 64 < 2 ^ 64 := Nat.mod_lt _ (by norm_num)
  have hwd : ∀ o, o + 4 ≤ v →
      word (writeBytes m.data v (toLE 8 ((load64 m.data v + delta) % 2 ^ 64))) o
        = word m.data o := fun o ho => word_write_disjoint _ _ _ _ (Or.inl ho)
  have hL := hwd m.hdrLen (by omega)
  unfold add64
  refine ⟨⟨⟨hdr, g1, g2, ?_⟩, ?_, ?_, ?_, ?_, ?_⟩, ?_, ?_, ?_, ?_, ?_, ?_, ?_⟩
  · show readBytes (writeBytes _ _ _) 0 hdr.length = hdr
    rw [readBytes_writeBytes_disjoint _ _ _ _ _ (by omega), g3]
  · show 4096 ≤ (writeBytes _ _ _).length
    rw [length_writeBytes]; exact hinv.winv.len_min
  · show (writeBytes _ _ _).length % 4096 = 0
    rw [length_writeBytes]; exact hinv.winv.len_page
  · show (writeBytes _ _ _).length ≤ 2 ^ 32 - 4096
    rw [length_writeBytes]; exact hinv.winv.len_max
  · show word (writeBytes _ _ _) m.hdrLen ≤ (writeBytes _ _ _).length
    rw [hL, length_writeBytes]; exact hle
  · show word (writeBytes _ _ _) m.hdrLen = 0 ∨ m.hdrLen + 2052 ≤ word (writeBytes _ _ _) m.hdrLen
    rw [hL]; exact hinv.winv.limit_lo
  · intro q hq
    show q.off + recSize q.name ≤ word (writeBytes _ _ _) m.hdrLen
    obtain ⟨r, hr, e1, e2⟩ := mem_bump recs name delta q hq
    rw [hL, e1, e2]
    exact hinv.below r hr
  · intro b hb
    show word (writeBytes _ _ _) (m.hdrLen + 4 + 4 * b) = _
    rw [hwd _ (by omega), chainHead_bump]
    exact hinv.heads b hb
  · show RecsOK (writeBytes _ _ _) (bump recs name delta)
    refine RecsOK_bump m.data _ v _ name delta (by omega) hnv recs hinv.sorted hinv.recs_ok
      (Or.inl ⟨hf, ?_⟩)
    rw [load64_of_find m.data recs name v hinv.recs_ok hf]
  · exact Sorted_bump _ recs name delta hinv.sorted
  · intro i hi1 hi2
    show (writeBytes _ _ _)[i]? = some 0
    simp only at hi1 hi2
    rw [hL] at hi1
    rw [length_writeBytes] at hi2
    rw [getElem?_writeBytes_outside _ _ _ _ (by rw [length_toLE]; omega)]
    exact hinv.zeros i hi1 hi2
  · show word (writeBytes _ _ _) m.hdrLen ≤ _
    rw [hL, length_bump]; exact hinv.limit_ub
  · show _ ≤ word (writeBytes _ _ _) m.hdrLen
    rw [hL, length_bump]; exact hinv.limit_lb

theorem total_cons (n : Bytes) (delta : Nat) (rest : List (Bytes × Nat)) (name : Bytes) :
    total ((n, delta) :: rest) name = (if n = name then delta else 0) + total rest name := rfl

theorem incAll_cons (fuel : Nat) (m : mappedFile) (name : Bytes) (delta : Nat)
    (rest : List (Bytes × Nat)) :
    incAll fuel m ((name, delta) :: rest) =
      match newCounter fuel m name with
      | .ret r =>
        match r.v with
        | some v => incAll fuel (add64 (r.current m) v delta) rest
        | none => incAll fuel (r.current m) rest
      | .panic => .panic
      | .diverge => .diverge := rfl


/-! ## `newCounter` finds or creates, and keeps the invariant -/

theorem resolve_spec (m : mappedFile) (recs : List Rec) (name : Bytes) (fuel : Nat)
    (hinv : Inv m recs) (hn1 : 1 ≤ name.length) (hn : name.length ≤ 256) :
    (newCounter fuel m name = .diverge ∧
      (fuel < recs.length + 2 ∨
        2 ^ 32 - 4096 < m.hdrLen + 2052 + 607 * (recs.length + 1))) ∨
    (∃ r v recs1, newCounter fuel m name = .ret r ∧ r.v = some v ∧ r.err = none ∧
      Inv (r.current m) recs1 ∧ (r.current m).meta = m.meta ∧
      (r.current m).hdrLen = m.hdrLen ∧ findOff recs1 name = some v ∧
      (∀ n w, findOff recs n = some w → findOff recs1 n = some w) ∧
      (∀ n, n ≠ name → findOff recs1 n = findOff recs n) ∧
      (∀ n, findVal recs1 n = findVal recs n) ∧
      recs.length ≤ recs1.length ∧ recs1.length ≤ recs.length + 1) := by
  cases hfo : findOff recs name with
  | none =>
    obtain ⟨s, e, hp⟩ : ∃ s e, place m (word m.data m.hdrLen) name = (s, e) := ⟨_, _, rfl⟩
    obtain ⟨p1, p2, p3, p4, p5, p6, p7⟩ := place_facts_at m name _ s e hinv.winv hn rfl hp
    have hub := hinv.limit_ub
    rcases newCounter_new m recs name fuel s e hinv hn1 hn hfo hp with
      ⟨hd, hc⟩ | ⟨hr, he, hinv1⟩
    · left
      refine ⟨hd, ?_⟩
      rcases hc with hc | hc | hc
      · left; omega
      · left; omega
      · right
        split at p7 <;> omega
    · right
      refine ⟨_, s, ⟨s, name, 0⟩ :: recs, hr, rfl, rfl, ?_, ?_, ?_, ?_, ?_, ?_, ?_, ?_, ?_⟩
      · rw [finish_current]; exact hinv1
      · rw [finish_current]
      · rw [finish_current]
      · rw [findOff_cons, if_pos rfl]
      · intro n w hw
        rw [findOff_cons]
        have : ¬ name = n := fun h => by rw [← h, hfo] at hw; cases hw
        show (if name = n then some s else findOff recs n) = some w
        rw [if_neg this, hw]
      · intro n hne
        rw [findOff_cons]
        show (if name = n then some s else findOff recs n) = findOff recs n
        rw [if_neg (fun h => hne h.symm)]
      · intro n
        rw [findVal_cons]
        show (if name = n then 0 else findVal recs n) = findVal recs n
        by_cases h : name = n
        · rw [if_pos h, ← h, findVal_of_none recs name hfo]
        · rw [if_neg h]
      · simp
      · simp
  | some v =>
    rcases newCounter_found m recs name fuel v hinv hn hfo with ⟨hd, hc⟩ | hr
    · left
      exact ⟨hd, Or.inl (by omega)⟩
    · right
      refine ⟨_, v, recs, hr, rfl, rfl, ?_, ?_, ?_, hfo, fun n w hw => hw, fun n _ => rfl,
        fun n => rfl, le_refl _, (by omega)⟩
      · rw [current_unchanged]; exact hinv
      · rw [current_unchanged]
      · rw [current_unchanged]

theorem incAll_spec (fuel : Nat) :
    ∀ (l : List (Bytes × Nat)) (m : mappedFile) (recs : List Rec), Inv m recs →
      (∀ p ∈ l, 1 ≤ p.1.length ∧ p.1.length ≤ 256) →
      (incAll fuel m l = .diverge ∧
        (fuel < recs.length + l.length + 2 ∨
          2 ^ 32 - 4096 < m.hdrLen + 2052 + 607 * (recs.length + l.length))) ∨
      (∃ m1 recs1, incAll fuel m l = .ret m1 ∧ Inv m1 recs1 ∧ m1.meta = m.meta ∧
        m1.hdrLen = m.hdrLen ∧ (∀ p ∈ l, findOff recs1 p.1 ≠ none) ∧
        (∀ n, findOff recs n ≠ none → findOff recs1 n ≠ none) ∧
        (∀ n, findVal recs1 n % 2 ^ 64 = (findVal recs n + total l n) % 2 ^ 64) ∧
        recs1.length ≤ recs.length + l.length) := by
  intro l
  induction l with
  | nil =>
    intro m recs hinv _
    right
    exact ⟨m, recs, rfl, hinv, rfl, rfl, fun p hp => (by cases hp), fun n h => h,
      fun n => (by simp [total]), (by simp)⟩
  | cons p rest ih =>
    intro m recs hinv hl
    obtain ⟨name, delta⟩ := p
    obtain ⟨hn1, hn⟩ := hl (name, delta) (List.mem_cons_self _ _)
    have hl' : ∀ p ∈ rest, 1 ≤ p.1.length ∧ p.1.length ≤ 256 :=
      fun p hp => hl p (List.mem_cons_of_mem _ hp)
    rw [incAll_cons]
    rcases resolve_spec m recs name fuel hinv hn1 hn with ⟨hd, hc⟩ |
      ⟨r, v, recs1, hr, hv, _, hinv1, hmeta, hhdr, hf1, hkeep, hother, hval, hlen0, hlen⟩
    · left
      rw [hd]
      refine ⟨rfl, ?_⟩
      simp only [List.length_cons]
      rcases hc with hc | hc
      · left; omega
      · right; omega
    · rw [hr]
      simp only [hv]
      have hinv2 := Inv_add (r.current m) recs1 name v delta hinv1 hf1
      have hm2 : (add64 (r.current m) v delta).meta = m.meta := hmeta
      have hh2 : (add64 (r.current m) v delta).hdrLen = m.hdrLen := hhdr
      rcases ih (add64 (r.current m) v delta) (bump recs1 name delta) hinv2 hl' with
        ⟨hd, hc⟩ | ⟨m3, recs3, h3, hinv3, hm3, hh3, hall, hkeep3, hval3, hlen3⟩
      · left
        refine ⟨hd, ?_⟩
        rw [hh2, length_bump] at hc
        simp only [List.length_cons]
        rcases hc with hc | hc
        · left; omega
        · right; omega
      · right
        rw [length_bump] at hlen3
        refine ⟨m3, recs3, h3, hinv3, hm3.trans hm2, hh3.trans hh2, ?_, ?_, ?_, ?_⟩
        · intro q hq
          rcases List.mem_cons.1 hq with rfl | hq'
          · apply hkeep3
            rw [findOff_bump, hf1]
            simp
          · exact hall q hq'
        · intro n hne
          apply hkeep3
          rw [findOff_bump]
          cases hfn : findOff recs n with
          | none => exact absurd hfn hne
          | some w => rw [hkeep n w hfn]; simp
        · intro n
          rw [hval3 n, total_cons]
          by_cases hnn : name = n
          · subst hnn
            rw [if_pos rfl, findVal_bump_same recs1 name delta (by rw [hf1]; simp), hval name]
            omega
          · rw [if_neg hnn, findVal_bump_other recs1 name delta n (fun h => hnn h.symm), hval n]
            omega
        · simp only [List.length_cons]; omega


/-! ## Round trip through the file bytes -/

theorem roundtrip_of_inv (m : mappedFile) (recs : List Rec) (name : Bytes) (fuel : Nat)
    (hinv : Inv m recs) (hf : findOff recs name ≠ none) (hfuel : recs.length ≤ fuel) :
    ∃ v ho hd, lookup fuel m name = .ret ⟨some v, ho, hd, true⟩ ∧
      load64 m.data v = findVal recs name := by
  cases hfo : findOff recs name with
  | none => exact absurd hfo hf
  | some v =>
    rcases lookup_inv m recs name fuel hinv with h | ⟨_, h⟩
    · rw [hfo] at h
      exact ⟨v, _, _, h, load64_of_find m.data recs name v hinv.recs_ok hfo⟩
    · omega

/-- C2 (as the code has it): names of 1 to 256 bytes are resolved on a fresh
file and their deltas added. If the list has at most 7,000,000 pairs (so that
every record ends below `2 ^ 32 - 4096`), every `newCounter` call returns; and
whenever the calls all return, re-opening the resulting file bytes with the same
metadata succeeds and `lookup` of each name returns, with `ok = true`, a slot
whose value is the sum of the deltas added under that name, modulo `2 ^ 64`. -/
theorem roundtrip_values (meta : Bytes) (m0 : mappedFile) (l : List (Bytes × Nat))
    (fuel : Nat) (hc : created meta = .ok m0)
    (hl : ∀ p ∈ l, 1 ≤ p.1.length ∧ p.1.length ≤ 256) :
    (l.length ≤ 7000000 → l.length + 2 ≤ fuel → ∃ m, incAll fuel m0 l = .ret m) ∧
    (∀ m, incAll fuel m0 l = .ret m →
      ∃ m1, openMapped m.data meta = (.ok m1, m.data) ∧
        ∀ fuel1, l.length ≤ fuel1 → ∀ p ∈ l, ∃ v ho hd,
          lookup fuel1 m1 p.1 = .ret ⟨some v, ho, hd, true⟩ ∧
            load64 m1.data v = total l p.1 % 2 ^ 64) := by
  obtain ⟨hm, rfl⟩ := created_ok meta m0 hc
  have hinv0 := Inv_freshFile meta hm
  obtain ⟨hH1, hH2, hH3⟩ := hinv0.winv.hdrLen_bounds
  have hspec := incAll_spec fuel l (freshFile meta) [] hinv0 hl
  simp only [List.length_nil, Nat.zero_add] at hspec
  constructor
  · intro hsize hfuel
    rcases hspec with ⟨_, hcause⟩ | ⟨m1, _, h1, _⟩
    · exfalso
      rcases hcause with h | h
      · omega
      · omega
    · exact ⟨m1, h1⟩
  · intro m hret
    rcases hspec with ⟨hd, _⟩ | ⟨m1, recs1, h1, hinv1, hmeta, _, hall, _, hval, hlen⟩
    · rw [hd] at hret; cases hret
    · rw [h1] at hret
      cases hret
      refine ⟨m, ?_, ?_⟩
      · have := openMapped_self m hinv1.winv
        rw [hmeta] at this
        exact this
      · intro fuel1 hf1 p hp
        obtain ⟨v, ho, hd, hlk, hld⟩ :=
          roundtrip_of_inv m recs1 p.1 fuel1 hinv1 (hall p hp) (by omega)
        refine ⟨v, ho, hd, hlk, ?_⟩
        have h64 := load64_lt m.data v
        have hv := hval p.1
        rw [findVal] at hv
        rw [hld] at h64 ⊢
        omega

theorem roundtrip_values_witness :
    ∃ m, incAll 5 (freshFile []) [([97], 5), ([98], 7), ([97], 1)] = .ret m ∧
      ∃ m1, openMapped m.data [] = (.ok m1, m.data) ∧
        ∀ fuel1, [([(97 : UInt8)], 5), ([98], 7), ([97], 1)].length ≤ fuel1 →
          ∀ p ∈ [([(97 : UInt8)], 5), ([98], 7), ([97], 1)], ∃ v ho hd,
            lookup fuel1 m1 p.1 = .ret ⟨some v, ho, hd, true⟩ ∧
              load64 m1.data v = total [([97], 5), ([98], 7), ([97], 1)] p.1 % 2 ^ 64 := by
  have h := roundtrip_values [] (freshFile []) [([97], 5), ([98], 7), ([97], 1)] 5
    (created_eq [] (by decide)) (by decide)
  obtain ⟨m, hm⟩ := h.1 (by decide) (by decide)
  exact ⟨m, hm, h.2 m hm⟩

/-! ## More than 4 GiB of records cannot be stored -/

theorem manyNames_valid (k : Nat) : ∀ p ∈ manyNames k, 1 ≤ p.1.length ∧ p.1.length ≤ 256 := by
  intro p hp
  unfold manyNames at hp
  obtain ⟨i, _, rfl⟩ := List.mem_map.1 hp
  simp only [length_toLE]
  omega

theorem manyNames_nodup (k : Nat) (hk : k ≤ 2 ^ 32) :
    ((manyNames k).map (fun p => p.1)).Nodup := by
  unfold manyNames
  rw [List.map_map]
  apply List.Nodup.map_on _ (List.nodup_range k)
  intro x hx y hy hxy
  have hx' := List.mem_range.1 hx
  have hy' := List.mem_range.1 hy
  have h1 : fromLE (toLE 4 x) = fromLE (toLE 4 y) := congrArg fromLE hxy
  rw [fromLE_toLE, fromLE_toLE] at h1
  have e : (256 : Nat) ^ 4 = 2 ^ 32 := by norm_num
  rw [e, Nat.mod_eq_of_lt (by omega), Nat.mod_eq_of_lt (by omega)] at h1
  exact h1

theorem length_manyNames (k : Nat) : (manyNames k).length = k := by
  unfold manyNames
  simp

/-- C2 fails for lists that need more than 4 GiB: with `2 ^ 27` pairwise
different 4-byte names (valid names, each record takes 32 bytes) on the file
freshly created for the empty metadata, no amount of fuel makes the sequence of
`newCounter` calls return: offsets are 32-bit, and the call whose record would
end beyond `2 ^ 32 - 4096` never returns. -/
theorem roundtrip_impossible_beyond_4GiB :
    (∀ p ∈ manyNames (2 ^ 27), 1 ≤ p.1.length ∧ p.1.length ≤ 256) ∧
      created [] = .ok (freshFile []) ∧
      ¬ ∃ fuel m, incAll fuel (freshFile []) (manyNames (2 ^ 27)) = .ret m := by
  refine ⟨manyNames_valid _, created_eq [] (by decide), ?_⟩
  rintro ⟨fuel, m, hret⟩
  have hinv0 := Inv_freshFile [] (by decide)
  rcases incAll_spec fuel (manyNames (2 ^ 27)) (freshFile []) [] hinv0 (manyNames_valid _) with
    ⟨hd, _⟩ | ⟨m1, recs1, h1, hinv1, _, _, hall, _, _, _⟩
  · rw [hd] at hret; cases hret
  · have hsub : (manyNames (2 ^ 27)).map (fun p => p.1) ⊆ recs1.map (fun r => r.name) := by
      intro n hn
      obtain ⟨p, hp, rfl⟩ := List.mem_map.1 hn
      cases hfo : findOff recs1 p.1 with
      | none => exact absurd hfo (hall p hp)
      | some v =>
        obtain ⟨r, hr, hname, _⟩ := findOff_mem recs1 p.1 v hfo
        exact List.mem_map.2 ⟨r, hr, hname⟩
    have hlen := ((manyNames_nodup (2 ^ 27) (by norm_num)).subperm hsub).length_le
    rw [List.length_map, List.length_map, length_manyNames] at hlen
    have h1 := hinv1.limit_lb
    have h2 := hinv1.winv.limit_le
    have h3 := hinv1.winv.len_max
    have e : (2 : Nat) ^ 27 = 134217728 := by norm_num
    omega


/-! ## The layout of the header -/

theorem round64_unit (x : Nat) (h : x ≤ 2 ^ 32) : round 64 x 32 = roundUp x 32 :=
  round_two_pow 64 5 x (by omega) (by norm_num at h ⊢; omega)

theorem mappedHeader_fields (meta hdr : Bytes) (hk : mappedHeader meta = .ok hdr) :
    hdr.length = round 64 (32 + meta.length) 32 ∧
      readBytes hdr 0 28 = asBytes "# telemetry/counter file v1\n" ∧
      word hdr 28 = hdr.length ∧ readBytes hdr 32 meta.length = meta ∧
      ∀ i, 32 + meta.length ≤ i → i < hdr.length → hdr[i]? = some 0 := by
  have h := mappedHeader_ok_iff meta hdr hk
  have hh := mappedHeader_eq meta h
  have hb := mappedHeader_length_bounds meta _ hh
  have hl := mappedHeader_length meta _ hh
  rw [hh] at hk
  cases hk
  refine ⟨?_, ?_, ?_, ?_, ?_⟩
  · rw [hl, round64_unit _ (by omega)]
  · rw [readBytes_writeBytes_disjoint _ _ _ _ _ (by omega),
      readBytes_writeBytes_disjoint _ _ _ _ _ (by rw [length_toLE]; omega)]
    have := readBytes_writeBytes_same
      (List.replicate (roundUp (32 + meta.length) 32) (0 : UInt8)) 0 hdrPrefix
      (by rw [hdrPrefix_length, List.length_replicate]; rw [hl] at hb; omega)
    rw [hdrPrefix_length] at this
    rw [this]
    rfl
  · rw [hl] at hb
    rw [word_write_disjoint _ _ _ _ (by omega), u32_of_lt _ (by omega),
      word_write_same _ _ _ (by simp only [length_writeBytes, List.length_replicate]; omega)
        (by omega)]
    simp only [length_writeBytes, List.length_replicate]
  · rw [hl] at hb
    have hru := roundUp_ge (32 + meta.length) 32 (by norm_num)
    exact readBytes_writeBytes_same _ _ _
      (by simp only [length_writeBytes, List.length_replicate]; omega)
  · intro i hi1 hi2
    rw [hl] at hi2
    rw [getElem?_writeBytes_outside _ _ _ _ (by omega),
      getElem?_writeBytes_outside _ _ _ _ (by rw [length_toLE]; omega),
      getElem?_writeBytes_outside _ _ _ _ (by rw [hdrPrefix_length]; omega),
      List.getElem?_replicate, if_pos hi2]


/-- C11: `mappedHeader(meta)` fails exactly when `meta` has more than 512
bytes; otherwise the header has `round(32 + len(meta), 32)` bytes (a multiple
of 32 between 32 and 544), starts with the 28-byte magic, holds its own length
as a 32-bit word at offset 28, holds `meta` from offset 32, and is zero after
that. -/
theorem mappedHeader_layout (meta : Bytes) :
    (512 < meta.length → mappedHeader meta = .error .metadataTooLarge) ∧
    (meta.length ≤ 512 → ∃ hdr, mappedHeader meta = .ok hdr ∧
      hdr.length = round 64 (32 + meta.length) 32 ∧ hdr.length % 32 = 0 ∧
      32 ≤ hdr.length ∧ hdr.length ≤ 544 ∧
      readBytes hdr 0 28 = asBytes "# telemetry/counter file v1\n" ∧
      word hdr 28 = hdr.length ∧ readBytes hdr 32 meta.length = meta ∧
      ∀ i, 32 + meta.length ≤ i → i < hdr.length → hdr[i]? = some 0) := by
  constructor
  · intro h
    unfold mappedHeader
    rw [if_pos (by simp only [maxMetaLen]; omega)]
  · intro h
    have hh := header_ok meta h
    have hb := mappedHeader_length_bounds meta _ hh
    obtain ⟨f1, f2, f3, f4, f5⟩ := mappedHeader_fields meta _ hh
    exact ⟨_, hh, f1, hb.1, hb.2.1, hb.2.2, f2, f3, f4, f5⟩

theorem mappedHeader_layout_witness :
    mappedHeader (List.replicate 513 0) = .error .metadataTooLarge ∧
    ∃ hdr, mappedHeader [77] = .ok hdr ∧
      hdr.length = round 64 (32 + [(77 : UInt8)].length) 32 ∧ hdr.length % 32 = 0 ∧
      32 ≤ hdr.length ∧ hdr.length ≤ 544 ∧
      readBytes hdr 0 28 = asBytes "# telemetry/counter file v1\n" ∧
      word hdr 28 = hdr.length ∧ readBytes hdr 32 [(77 : UInt8)].length = [77] ∧
      ∀ i, 32 + [(77 : UInt8)].length ≤ i → i < hdr.length → hdr[i]? = some 0 :=
  ⟨(mappedHeader_layout (List.replicate 513 0)).1 (by rw [List.length_replicate]; omega),
   (mappedHeader_layout [77]).2 (by decide)⟩


/-! ## Where the limit word and the bucket heads are -/

theorem created_fields (meta : Bytes) (m : mappedFile) (h : created meta = .ok m) :
    m.hdrLen = round 64 (32 + meta.length) 32 ∧ 32 + meta.length ≤ m.hdrLen ∧
      m.hdrLen ≤ 544 ∧ m.data.length = 4096 ∧ word m.data 28 = m.hdrLen ∧
      readBytes m.data 32 meta.length = meta ∧
      (∀ o, m.hdrLen ≤ o → word m.data o = 0) := by
  obtain ⟨hm, rfl⟩ := created_ok meta m h
  have hh := header_ok meta hm
  have hb := mappedHeader_length_bounds _ _ hh
  obtain ⟨f1, _, f3, f4, _⟩ := mappedHeader_fields meta _ hh
  have hl := mappedHeader_length _ _ hh
  have hru := roundUp_ge (32 + meta.length) 32 (by norm_num)
  have e1 : (freshFile meta).hdrLen = (header meta).length := rfl
  have e2 : (freshFile meta).data =
      header meta ++ List.replicate (4096 - (header meta).length) 0 := rfl
  refine ⟨by rw [e1, f1], by rw [e1]; omega, by rw [e1]; omega, freshFile_length meta hm,
    ?_, ?_, fun o ho => freshFile_word_zero meta hm o ho⟩
  · rw [e1, e2]
    unfold word
    rw [readBytes_append_left _ _ _ _ (by omega)]
    exact f3
  · rw [e2, readBytes_append_left _ _ _ _ (by omega)]
    exact f4

/-- C17 (counterexample): in the file created for the one-byte metadata `M`
the header has 64 bytes; `newCounter("a")` reads the limit at offset 64 and
leaves the new limit 2176 there and the offset 2144 of the new record in the
bucket head at `64 + 4 + 4 * hash("a")`, while the word at offset 28 holds 64
before and after the call, the word at `28 + 4 + 4 * hash("a")` stays 0, and
the metadata byte is at offset 32, before the bucket heads. -/
theorem limit_word_not_at_28 :
    created [77] = .ok (freshFile [77]) ∧ u32 ((freshFile [77]).hdrLen + limitOff) = 64 ∧
      word (freshFile [77]).data 28 = 64 ∧ limitOf (freshFile [77]) = 0 ∧
      readBytes (freshFile [77]).data 32 1 = [77] ∧
      ∃ r, newCounter 4 (freshFile [77]) [97] = .ret r ∧ r.v = some 2144 ∧
        word r.file 28 = 64 ∧ word r.file 64 = 2176 ∧ limitOf (r.current (freshFile [77])) = 2176 ∧
        word r.file (64 + 4 + 4 * hash [97]) = 2144 ∧
        word r.file (28 + 4 + 4 * hash [97]) = 0 := by
  refine ⟨created_eq [77] (by decide), by decide, by decide!, by decide!, by decide!, ?_⟩
  refine ⟨finish false ⟨[77], 64, allocData (freshFile [77]).data 64 2144 2176 [97]
    (64 + 4 + 4 * hash [97]) 0⟩ (some 2144) none, by decide!, rfl, by decide!, by decide!,
    by decide!, by decide!, by decide!⟩


/-! ## Find-or-create -/

theorem newCounter_of_found (fuel : Nat) (m : mappedFile) (name : Bytes) (lr : LookupResult)
    (v : Nat) (hn : name.length ≤ 256) (hl : lookup fuel m name = .ret lr)
    (hok : lr.ok = true) (hv : lr.v = some v) :
    newCounter fuel m name = .ret ⟨some v, none, none, m.data⟩ := by
  unfold newCounter
  rw [if_neg (by simp only [maxNameLen]; omega), hl]
  simp only
  unfold afterLookup
  rw [if_neg (by rw [hok]; simp), if_pos (by rw [hv]; rfl), hv]
  rfl

/-- C19: if `lookup(name)` returns a slot `v` with `ok = true` for a name of at
most 256 bytes, then `newCounter(name)` returns `v` with no replacement
mapping and no error, and the file has the same bytes as before. Hence on a
freshly created file two calls in a row with the same non-empty name return
the same slot, and the second call leaves the file as the first call left
it. -/
theorem newCounter_idempotent :
    (∀ (fuel : Nat) (m : mappedFile) (name : Bytes) (lr : LookupResult) (v : Nat),
      name.length ≤ 256 → lookup fuel m name = .ret lr → lr.ok = true → lr.v = some v →
      newCounter fuel m name = .ret ⟨some v, none, none, m.data⟩) ∧
    (∀ (fuel : Nat) (meta : Bytes) (m : mappedFile) (name : Bytes),
      created meta = .ok m → 1 ≤ name.length → name.length ≤ 256 → 2 ≤ fuel →
      ∃ r v, newCounter fuel m name = .ret r ∧ r.v = some v ∧ r.err = none ∧
        newCounter fuel (r.current m) name =
          .ret ⟨some v, none, none, (r.current m).data⟩) := by
  refine ⟨newCounter_of_found, ?_⟩
  intro fuel meta m name hc hn1 hn hfuel
  obtain ⟨hm, rfl⟩ := created_ok meta m hc
  have hinv := Inv_freshFile meta hm
  have hH := hinv.winv.hdrLen_bounds
  rcases resolve_spec _ [] name fuel hinv hn1 hn with ⟨_, hd⟩ | ⟨r, v, recs1, h1, h2, h3, h4, _, _, h7, _, _, _, _, h12⟩
  · simp only [List.length_nil] at hd
    omega
  · refine ⟨r, v, h1, h2, h3, ?_⟩
    rcases newCounter_found _ recs1 name fuel v h4 hn h7 with ⟨_, hd⟩ | hr
    · simp only [List.length_nil] at h12
      omega
    · exact hr

theorem newCounter_idempotent_witness :
    newCounter 4 ((firstResult [97] 2144).current (freshFile [])) [97] =
        .ret ⟨some 2112, none, none, ((firstResult [97] 2144).current (freshFile [])).data⟩ ∧
      ∃ r v, newCounter 4 (freshFile []) [97] = .ret r ∧ r.v = some v ∧ r.err = none ∧
        newCounter 4 (r.current (freshFile [])) [97] =
          .ret ⟨some v, none, none, (r.current (freshFile [])).data⟩ :=
  ⟨newCounter_idempotent.1 4 ((firstResult [97] 2144).current (freshFile [])) [97]
      ⟨some 2112, 32 + 4 + 4 * hash [97], 2112, true⟩ 2112 (by decide) (by decide!) rfl rfl,
    newCounter_idempotent.2 4 [] (freshFile []) [97] (created_eq [] (by decide)) (by decide)
      (by decide) (by decide)⟩

/-! ## No panic -/

theorem slice_ret (d : Bytes) (a b : Nat) (h1 : a ≤ b) (h2 : b ≤ d.length) :
    ∃ x, slice d a b = .ret x := by
  unfold slice
  split
  · exact ⟨_, rfl⟩
  · omega

theorem entryAt_ne_panic (m : mappedFile) (off : Nat) (hmax : m.data.length < 2 ^ 32) :
    entryAt m off ≠ .panic := by
  unfold entryAt
  split
  · simp
  · rename_i h1
    simp only
    split
    · simp
    · rename_i h2
      have ho : u32 (off + 16) = off + 16 := u32_of_lt _ (by omega)
      have hl : u32 (off + 16 + (load32 m (u32 (off + 8)) &&& 0x00ffffff)) =
          off + 16 + (load32 m (u32 (off + 8)) &&& 0x00ffffff) := u32_of_lt _ (by omega)
      obtain ⟨x, hx⟩ := slice_ret m.data (off + 16)
        (off + 16 + (load32 m (u32 (off + 8)) &&& 0x00ffffff)) (by omega) (by omega)
      rw [ho, hl, hx]
      simp

theorem lookupLoop_ne_panic (m : mappedFile) (name : Bytes) (ho hd : Nat)
    (hmax : m.data.length < 2 ^ 32) :
    ∀ fuel off, lookupLoop m name ho hd fuel off ≠ .panic := by
  intro fuel
  induction fuel with
  | zero =>
    intro off
    unfold lookupLoop
    split <;> simp
  | succ fuel ih =>
    intro off
    unfold lookupLoop
    split
    · simp
    · have := entryAt_ne_panic m off hmax
      cases he : entryAt m off with
      | panic => exact absurd he this
      | diverge => simp
      | ret o =>
        cases o with
        | none => simp
        | some e =>
          simp only
          split
          · simp
          · exact ih _

theorem lookup_ne_panic (m : mappedFile) (name : Bytes) (fuel : Nat)
    (hmax : m.data.length < 2 ^ 32) : lookup fuel m name ≠ .panic := by
  unfold lookup
  exact lookupLoop_ne_panic m name _ _ hmax fuel _

theorem newCounter_ne_panic (m : mappedFile) (name : Bytes) (fuel : Nat) (hw : WInv m) :
    newCounter fuel m name ≠ .panic := by
  obtain ⟨hH1, hH2, hH3⟩ := hw.hdrLen_bounds
  have hmax := hw.len_max
  unfold newCounter
  split
  · simp
  · rename_i hlen
    have hn : name.length ≤ 256 := by simp only [maxNameLen] at hlen; omega
    cases hlk : lookup fuel m name with
    | panic => exact absurd hlk (lookup_ne_panic m name fuel (by omega))
    | diverge => simp
    | ret lr =>
      simp only
      unfold afterLookup
      by_cases hok : lr.ok = false
      · rw [if_pos hok]
        cases fuel with
        | zero => simp
        | succ fuel =>
          simp only [limit_read m hH3]
          rw [if_pos hw.limit_le]
          simp
      · rw [if_neg hok]
        have hok1 : lr.ok = true := by simpa using hok
        split
        · simp
        · obtain ⟨f1, f2⟩ := lookup_fields m name fuel lr hH3 hlk hok1
          have hh := hash_lt name
          cases fuel with
          | zero => rw [reserveLoop]; simp
          | succ fuel =>
            rcases reserve_cases m name lr.headOff lr.head (fuel + 1) (word m.data m.hdrLen)
                (place m (word m.data m.hdrLen) name).1 (place m (word m.data m.hdrLen) name).2
                hw hn (by omega) (by omega) f2.symm (by omega) rfl rfl (fuel + 1) false
              with ⟨hd, _⟩ | hr
            · rw [hd]; simp
            · rw [hr]; simp

/-- C20: with `hdrLen = len(mappedHeader(meta))` and a mapping of at least
4096 bytes, the offset of the allocation limit and the offset of every bucket
head satisfy `offset + 4 ≤ hdrLen + 4 + 4 * 512 ≤ 2596 ≤ 4096`, so they lie
inside the mapping: `cas32` at these offsets does not panic and `load32` reads
the stored word. On a file that satisfies the file invariant `newCounter`
never panics. -/
theorem bad_cas32_unreachable (meta hdr : Bytes) (m : mappedFile) (name : Bytes)
    (hh : mappedHeader meta = .ok hdr) (hH : m.hdrLen = hdr.length)
    (hlen : 4096 ≤ m.data.length) :
    (u32 (m.hdrLen + limitOff) = m.hdrLen ∧
      u32 (m.hdrLen + hashOff + hash name * 4) = m.hdrLen + 4 + 4 * hash name ∧
      u32 (m.hdrLen + limitOff) + 4 ≤ m.hdrLen + 4 + 4 * 512 ∧
      u32 (m.hdrLen + hashOff + hash name * 4) + 4 ≤ m.hdrLen + 4 + 4 * 512 ∧
      m.hdrLen + 4 + 4 * 512 ≤ 2596 ∧ 2596 ≤ 4096 ∧
      u32 (m.hdrLen + limitOff) + 4 ≤ m.data.length ∧
      u32 (m.hdrLen + hashOff + hash name * 4) + 4 ≤ m.data.length) ∧
    (∀ old new, cas32 m (u32 (m.hdrLen + limitOff)) old new ≠ .panic ∧
      cas32 m (u32 (m.hdrLen + hashOff + hash name * 4)) old new ≠ .panic) ∧
    (load32 m (u32 (m.hdrLen + limitOff)) = word m.data m.hdrLen ∧
      load32 m (u32 (m.hdrLen + hashOff + hash name * 4)) =
        word m.data (m.hdrLen + 4 + 4 * hash name)) ∧
    (∀ fuel, WInv m → newCounter fuel m name ≠ .panic) := by
  have hb := mappedHeader_length_bounds meta hdr hh
  have hH3 : m.hdrLen ≤ 544 := by omega
  have e1 : u32 (m.hdrLen + limitOff) = m.hdrLen := by
    simp only [limitOff, Nat.add_zero]
    exact u32_of_lt _ (by omega)
  have e2 := headOff_eq m name hH3
  have hh := hash_lt name
  have hc : ∀ off old new, off + 4 ≤ m.data.length → cas32 m off old new ≠ .panic := by
    intro off old new ho
    unfold cas32
    rw [if_neg (by omega)]
    split <;> simp
  refine ⟨⟨e1, e2, by omega, by omega, by omega, by omega, by omega, by omega⟩,
    fun old new => ⟨hc _ _ _ (by omega), hc _ _ _ (by omega)⟩,
    ⟨by rw [load32_eq_word, e1], by rw [load32_eq_word, e2]⟩,
    fun fuel hw => newCounter_ne_panic m name fuel hw⟩

theorem bad_cas32_unreachable_witness :
    (u32 ((freshFile []).hdrLen + limitOff) = (freshFile []).hdrLen ∧
      u32 ((freshFile []).hdrLen + hashOff + hash [97] * 4) =
        (freshFile []).hdrLen + 4 + 4 * hash [97] ∧
      u32 ((freshFile []).hdrLen + limitOff) + 4 ≤ (freshFile []).hdrLen + 4 + 4 * 512 ∧
      u32 ((freshFile []).hdrLen + hashOff + hash [97] * 4) + 4 ≤
        (freshFile []).hdrLen + 4 + 4 * 512 ∧
      (freshFile []).hdrLen + 4 + 4 * 512 ≤ 2596 ∧ 2596 ≤ 4096 ∧
      u32 ((freshFile []).hdrLen + limitOff) + 4 ≤ (freshFile []).data.length ∧
      u32 ((freshFile []).hdrLen + hashOff + hash [97] * 4) + 4 ≤ (freshFile []).data.length) ∧
    (∀ old new, cas32 (freshFile []) (u32 ((freshFile []).hdrLen + limitOff)) old new ≠ .panic ∧
      cas32 (freshFile []) (u32 ((freshFile []).hdrLen + hashOff + hash [97] * 4)) old new ≠
        .panic) ∧
    (load32 (freshFile []) (u32 ((freshFile []).hdrLen + limitOff)) =
        word (freshFile []).data (freshFile []).hdrLen ∧
      load32 (freshFile []) (u32 ((freshFile []).hdrLen + hashOff + hash [97] * 4)) =
        word (freshFile []).data ((freshFile []).hdrLen + 4 + 4 * hash [97])) ∧
    (∀ fuel, WInv (freshFile []) → newCounter fuel (freshFile []) [97] ≠ .panic) :=
  bad_cas32_unreachable [] (header []) (freshFile []) [97] (header_ok [] (by decide)) rfl
    (by rw [freshFile_length [] (by decide)])


/-! ## `lookup` against its reference -/

theorem entryAt_spec (m : mappedFile) (off : Nat) (hH : m.hdrLen ≤ 544)
    (hlen : m.data.length < 2 ^ 32) :
    entryAt m off = if entryFails m off then .ret none
      else .ret (some ⟨storedName m.data off, storedNext m.data off, off⟩) := by
  have hu4 : u32 (m.hdrLen + hashOff) = m.hdrLen + 4 := u32_of_lt _ (by simp only [hashOff]; omega)
  unfold entryAt entryFails
  rw [hu4]
  by_cases h1 : off < m.hdrLen + 4 ∨ off + 16 > m.data.length
  · rw [if_pos h1, if_pos (by omega)]
  · rw [if_neg h1]
    have hu8 : u32 (off + 8) = off + 8 := u32_of_lt _ (by omega)
    have hu12 : u32 (off + 12) = off + 12 := u32_of_lt _ (by omega)
    have hu16 : u32 (off + 16) = off + 16 := u32_of_lt _ (by omega)
    simp only [load32_eq_word, hu8, hu12, hu16]
    have hs : word m.data (off + 8) &&& 0x00ffffff = storedLen m.data off := rfl
    rw [hs]
    by_cases h2 : storedLen m.data off = 0 ∨ off + 16 + storedLen m.data off > m.data.length
    · rw [if_pos h2, if_pos (by omega)]
    · rw [if_neg h2, if_neg (by omega), u32_of_lt _ (by omega)]
      unfold slice
      rw [if_pos ⟨by omega, by omega⟩]
      have e : off + 16 + storedLen m.data off - (off + 16) = storedLen m.data off := by omega
      simp only [e]
      rfl

theorem lookupLoop_ref (m : mappedFile) (name : Bytes) (ho hd : Nat) (hH : m.hdrLen ≤ 544)
    (hlen : m.data.length < 2 ^ 32) :
    ∀ n off, lookupLoop m name ho hd n off =
      match refWalk m name n off with
      | some r => .ret (refResult ho hd r)
      | none => .diverge := by
  intro n
  induction n with
  | zero =>
    intro off
    unfold lookupLoop refWalk
    split <;> rfl
  | succ n ih =>
    intro off
    unfold lookupLoop refWalk
    by_cases h0 : off = 0
    · rw [if_pos h0, if_pos h0]; rfl
    · rw [if_neg h0, if_neg h0, entryAt_spec m off hH hlen]
      by_cases hf : entryFails m off
      · rw [if_pos hf, if_pos hf]; rfl
      · rw [if_neg hf, if_neg hf]
        simp only
        by_cases hn : storedName m.data off = name
        · rw [if_pos hn, if_pos hn]; rfl
        · rw [if_neg hn, if_neg hn]
          exact ih _

theorem refWalk_mono (m : mappedFile) (name : Bytes) :
    ∀ n off r, refWalk m name n off = some r → ∀ k, refWalk m name (n + k) off = some r := by
  intro n
  induction n with
  | zero =>
    intro off r h k
    unfold refWalk at h
    by_cases h0 : off = 0
    · rw [if_pos h0] at h
      cases k with
      | zero => unfold refWalk; rw [if_pos h0]; exact h
      | succ k => rw [Nat.zero_add]; unfold refWalk; rw [if_pos h0]; exact h
    · rw [if_neg h0] at h; cases h
  | succ n ih =>
    intro off r h k
    have e : n + 1 + k = (n + k) + 1 := by omega
    rw [e]
    unfold refWalk at h ⊢
    by_cases h0 : off = 0
    · rw [if_pos h0] at h ⊢; exact h
    · rw [if_neg h0] at h ⊢
      by_cases hf : entryFails m off
      · rw [if_pos hf] at h ⊢; exact h
      · rw [if_neg hf] at h ⊢
        by_cases hn : storedName m.data off = name
        · rw [if_pos hn] at h ⊢; exact h
        · rw [if_neg hn] at h ⊢
          exact ih _ _ h k

theorem lookup_eq_ref (m : mappedFile) (name : Bytes) (n : Nat) (hH : m.hdrLen ≤ 544)
    (hlen : m.data.length < 2 ^ 32) :
    lookup n m name =
      match refLookup n m name with
      | some r => .ret r
      | none => .diverge := by
  unfold lookup refLookup
  simp only [headOff_eq m name hH, load32_eq_word]
  rw [lookupLoop_ref m name _ _ hH hlen]
  cases refWalk m name n (word m.data (m.hdrLen + 4 + 4 * hash name)) <;> rfl


/-- C18 (as amended): for a mapping of fewer than `2 ^ 32` bytes (with
`hdrLen` at most 544, as `openMapped` sets it) whose chain for the bucket of
`name` ends within `n` steps, `lookup(name)` returns what the reference walk
gives: the slot of the first entry whose stored name equals `name`, with
`headOff = hdrLen + 4 + 4 * hash(name)`, the head and `true`; no slot with
`headOff`, the head and `true` if offset 0 is reached first; and
`(no slot, 0, 0, false)` exactly when the walk first reaches an offset at which
`entryAt` fails. -/
theorem lookup_reference (m : mappedFile) (name : Bytes) (n fuel : Nat) (r : LookupResult)
    (hH : m.hdrLen ≤ 544) (hlen : m.data.length < 2 ^ 32)
    (hfin : refLookup n m name = some r) (hfuel : n ≤ fuel) :
    lookup fuel m name = .ret r ∧
      (r.ok = false ↔
        refWalk m name n (word m.data (m.hdrLen + 4 + 4 * hash name)) = some .invalid) := by
  constructor
  · rw [lookup_eq_ref m name fuel hH hlen]
    have e : fuel = n + (fuel - n) := by omega
    unfold refLookup at hfin ⊢
    cases hw : refWalk m name n (word m.data (m.hdrLen + 4 + 4 * hash name)) with
    | none => rw [hw] at hfin; cases hfin
    | some w =>
      rw [hw] at hfin
      rw [e, refWalk_mono m name n _ w hw]
      exact congrArg _ (Option.some.inj hfin)
  · unfold refLookup at hfin
    cases hw : refWalk m name n (word m.data (m.hdrLen + 4 + 4 * hash name)) with
    | none => rw [hw] at hfin; cases hfin
    | some w =>
      rw [hw] at hfin
      cases Option.some.inj hfin
      cases w <;> simp [refResult]

theorem lookup_reference_witness :
    lookup 4 ((firstResult [97] 2144).current (freshFile [])) [97] =
        .ret ⟨some 2112, 32 + 4 + 4 * hash [97], 2112, true⟩ ∧
      ((LookupResult.mk (some 2112) (32 + 4 + 4 * hash [97]) 2112 true).ok = false ↔
        refWalk ((firstResult [97] 2144).current (freshFile [])) [97] 1
          (word ((firstResult [97] 2144).current (freshFile [])).data
            (((firstResult [97] 2144).current (freshFile [])).hdrLen + 4 + 4 * hash [97])) =
          some .invalid) :=
  lookup_reference ((firstResult [97] 2144).current (freshFile [])) [97] 1 4
    ⟨some 2112, 32 + 4 + 4 * hash [97], 2112, true⟩ (by decide) (by decide!) (by decide!)
    (by decide)


theorem hash_a : hash [97] = 288 := by decide

theorem hugeMapping_facts :
    hugeMapping.hdrLen = 32 ∧ hugeMapping.data.length = 2 ^ 32 + 9 ∧
      word hugeMapping.data (32 + 4 + 4 * hash [97]) = 2 ^ 32 - 8 ∧
      word hugeMapping.data 0 = 1702109219 ∧ word hugeMapping.data (2 ^ 32) = 1 ∧
      readBytes hugeMapping.data (2 ^ 32 + 8) 1 = [97] := by
  have hl : (header []).length = 32 := by decide
  have hbase : (header [] ++ List.replicate (2 ^ 32 + 9 - 32) (0 : UInt8)).length = 2 ^ 32 + 9 := by
    rw [List.length_append, List.length_replicate, hl]
    norm_num
  have hd : hugeMapping.data =
      writeBytes (writeBytes (writeBytes (header [] ++ List.replicate (2 ^ 32 + 9 - 32) 0)
        (32 + 4 + 4 * hash [97]) (toLE 4 (2 ^ 32 - 8))) (2 ^ 32) (toLE 4 1)) (2 ^ 32 + 8) [97] := by
    unfold hugeMapping
    simp only
  have h1 : ([97] : Bytes).length = 1 := rfl
  refine ⟨rfl, ?_, ?_, ?_, ?_, ?_⟩
  · rw [hd, length_writeBytes, length_writeBytes, length_writeBytes, hbase]
  · rw [hd, hash_a, word_write_disjoint _ _ _ _ (Or.inl (by norm_num)),
      word_write_disjoint _ _ _ _ (Or.inl (by norm_num)),
      word_write_same _ _ _ (by rw [hbase]; norm_num) (by norm_num)]
  · rw [hd, hash_a, word_write_disjoint _ _ _ _ (Or.inl (by norm_num)),
      word_write_disjoint _ _ _ _ (Or.inl (by norm_num)),
      word_write_disjoint _ _ _ _ (Or.inl (by norm_num))]
    unfold word
    rw [readBytes_append_left _ _ _ _ (by rw [hl]; norm_num)]
    decide
  · rw [hd, word_write_disjoint _ _ _ _ (Or.inl (by norm_num)),
      word_write_same _ _ _ (by rw [length_writeBytes, hbase]; norm_num) (by norm_num)]
  · rw [hd]
    have := readBytes_writeBytes_same
      (writeBytes (writeBytes (header [] ++ List.replicate (2 ^ 32 + 9 - 32) 0)
        (32 + 4 + 4 * hash [97]) (toLE 4 (2 ^ 32 - 8))) (2 ^ 32) (toLE 4 1)) (2 ^ 32 + 8) [97]
      (by rw [length_writeBytes, length_writeBytes, hbase, h1])
    rw [h1] at this
    exact this

theorem lookup_wraps (m : mappedFile) (name : Bytes) (hH : m.hdrLen = 32)
    (hlen : m.data.length = 2 ^ 32 + 9)
    (hhead : word m.data (32 + 4 + 4 * hash name) = 2 ^ 32 - 8)
    (h0 : word m.data 0 = 1702109219) (fuel : Nat) :
    lookup (fuel + 1) m name = .ret ⟨none, 0, 0, false⟩ := by
  have hne : (2 ^ 32 - 8 : Nat) ≠ 0 := by norm_num
  have hu4 : u32 (m.hdrLen + hashOff) = 36 := by rw [hH]; rfl
  have hu8 : u32 (2 ^ 32 - 8 + 8) = 0 := by decide
  have hand : (1702109219 : Nat) &&& 0x00ffffff = 7610403 := by decide
  unfold lookup
  simp only [headOff_eq m name (by omega), load32_eq_word]
  rw [hH, hhead]
  unfold lookupLoop
  rw [if_neg hne]
  have he : entryAt m (2 ^ 32 - 8) = .ret none := by
    unfold entryAt
    rw [hu4, hlen, if_neg (by norm_num)]
    simp only [load32_eq_word, hu8, h0, hand]
    rw [if_pos (Or.inr (by norm_num))]
  rw [he]

theorem refLookup_no_wrap (m : mappedFile) (name : Bytes) (hH : m.hdrLen = 32)
    (hlen : m.data.length = 2 ^ 32 + 9)
    (hhead : word m.data (32 + 4 + 4 * hash name) = 2 ^ 32 - 8)
    (hl : word m.data (2 ^ 32) = 1) (hname : readBytes m.data (2 ^ 32 + 8) 1 = name) :
    ¬ entryFails m (2 ^ 32 - 8) ∧ storedName m.data (2 ^ 32 - 8) = name ∧
      refLookup 1 m name =
        some ⟨some (2 ^ 32 - 8), 32 + 4 + 4 * hash name, 2 ^ 32 - 8, true⟩ := by
  have hne : (2 ^ 32 - 8 : Nat) ≠ 0 := by norm_num
  have e8 : (2 ^ 32 - 8 + 8 : Nat) = 2 ^ 32 := by norm_num
  have e16 : (2 ^ 32 - 8 + 16 : Nat) = 2 ^ 32 + 8 := by norm_num
  have hs : storedLen m.data (2 ^ 32 - 8) = 1 := by
    unfold storedLen
    rw [e8, hl]
    decide
  have hnf : ¬ entryFails m (2 ^ 32 - 8) := by
    unfold entryFails
    rw [hs, hH, hlen]
    norm_num
  have hn : storedName m.data (2 ^ 32 - 8) = name := by
    unfold storedName
    rw [hs, e16, hname]
  refine ⟨hnf, hn, ?_⟩
  unfold refLookup
  rw [hH, hhead]
  unfold refWalk
  rw [if_neg hne, if_neg hnf, if_pos hn]
  rfl

theorem mappedFile_eta (m : mappedFile) : mappedFile.mk m.meta m.hdrLen m.data = m := by
  cases m
  rfl

theorem hugeMapping_opens : openMapped hugeMapping.data [] = (.ok hugeMapping, hugeMapping.data) := by
  obtain ⟨_, f2, _, _, _, _⟩ := hugeMapping_facts
  have hl : (header []).length = 32 := by decide
  have hd : hugeMapping.data =
      writeBytes (writeBytes (writeBytes (header [] ++ List.replicate (2 ^ 32 + 9 - 32) 0)
        (32 + 4 + 4 * hash [97]) (toLE 4 (2 ^ 32 - 8))) (2 ^ 32) (toLE 4 1)) (2 ^ 32 + 8) [97] := by
    unfold hugeMapping
    simp only
  have h3 : readBytes hugeMapping.data 0 32 = header [] := by
    rw [hd, readBytes_writeBytes_disjoint _ _ _ _ _ (Or.inl (by norm_num)),
      readBytes_writeBytes_disjoint _ _ _ _ _ (Or.inl (by norm_num)),
      readBytes_writeBytes_disjoint _ _ _ _ _ (Or.inl (by omega)),
      readBytes_append_left _ _ _ _ (by rw [hl]), readBytes_zero]
    exact List.take_of_length_le (by rw [hl])
  have hp : (header []).isPrefixOf hugeMapping.data = true := by
    rw [isPrefixOf_eq_true_iff, ← h3, readBytes_zero]
    exact List.take_prefix _ _
  rw [openMapped_existing [] (header []) _ (header_ok [] (by decide)) (by rw [f2]; norm_num),
    if_pos hp, hl]
  have e1 : u32 32 = 32 := by decide
  have hm : hugeMapping.meta = [] := rfl
  have hh : hugeMapping.hdrLen = 32 := rfl
  have he : mappedFile.mk [] (u32 32) hugeMapping.data = hugeMapping := by
    rw [e1]
    calc mappedFile.mk [] 32 hugeMapping.data
        = mappedFile.mk hugeMapping.meta hugeMapping.hdrLen hugeMapping.data := by rw [hm, hh]
      _ = hugeMapping := mappedFile_eta hugeMapping
  rw [he]

/-- C18 (counterexample): a mapping of `2 ^ 32 + 9` bytes that `openMapped`
accepts, whose bucket head for the name `a` points at offset `2 ^ 32 - 8`, where
a record with stored name length 1 and stored name `a` lies within the
mapping. The reference walk finds the record, but `lookup` reads the name
length at offset `(2 ^ 32 - 8 + 8) mod 2 ^ 32 = 0` and returns
`(no slot, 0, 0, false)`. -/
theorem lookup_differs_beyond_4GiB :
    openMapped hugeMapping.data [] = (.ok hugeMapping, hugeMapping.data) ∧
      hugeMapping.hdrLen = 32 ∧ hugeMapping.data.length = 2 ^ 32 + 9 ∧
      ¬ entryFails hugeMapping (2 ^ 32 - 8) ∧
      storedName hugeMapping.data (2 ^ 32 - 8) = [97] ∧
      refLookup 1 hugeMapping [97] =
        some ⟨some (2 ^ 32 - 8), 32 + 4 + 4 * hash [97], 2 ^ 32 - 8, true⟩ ∧
      ∀ fuel, lookup (fuel + 1) hugeMapping [97] = .ret ⟨none, 0, 0, false⟩ := by
  obtain ⟨f1, f2, f3, f4, f5, f6⟩ := hugeMapping_facts
  obtain ⟨g1, g2, g3⟩ := refLookup_no_wrap hugeMapping [97] f1 f2 f3 f5 f6
  exact ⟨hugeMapping_opens, f1, f2, g1, g2, g3,
    fun fuel => lookup_wraps hugeMapping [97] f1 f2 f3 f4 fuel⟩


/-! ## Extending the file -/

theorem ReachableNE.inv {meta : Bytes} {m : mappedFile} (h : ReachableNE meta m) :
    ∃ recs, Inv m recs := by
  induction h with
  | fresh m hc =>
    obtain ⟨hm, rfl⟩ := created_ok meta m hc
    exact ⟨[], Inv_freshFile meta hm⟩
  | call m fuel name r _ hn1 hret ih =>
    obtain ⟨recs, hinv⟩ := ih
    by_cases hn : name.length ≤ 256
    · rcases resolve_spec m recs name fuel hinv hn1 hn with ⟨hd, _⟩ | ⟨r1, v, recs1, h1, _, _, h4, _⟩
      · rw [hd] at hret; cases hret
      · rw [h1] at hret
        cases hret
        exact ⟨recs1, h4⟩
    · unfold newCounter at hret
      rw [if_pos (by simp only [maxNameLen]; omega)] at hret
      cases hret
      rw [current_unchanged]
      exact ⟨recs, hinv⟩
  | add m fuel name lr v delta _ hl hv ih =>
    obtain ⟨recs, hinv⟩ := ih
    rcases lookup_inv m recs name fuel hinv with h1 | ⟨hd, _⟩
    · rw [h1] at hl
      cases hl
      exact ⟨_, Inv_add m recs name v delta hinv hv⟩
    · rw [hd] at hl; cases hl

theorem extend_preserves (m : mappedFile) (recs : List Rec) (name : Bytes) (fuel s e : Nat)
    (hinv : Inv m recs) (hn1 : 1 ≤ name.length) (hn : name.length ≤ 256)
    (hnew : findOff recs name = none)
    (hp : place m (word m.data m.hdrLen) name = (s, e)) (hgrow : m.data.length < e)
    (hmax : e ≤ 2 ^ 32 - 4096) (hfuel : recs.length + 2 ≤ fuel) :
    ∃ m1, newCounter fuel m name = .ret ⟨some s, some m1, none, m1.data⟩ ∧
      m1.data.length = round 32 e 4096 ∧ m1.data.length % 4096 = 0 ∧ e ≤ m1.data.length ∧
      m1.data.length < e + 4096 ∧ m1.meta = m.meta ∧ m1.hdrLen = m.hdrLen ∧
      ∀ n v, findOff recs n = some v → ∃ ho hd,
        lookup fuel m1 n = .ret ⟨some v, ho, hd, true⟩ ∧ load64 m1.data v = load64 m.data v := by
  rcases newCounter_new m recs name fuel s e hinv hn1 hn hnew hp with ⟨_, hd⟩ | ⟨hret, _, hinv1⟩
  · omega
  · refine ⟨⟨m.meta, m.hdrLen, allocData (grown m.data e) m.hdrLen s e name
      (m.hdrLen + 4 + 4 * hash name) (chainHead recs (hash name))⟩, ?_, ?_, ?_, ?_, ?_, rfl, rfl,
      ?_⟩
    · rw [hret]
      unfold finish
      rw [if_pos ⟨by simpa using hgrow, rfl⟩]
    · simp only [length_allocData, length_grown]
      rw [if_neg (by omega), round32_page e (by omega)]
    · simp only [length_allocData, length_grown]
      rw [if_neg (by omega)]
      exact roundUp_mod e 4096
    · simp only [length_allocData, length_grown]
      rw [if_neg (by omega)]
      exact roundUp_ge e 4096 (by norm_num)
    · simp only [length_allocData, length_grown]
      rw [if_neg (by omega)]
      exact roundUp_lt e 4096 (by norm_num)
    · intro n v hf
      have hne : name ≠ n := by
        intro h
        rw [h, hf] at hnew
        cases hnew
      have hf1 : findOff (⟨s, name, 0⟩ :: recs) n = some v := by
        rw [findOff_cons, if_neg hne]
        exact hf
      have hv1 : findVal (⟨s, name, 0⟩ :: recs) n = findVal recs n := by
        rw [findVal_cons, if_neg hne]
      rcases lookup_inv _ _ n fuel hinv1 with h1 | ⟨_, hd⟩
      · rw [hf1] at h1
        refine ⟨_, _, h1, ?_⟩
        · rw [load64_of_find _ _ n v hinv1.recs_ok hf1, hv1,
            load64_of_find _ _ n v hinv.recs_ok hf]
      · simp only [List.length_cons] at hd
        omega


theorem incAll_reachable (meta : Bytes) (fuel : Nat) :
    ∀ (l : List (Bytes × Nat)) (m m1 : mappedFile), ReachableNE meta m →
      (∀ p ∈ l, 1 ≤ p.1.length) → incAll fuel m l = .ret m1 → ReachableNE meta m1 := by
  intro l
  induction l with
  | nil =>
    intro m m1 hr _ h
    unfold incAll at h
    cases h
    exact hr
  | cons p rest ih =>
    intro m m1 hr hl h
    obtain ⟨name, delta⟩ := p
    have hn1 : 1 ≤ name.length := hl (name, delta) (List.mem_cons_self _ _)
    have hl1 : ∀ p ∈ rest, 1 ≤ p.1.length := fun p hp => hl p (List.mem_cons_of_mem _ hp)
    unfold incAll at h
    cases hnc : newCounter fuel m name with
    | panic => rw [hnc] at h; cases h
    | diverge => rw [hnc] at h; cases h
    | ret r =>
      rw [hnc] at h
      simp only at h
      have hr1 := ReachableNE.call m fuel name r hr hn1 hnc
      cases hv : r.v with
      | none =>
        rw [hv] at h
        exact ih _ _ hr1 hl1 h
      | some v =>
        rw [hv] at h
        simp only at h
        refine ih _ _ ?_ hl1 h
        obtain ⟨recs, hinv⟩ := hr.inv
        have hn : name.length ≤ 256 := by
          by_contra hc
          unfold newCounter at hnc
          rw [if_pos (by simp only [maxNameLen]; omega)] at hnc
          cases hnc
          cases hv
        rcases resolve_spec m recs name fuel hinv hn1 hn with ⟨hd, _⟩ |
            ⟨r1, v1, recs1, h1, h2, _, h4, _, _, h7, _⟩
        · rw [hd] at hnc; cases hnc
        · rw [h1] at hnc
          cases hnc
          rw [hv] at h2
          cases h2
          rcases lookup_inv _ recs1 name recs1.length h4 with hk | ⟨_, hd⟩
          · exact ReachableNE.add _ recs1.length name _ v delta hr1 hk h7
          · omega

/-- C15 (as amended): on a file reachable by sequential `newCounter` calls
with non-empty names (and additions to resolved counters), for a new name of 1
to 256 bytes whose placed record ends at `e`, beyond the file length and at
most at `2 ^ 32 - 4096`, `newCounter` returns the slot together with a
replacement mapping of exactly `round(e, 4096)` bytes (8192 when the file had
4096 bytes and `e ≤ 8192`), and for every name that `lookup` resolved before
the call, `lookup` in the replacement mapping returns the same offset with
`ok = true`, and the slot holds the same 64-bit value. -/
theorem extension_preserves_counters (meta : Bytes) (m : mappedFile) (name : Bytes)
    (fuel s e : Nat) (lr : LookupResult) (hr : ReachableNE meta m)
    (hn1 : 1 ≤ name.length) (hn : name.length ≤ 256)
    (hl : lookup fuel m name = .ret lr) (hnew : lr.v = none)
    (hp : place m (limitOf m) name = (s, e)) (hgrow : m.data.length < e)
    (hmax : e ≤ 2 ^ 32 - 4096) (hfuel : m.data.length / 32 + 2 ≤ fuel) :
    ∃ m1, newCounter fuel m name = .ret ⟨some s, some m1, none, m1.data⟩ ∧
      m1.data.length = round 32 e 4096 ∧
      (m.data.length = 4096 → e ≤ 8192 → m1.data.length = 8192) ∧
      m1.meta = m.meta ∧ m1.hdrLen = m.hdrLen ∧
      ∀ n lrn v, lookup fuel m n = .ret lrn → lrn.v = some v → ∃ ho hd,
        lookup fuel m1 n = .ret ⟨some v, ho, hd, true⟩ ∧ load64 m1.data v = load64 m.data v := by
  obtain ⟨recs, hinv⟩ := hr.inv
  obtain ⟨_, _, hH3⟩ := hinv.winv.hdrLen_bounds
  rw [limitOf_eq m hH3] at hp
  have h1 := hinv.limit_lb
  have h2 := hinv.winv.limit_le
  have hfo : ∀ n lrn, lookup fuel m n = .ret lrn → lrn.v = findOff recs n := by
    intro n lrn hk
    rcases lookup_inv m recs n fuel hinv with h | ⟨hd, _⟩
    · rw [h] at hk
      cases hk
      rfl
    · rw [hd] at hk; cases hk
  have hnone : findOff recs name = none := by rw [← hfo name lr hl, hnew]
  obtain ⟨m1, f1, f2, f3, f4, f5, f6, f7, f8⟩ :=
    extend_preserves m recs name fuel s e hinv hn1 hn hnone hp hgrow hmax (by omega)
  refine ⟨m1, f1, f2, fun _ _ => by omega, f6, f7, ?_⟩
  intro n lrn v hk hv
  exact f8 n v (by rw [← hfo n lrn hk, hv])


/-! ## A file whose first page is full -/

theorem place_hdrLen (m m1 : mappedFile) (h : m.hdrLen = m1.hdrLen) (L : Nat) (name : Bytes) :
    place m L name = place m1 L name := by
  unfold place
  rw [h]

theorem filled_hdr (k : Nat) : (filled k).meta = [] ∧ (filled k).hdrLen = 32 := by
  cases k with
  | zero => exact ⟨rfl, rfl⟩
  | succ k => exact ⟨rfl, rfl⟩

theorem hash_eq_fnv (name : Bytes) :
    hash name = (fnv1a name ^^^ (fnv1a name >>> 16)) % 512 := by
  unfold hash fnv1a
  rw [hashLoop_eq_foldl name name.length 0 _ (by omega)]
  simp

theorem wideName_hash : ∀ j, j < 8 →
    hash (wideName j) = [356, 18, 132, 460, 189, 102, 466, 95].getD j 0 := by
  have h : ∀ j, j < 8 → (fnv1a (wideName j) ^^^ (fnv1a (wideName j) >>> 16)) % 512 =
      [356, 18, 132, 460, 189, 102, 466, 95].getD j 0 := by decide!
  intro j hj
  rw [hash_eq_fnv]
  exact h j hj

theorem chainHead_filled (b : Nat) :
    ∀ k, (∀ i, i < k → hash (wideName (i + 1)) ≠ b) → chainHead (filledRecs k) b = 0 := by
  intro k
  induction k with
  | zero => intro _; rfl
  | succ k ih =>
    intro h
    show chainHead (_ :: filledRecs k) b = 0
    rw [chainHead_cons, if_neg (h k (by omega))]
    exact ih (fun i hi => h i (by omega))

theorem filled_facts (k : Nat) (hk : k < 7) :
    findOff (filledRecs k) (wideName (k + 1)) = none ∧
      chainHead (filledRecs k) (hash (wideName (k + 1))) = 0 ∧
      (k < 6 → place ⟨[], 32, []⟩ (if k = 0 then 0 else 2112 + 288 * k) (wideName (k + 1)) =
        (2112 + 288 * k, 2400 + 288 * k)) := by
  have h1 : ∀ k, k < 7 → findOff (filledRecs k) (wideName (k + 1)) = none := by decide!
  have h3 : ∀ k, k < 6 →
      place ⟨[], 32, []⟩ (if k = 0 then 0 else 2112 + 288 * k) (wideName (k + 1)) =
        (2112 + 288 * k, 2400 + 288 * k) := by decide!
  have h2 : ∀ k, k < 7 → ∀ i, i < k →
      [356, 18, 132, 460, 189, 102, 466, 95].getD (i + 1) 0 ≠
        [356, 18, 132, 460, 189, 102, 466, 95].getD (k + 1) 0 := by decide
  refine ⟨h1 k hk, chainHead_filled _ k ?_, h3 k⟩
  intro i hi
  rw [wideName_hash (i + 1) (by omega), wideName_hash (k + 1) (by omega)]
  exact h2 k hk i hi

theorem filled_inv (k : Nat) (hk : k ≤ 6) :
    Inv (filled k) (filledRecs k) ∧ (filled k).data.length = 4096 ∧
      word (filled k).data 32 = (if k = 0 then 0 else 2112 + 288 * k) ∧
      ReachableNE [] (filled k) ∧ (filledRecs k).length = k := by
  induction k with
  | zero =>
    exact ⟨Inv_freshFile [] (by decide), freshFile_length [] (by decide),
      freshFile_word_zero [] (by decide) 32 (by decide),
      ReachableNE.fresh _ (created_eq [] (by decide)), rfl⟩
  | succ k ih =>
    obtain ⟨hinv, hlen, hw, hr, hrl⟩ := ih (by omega)
    obtain ⟨hm, hH⟩ := filled_hdr k
    obtain ⟨f1, f2, f3⟩ := filled_facts k (by omega)
    have hp : place (filled k) (word (filled k).data (filled k).hdrLen) (wideName (k + 1)) =
        (2112 + 288 * k, 2400 + 288 * k) := by
      rw [hH, hw, place_hdrLen (filled k) ⟨[], 32, []⟩ hH]
      exact f3 (by omega)
    have hn : (wideName (k + 1)).length = 256 := List.length_replicate _ _
    have hg : grown (filled k).data (2400 + 288 * k) = (filled k).data := by
      unfold grown
      rw [if_pos (by omega)]
    rcases newCounter_new (filled k) (filledRecs k) (wideName (k + 1)) (k + 2) _ _ hinv
        (by omega) (by omega) f1 hp with ⟨_, hd⟩ | ⟨hret, _, hinv1⟩
    · omega
    · rw [hm, hH, hg, f2] at hret hinv1
      have hcur : (finish (decide ((filled k).data.length < 2400 + 288 * k))
          ⟨[], 32, allocData (filled k).data 32 (2112 + 288 * k) (2400 + 288 * k)
            (wideName (k + 1)) (32 + 4 + 4 * hash (wideName (k + 1))) 0⟩
          (some (2112 + 288 * k)) none).current (filled k) = filled (k + 1) := by
        have := finish_current (filled k) (decide ((filled k).data.length < 2400 + 288 * k))
          (allocData (filled k).data 32 (2112 + 288 * k) (2400 + 288 * k)
            (wideName (k + 1)) (32 + 4 + 4 * hash (wideName (k + 1))) 0) (some (2112 + 288 * k))
        rw [hm, hH] at this
        exact this
      have hr1 := ReachableNE.call (filled k) (k + 2) (wideName (k + 1)) _ hr (by omega) hret
      rw [hcur] at hr1
      have hh := hash_lt (wideName (k + 1))
      refine ⟨hinv1, ?_, ?_, hr1, ?_⟩
      · show (allocData _ _ _ _ _ _ _).length = 4096
        rw [length_allocData, hlen]
      · show word (allocData _ _ _ _ _ _ _) 32 = _
        rw [allocData_limit _ _ _ _ _ _ _ (by omega) (by omega) (by omega) (by omega),
          if_neg (by omega)]
        omega
      · show (filledRecs k).length + 1 = k + 1
        rw [hrl]


theorem filled_six :
    ReachableNE [] (filled 6) ∧
      lookup 130 (filled 6) (wideName 7) =
        .ret ⟨none, 32 + 4 + 4 * hash (wideName 7), 0, true⟩ ∧
      place (filled 6) (limitOf (filled 6)) (wideName 7) = (4096, 4384) ∧
      (filled 6).data.length = 4096 := by
  obtain ⟨hinv, hlen, hw, hr, hrl⟩ := filled_inv 6 (by decide)
  obtain ⟨f1, f2, _⟩ := filled_facts 6 (by decide)
  obtain ⟨_, hH⟩ := filled_hdr 6
  refine ⟨hr, ?_, ?_, hlen⟩
  · rcases lookup_inv (filled 6) (filledRecs 6) (wideName 7) 130 hinv with h | ⟨_, hd⟩
    · rw [h, f1, f2, hH]
    · rw [hrl] at hd
      omega
  · rw [limitOf_eq _ (by rw [hH]; decide), hH, hw, place_hdrLen (filled 6) ⟨[], 32, []⟩ hH]
    decide!

theorem extension_preserves_counters_witness :
    ∃ m1, newCounter 130 (filled 6) (wideName 7) = .ret ⟨some 4096, some m1, none, m1.data⟩ ∧
      m1.data.length = round 32 4384 4096 ∧
      ((filled 6).data.length = 4096 → 4384 ≤ 8192 → m1.data.length = 8192) ∧
      m1.meta = (filled 6).meta ∧ m1.hdrLen = (filled 6).hdrLen ∧
      ∀ n lrn v, lookup 130 (filled 6) n = .ret lrn → lrn.v = some v → ∃ ho hd,
        lookup 130 m1 n = .ret ⟨some v, ho, hd, true⟩ ∧
          load64 m1.data v = load64 (filled 6).data v :=
  extension_preserves_counters [] (filled 6) (wideName 7) 130 4096 4384
    ⟨none, 32 + 4 + 4 * hash (wideName 7), 0, true⟩ filled_six.1
    (by rw [wideName, List.length_replicate]; omega)
    (by rw [wideName, List.length_replicate]) filled_six.2.1 rfl filled_six.2.2.1
    (by rw [filled_six.2.2.2]; omega) (by norm_num) (by rw [filled_six.2.2.2])

/-! ## Where extension does not happen -/

theorem newCounter_wrap_diverges (m : mappedFile) (recs : List Rec) (name : Bytes) (s e : Nat)
    (hinv : Inv m recs) (hn1 : 1 ≤ name.length) (hn : name.length ≤ 256)
    (hnew : findOff recs name = none) (hp : place m (word m.data m.hdrLen) name = (s, e))
    (hbig : 2 ^ 32 - 4096 < e) (fuel : Nat) : newCounter fuel m name = .diverge := by
  rcases newCounter_new m recs name fuel s e hinv hn1 hn hnew hp with ⟨hd, _⟩ | ⟨_, hle, _⟩
  · exact hd
  · omega

theorem fill_step (k : Nat)
    (h : ∃ m recs, ReachableNE [] m ∧ Inv m recs ∧ ∀ i, i < k → findOff recs (toLE 4 i) ≠ none) :
    (∃ m recs name s e, ReachableNE [] m ∧ Inv m recs ∧ 1 ≤ name.length ∧ name.length ≤ 256 ∧
        findOff recs name = none ∧ place m (word m.data m.hdrLen) name = (s, e) ∧
        2 ^ 32 - 4096 < e) ∨
      ∃ m recs, ReachableNE [] m ∧ Inv m recs ∧ ∀ i, i < k + 1 → findOff recs (toLE 4 i) ≠ none := by
  obtain ⟨m, recs, hr, hinv, hall⟩ := h
  have hlen : (toLE 4 k).length = 4 := length_toLE 4 k
  by_cases hf : findOff recs (toLE 4 k) = none
  · obtain ⟨s, e, hp⟩ : ∃ s e, place m (word m.data m.hdrLen) (toLE 4 k) = (s, e) := ⟨_, _, rfl⟩
    by_cases hbig : 2 ^ 32 - 4096 < e
    · exact Or.inl ⟨m, recs, toLE 4 k, s, e, hr, hinv, by omega, by omega, hf, hp, hbig⟩
    · right
      rcases newCounter_new m recs (toLE 4 k) (recs.length + 2) s e hinv (by omega) (by omega)
          hf hp with ⟨_, hd⟩ | ⟨hret, _, hinv1⟩
      · omega
      · have hr1 := ReachableNE.call m _ _ _ hr (by omega) hret
        rw [finish_current] at hr1
        refine ⟨_, _, hr1, hinv1, ?_⟩
        intro i hi
        rw [findOff_cons]
        by_cases he : toLE 4 k = toLE 4 i
        · rw [if_pos he]; simp
        · rw [if_neg he]
          have : i ≠ k := by
            intro h
            rw [h] at he
            exact he rfl
          exact hall i (by omega)
  · right
    refine ⟨m, recs, hr, hinv, ?_⟩
    intro i hi
    by_cases he : i = k
    · rw [he]; exact hf
    · exact hall i (by omega)

theorem fill_all (k : Nat) :
    (∃ m recs name s e, ReachableNE [] m ∧ Inv m recs ∧ 1 ≤ name.length ∧ name.length ≤ 256 ∧
        findOff recs name = none ∧ place m (word m.data m.hdrLen) name = (s, e) ∧
        2 ^ 32 - 4096 < e) ∨
      ∃ m recs, ReachableNE [] m ∧ Inv m recs ∧ ∀ i, i < k → findOff recs (toLE 4 i) ≠ none := by
  induction k with
  | zero =>
    exact Or.inr ⟨freshFile [], [], ReachableNE.fresh _ (created_eq [] (by decide)),
      Inv_freshFile [] (by decide), fun i hi => absurd hi (by omega)⟩
  | succ k ih =>
    rcases ih with h | h
    · exact Or.inl h
    · exact fill_step k h

theorem wrap_exists :
    ∃ m recs name s e, ReachableNE [] m ∧ Inv m recs ∧ 1 ≤ name.length ∧ name.length ≤ 256 ∧
      findOff recs name = none ∧ place m (word m.data m.hdrLen) name = (s, e) ∧
      2 ^ 32 - 4096 < e := by
  rcases fill_all (2 ^ 27) with h | ⟨m, recs, _, hinv, hall⟩
  · exact h
  · exfalso
    have hsub : (manyNames (2 ^ 27)).map (fun p => p.1) ⊆ recs.map (fun r => r.name) := by
      intro n hn
      obtain ⟨p, hp, rfl⟩ := List.mem_map.1 hn
      unfold manyNames at hp
      obtain ⟨i, hi, rfl⟩ := List.mem_map.1 hp
      cases hfo : findOff recs (toLE 4 i) with
      | none => exact absurd hfo (hall i (List.mem_range.1 hi))
      | some v =>
        obtain ⟨r, hr, hname, _⟩ := findOff_mem recs _ v hfo
        exact List.mem_map.2 ⟨r, hr, hname⟩
    have hlen := ((manyNames_nodup (2 ^ 27) (by norm_num)).subperm hsub).length_le
    rw [List.length_map, List.length_map, length_manyNames] at hlen
    have h1 := hinv.limit_lb
    have h2 := hinv.winv.limit_le
    have h3 := hinv.winv.len_max
    have e : (2 : Nat) ^ 27 = 134217728 := by norm_num
    omega

/-- C15 (counterexample): on the file freshly created for the empty metadata
(4096 bytes) the record of a new name of 2000 bytes would be placed at
`[4096, 6112)`, beyond the file length, but `newCounter` returns the error
for a name that is too long and the file is not extended. Moreover some file
reachable by sequential calls has a new name of 1 to 256 bytes whose placed
record ends beyond `2 ^ 32 - 4096`, and there `newCounter` never returns. -/
theorem extension_not_for_every_name :
    (created [] = .ok (freshFile []) ∧ (freshFile []).data.length = 4096 ∧
      (∀ fuel, lookup fuel (freshFile []) (List.replicate 2000 97) =
        .ret ⟨none, 32 + 4 + 4 * hash (List.replicate 2000 97), 0, true⟩) ∧
      place (freshFile []) (limitOf (freshFile [])) (List.replicate 2000 97) = (4096, 6112) ∧
      ∀ fuel, newCounter fuel (freshFile []) (List.replicate 2000 97) =
        .ret ⟨none, none, some .nameTooLong, (freshFile []).data⟩) ∧
    (∃ m name s e, ReachableNE [] m ∧ 1 ≤ name.length ∧ name.length ≤ 256 ∧
      (∀ fuel lr, lookup fuel m name = .ret lr → lr.v = none) ∧
      place m (limitOf m) name = (s, e) ∧ m.data.length < e ∧
      ∀ fuel, newCounter fuel m name = .diverge) := by
  constructor
  · refine ⟨created_eq [] (by decide), freshFile_length [] (by decide), ?_, ?_, ?_⟩
    · intro fuel
      rcases lookup_inv (freshFile []) [] (List.replicate 2000 97) fuel
          (Inv_freshFile [] (by decide)) with h | ⟨_, hd⟩
      · have e1 : findOff [] (List.replicate 2000 (97 : UInt8)) = none := rfl
        have e2 : chainHead [] (hash (List.replicate 2000 (97 : UInt8))) = 0 := rfl
        have e3 : (freshFile []).hdrLen = 32 := rfl
        rw [e1, e2, e3] at h
        exact h
      · simp only [List.length_nil] at hd
        omega
    · have hw : word (freshFile []).data (freshFile []).hdrLen = 0 :=
        freshFile_word_zero [] (by decide) _ (le_refl _)
      rw [limitOf_eq _ (by decide), hw, place_hdrLen (freshFile []) ⟨[], 32, []⟩ rfl]
      decide!
    · intro fuel
      unfold newCounter
      rw [if_pos (by rw [List.length_replicate]; decide)]
  · obtain ⟨m, recs, name, s, e, hr, hinv, hn1, hn, hnew, hp, hbig⟩ := wrap_exists
    obtain ⟨_, _, hH3⟩ := hinv.winv.hdrLen_bounds
    refine ⟨m, name, s, e, hr, hn1, hn, ?_, by rw [limitOf_eq m hH3]; exact hp, ?_,
      newCounter_wrap_diverges m recs name s e hinv hn1 hn hnew hp hbig⟩
    · intro fuel lr hl
      rcases lookup_inv m recs name fuel hinv with h | ⟨hd, _⟩
      · rw [h] at hl
        cases hl
        exact hnew
      · rw [hd] at hl; cases hl
    · have := hinv.winv.len_max
      omega


/-! ## Two processes creating one name -/

theorem beforeWrite_then_link (fuel : Nat) (m : mappedFile) (name : Bytes) (q : Pending)
    (hfuel : 1 ≤ fuel) (h : beforeWrite fuel m name = some q) :
    newCounter fuel m name = writeAndLink fuel q.m false name q.start q.headOff q.head := by
  unfold beforeWrite at h
  unfold newCounter
  by_cases hlen : name.length > maxNameLen
  · rw [if_pos hlen] at h; cases h
  · rw [if_neg hlen] at h ⊢
    cases hl : lookup fuel m name with
    | panic => rw [hl] at h; cases h
    | diverge => rw [hl] at h; cases h
    | ret r =>
      rw [hl] at h
      simp only at h ⊢
      by_cases hc : r.ok = false ∨ r.v.isSome = true
      · rw [if_pos hc] at h; cases h
      · rw [if_neg hc] at h
        have hok : ¬ r.ok = false := fun hh => hc (Or.inl hh)
        have hv : ¬ r.v.isSome = true := fun hh => hc (Or.inr hh)
        unfold afterLookup
        rw [if_neg hok, if_neg hv]
        by_cases hgt : (place m (load32 m (u32 (m.hdrLen + limitOff))) name).2 > m.data.length
        · simp only [hgt, if_true] at h
          cases h
        · simp only [hgt, if_false] at h
          cases fuel with
          | zero => omega
          | succ fuel =>
            rw [reserveLoop]
            simp only [hgt, if_false]
            cases hcas : cas32 m (u32 (m.hdrLen + limitOff))
                (load32 m (u32 (m.hdrLen + limitOff)))
                (place m (load32 m (u32 (m.hdrLen + limitOff))) name).2 with
            | panic => rw [hcas] at h; cases h
            | diverge => rw [hcas] at h; cases h
            | ret p =>
              obtain ⟨b, m1⟩ := p
              rw [hcas] at h
              cases b with
              | false => simp only at h; cases h
              | true =>
                simp only at h ⊢
                cases h
                rfl

theorem beforeWrite_fit (m : mappedFile) (name : Bytes) (fuel ho hd s e : Nat)
    (hH : m.hdrLen ≤ 544) (hlen : 4096 ≤ m.data.length) (hn : name.length ≤ 256)
    (hl : lookup fuel m name = .ret ⟨none, ho, hd, true⟩)
    (hp : place m (word m.data m.hdrLen) name = (s, e)) (he : e ≤ m.data.length) :
    beforeWrite fuel m name = some ⟨store32 m m.hdrLen e, s, ho, hd⟩ := by
  unfold beforeWrite
  rw [if_neg (by simp only [maxNameLen]; omega), hl]
  simp only [limit_read m hH, hp]
  rw [if_neg (by simp), if_neg (by omega), cas32_limit m _ e hH hlen rfl]

theorem Inv_bump_limit (m : mappedFile) (recs : List Rec) (e : Nat) (hinv : Inv m recs)
    (hle : word m.data m.hdrLen ≤ e) (hlo : m.hdrLen + 2052 ≤ e) (he : e ≤ m.data.length)
    (hub : e ≤ m.hdrLen + 2052 + 607 * recs.length) :
    Inv (store32 m m.hdrLen e) recs := by
  obtain ⟨hH1, hH2, hH3⟩ := hinv.winv.hdrLen_bounds
  obtain ⟨hdr, h1, h2, h3⟩ := hinv.winv.hdr
  have hmin := hinv.winv.len_min
  have hmax := hinv.winv.len_max
  have hd : (store32 m m.hdrLen e).data = writeBytes m.data m.hdrLen (toLE 4 e) := rfl
  have hm : (store32 m m.hdrLen e).meta = m.meta := rfl
  have hh : (store32 m m.hdrLen e).hdrLen = m.hdrLen := rfl
  have hw : word (writeBytes m.data m.hdrLen (toLE 4 e)) m.hdrLen = e :=
    word_write_same _ _ _ (by omega) (by omega)
  have hg : ∀ i, i < m.hdrLen ∨ m.hdrLen + 4 ≤ i →
      (writeBytes m.data m.hdrLen (toLE 4 e))[i]? = m.data[i]? := by
    intro i hi
    exact getElem?_writeBytes_outside _ _ _ _ (by rw [length_toLE]; omega)
  refine ⟨⟨⟨hdr, by rw [hm]; exact h1, by rw [hh]; exact h2, ?_⟩, ?_, ?_, ?_, ?_, ?_⟩,
    ?_, ?_, ?_, ?_, ?_, ?_, ?_⟩
  · rw [hd, readBytes_writeBytes_disjoint _ _ _ _ _ (by omega), h3]
  · rw [hd, length_writeBytes]; exact hmin
  · rw [hd, length_writeBytes]; exact hinv.winv.len_page
  · rw [hd, length_writeBytes]; exact hmax
  · rw [hd, hh, hw, length_writeBytes]; exact he
  · rw [hd, hh, hw]; right; exact hlo
  · intro r hr
    rw [hd, hh, hw]
    have := hinv.below r hr
    omega
  · intro b hb
    rw [hd, hh, word_write_disjoint _ _ _ _ (by rw [length_toLE]; omega)]
    exact hinv.heads b hb
  · rw [hd]
    refine RecsOK_congr m.data _ recs (fun r hr i hi1 _ => ?_) hinv.recs_ok
    obtain ⟨_, _, hlo1⟩ := Sorted_mem _ recs hinv.sorted r hr
    exact hg i (by omega)
  · rw [hh]; exact hinv.sorted
  · intro i hi1 hi2
    rw [hd, hh, hw] at hi1
    rw [hd, length_writeBytes] at hi2
    rw [hd, hg i (by omega)]
    exact hinv.zeros i (by simp only [ge_iff_le, max_le_iff] at hi1 ⊢; omega) hi2
  · rw [hd, hh, hw]; exact hub
  · rw [hd, hh, hw]
    have := hinv.limit_lb
    omega


theorem readBytes_take (d : Bytes) (k o n : Nat) (h : o + n ≤ k) :
    readBytes (d.take k) o n = readBytes d o n := by
  apply readBytes_congr
  intro i _ hi
  rw [List.getElem?_take_of_lt (by omega)]

theorem readBytes_append_drop (x d : Bytes) (k o n : Nat) (hx : x.length = k) (ho : k ≤ o) :
    readBytes (x ++ d.drop k) o n = readBytes d o n := by
  apply readBytes_congr
  intro i hi _
  rw [List.getElem?_append_right (by omega), List.getElem?_drop, hx]
  congr 1
  omega

/-- The mapping of `Q` when it resumes, and what its `writeAndLink` does:
the record is written, the compare-and-swap on the bucket head fails because
`P` has linked a record at `s2`, and the duplicate check fails at `s2`, which
lies beyond the mapping. -/
theorem writeAndLink_stale (v : mappedFile) (name : Bytes) (s e s2 ho hd F : Nat)
    (hH : v.hdrLen ≤ 544) (hho : v.hdrLen + 4 ≤ ho) (hho2 : ho + 4 ≤ v.hdrLen + 2052)
    (hs : v.hdrLen + 2052 ≤ s) (hse : s + 16 + name.length ≤ e) (he : e ≤ v.data.length)
    (hmax : v.data.length < 2 ^ 32) (hhead : word v.data ho = s2) (hne : s2 ≠ hd)
    (hs2 : v.data.length ≤ s2) (hF : 1 ≤ F) :
    writeAndLink F v false name s ho hd =
      .ret ⟨none, none, some .corrupt,
        writeBytes (writeBytes (writeBytes v.data (s + 16) name) (s + 8)
          (toLE 4 (u32 name.length ||| 0xff000000))) (s + 12) (toLE 4 hd)⟩ := by
  obtain ⟨F1, rfl⟩ : ∃ F1, F = F1 + 1 := ⟨F - 1, by omega⟩
  have hu4 : u32 (v.hdrLen + hashOff) = v.hdrLen + 4 := u32_of_lt _ (by simp only [hashOff]; omega)
  have hu8 : u32 (s + 8) = s + 8 := u32_of_lt _ (by omega)
  have hu12 : u32 (s + 12) = s + 12 := u32_of_lt _ (by omega)
  have hu16 : u32 (s + 16) = s + 16 := u32_of_lt _ (by omega)
  unfold writeAndLink writeEntryAt
  simp only [hu4, hu8, hu12, hu16]
  rw [if_neg (by omega)]
  simp only [linkLoop, store32, cas32, length_writeBytes]
  rw [if_neg (by omega)]
  have hw : fromLE (readBytes (writeBytes (writeBytes (writeBytes v.data (s + 16) name) (s + 8)
      (toLE 4 (u32 name.length ||| 0xff000000))) (s + 12) (toLE 4 hd)) ho 4) = s2 := by
    show word _ ho = s2
    rw [word_write_disjoint _ _ _ _ (by rw [length_toLE]; omega),
      word_write_disjoint _ _ _ _ (by rw [length_toLE]; omega),
      word_write_disjoint _ _ _ _ (by omega), hhead]
  rw [if_neg (by rw [hw]; exact hne)]
  simp only [load32, length_writeBytes]
  rw [if_neg (by omega), hw]
  simp only [dupLoop]
  rw [if_neg hne]
  have he2 : entryAt ⟨v.meta, v.hdrLen, writeBytes (writeBytes (writeBytes v.data (s + 16) name)
      (s + 8) (toLE 4 (u32 name.length ||| 0xff000000))) (s + 12) (toLE 4 hd)⟩ s2 =
      .ret none := by
    unfold entryAt
    rw [if_pos (Or.inr (by simp only [length_writeBytes]; omega))]
  rw [he2]
  rfl


theorem race_extends (m : mappedFile) (recs : List Rec) (name : Bytes)
    (fuel s e s2 e2 : Nat) (dB dQ : Bytes)
    (hinv : Inv m recs) (hn1 : 1 ≤ name.length) (hn : name.length ≤ 256)
    (hnew : findOff recs name = none)
    (hp : place m (word m.data m.hdrLen) name = (s, e)) (he : e ≤ m.data.length)
    (hub : e ≤ m.hdrLen + 2052 + 607 * recs.length)
    (hp2 : place m e name = (s2, e2)) (hs2 : m.data.length ≤ s2) (he2 : e2 ≤ 2 ^ 32 - 4096)
    (hhd : chainHead recs (hash name) < m.data.length) (hfuel : recs.length + 2 ≤ fuel)
    (hdB : dB = allocData (grown (writeBytes m.data m.hdrLen (toLE 4 e)) e2) m.hdrLen s2 e2 name
      (m.hdrLen + 4 + 4 * hash name) (chainHead recs (hash name)))
    (hdQ : dQ = writeBytes (writeBytes (writeBytes (dB.take m.data.length) (s + 16) name) (s + 8)
      (toLE 4 (u32 name.length ||| 0xff000000))) (s + 12) (toLE 4 (chainHead recs (hash name)))) :
    lookup fuel m name =
        .ret ⟨none, m.hdrLen + 4 + 4 * hash name, chainHead recs (hash name), true⟩ ∧
      race fuel m name = some (⟨some s2, some ⟨m.meta, m.hdrLen, dB⟩, none, dB⟩,
        ⟨none, none, some .corrupt, dQ⟩, dQ ++ dB.drop m.data.length) ∧
      Inv ⟨m.meta, m.hdrLen, dB⟩ (⟨s2, name, 0⟩ :: recs) := by
  obtain ⟨hH1, hH2, hH3⟩ := hinv.winv.hdrLen_bounds
  have hmin := hinv.winv.len_min
  have hmax := hinv.winv.len_max
  have hh := hash_lt name
  obtain ⟨p1, p2, p3, p4, p5, p6, p7⟩ := place_facts_at m name _ s e hinv.winv hn rfl hp
  have hsz := recSize_ge name
  have hl : lookup fuel m name =
      .ret ⟨none, m.hdrLen + 4 + 4 * hash name, chainHead recs (hash name), true⟩ := by
    rcases lookup_inv m recs name fuel hinv with h | ⟨_, hd⟩
    · rw [h, hnew]
    · omega
  have hA := beforeWrite_fit m name fuel _ _ s e hH3 hmin hn hl hp he
  have hinvA := Inv_bump_limit m recs e hinv (by omega) (by omega) he hub
  have hdA : (store32 m m.hdrLen e).data = writeBytes m.data m.hdrLen (toLE 4 e) := rfl
  have hmA : (store32 m m.hdrLen e).meta = m.meta := rfl
  have hhA : (store32 m m.hdrLen e).hdrLen = m.hdrLen := rfl
  have hwA : word (writeBytes m.data m.hdrLen (toLE 4 e)) m.hdrLen = e :=
    word_write_same _ _ _ (by omega) (by omega)
  have hpA : place (store32 m m.hdrLen e)
      (word (store32 m m.hdrLen e).data (store32 m m.hdrLen e).hdrLen) name = (s2, e2) := by
    rw [hdA, hhA, hwA, place_hdrLen (store32 m m.hdrLen e) m hhA]
    exact hp2
  obtain ⟨q1, q2, q3, q4, q5, q6, q7⟩ :=
    place_facts_at (store32 m m.hdrLen e) name _ s2 e2 hinvA.winv hn rfl hpA
  rcases newCounter_new (store32 m m.hdrLen e) recs name fuel s2 e2 hinvA hn1 hn hnew hpA with
    ⟨_, hd⟩ | ⟨hret, _, hinvB⟩
  · omega
  · rw [hdA, hmA, hhA, ← hdB] at hret hinvB
    have hfin : finish (decide ((writeBytes m.data m.hdrLen (toLE 4 e)).length < e2))
        ⟨m.meta, m.hdrLen, dB⟩ (some s2) none =
        ⟨some s2, some ⟨m.meta, m.hdrLen, dB⟩, none, dB⟩ := by
      unfold finish
      rw [if_pos ⟨by rw [length_writeBytes]; simp only [decide_eq_true_eq]; omega, rfl⟩]
    rw [hfin] at hret
    have hlenB : dB.length = roundUp e2 4096 := by
      rw [hdB, length_allocData, length_grown, length_writeBytes, if_neg (by omega)]
    have hru := roundUp_ge e2 4096 (by norm_num)
    have hlenV : (dB.take m.data.length).length = m.data.length := by
      rw [List.length_take, hlenB]
      omega
    have hheadB : word dB (m.hdrLen + 4 + 4 * hash name) = s2 := by
      rw [hdB]
      exact allocData_head _ _ _ _ _ _ _
        (by rw [length_grown, length_writeBytes, if_neg (by omega)]; omega) (by omega)
    have hC := writeAndLink_stale ⟨m.meta, m.hdrLen, dB.take m.data.length⟩ name s e s2
      (m.hdrLen + 4 + 4 * hash name) (chainHead recs (hash name)) fuel hH3
      (by show m.hdrLen + 4 ≤ m.hdrLen + 4 + 4 * hash name; omega)
      (by show m.hdrLen + 4 + 4 * hash name + 4 ≤ m.hdrLen + 2052; omega)
      (by show m.hdrLen + 2052 ≤ s; omega) (by omega)
      (by show e ≤ (dB.take m.data.length).length; rw [hlenV]; exact he)
      (by show (dB.take m.data.length).length < 2 ^ 32; rw [hlenV]; omega)
      (by
        show word (dB.take m.data.length) _ = s2
        unfold word
        rw [readBytes_take _ _ _ _ (by omega)]
        exact hheadB)
      (by omega) (by show (dB.take m.data.length).length ≤ s2; rw [hlenV]; exact hs2) (by omega)
    refine ⟨hl, ?_, hinvB⟩
    unfold race
    rw [hA]
    simp only
    rw [hret]
    simp only [hdA, hmA, hhA, length_writeBytes]
    rw [hC, ← hdQ]


theorem race_file (meta : Bytes) (H len : Nat) (name : Bytes) (s e s2 e2 ho hd fuel : Nat)
    (G dB dQ : Bytes) (hH : H ≤ 544) (hn1 : 1 ≤ name.length) (hn : name.length ≤ 256)
    (hho : H + 4 ≤ ho) (hho2 : ho + 4 ≤ H + 2052) (hoe : ho = H + 4 + 4 * hash name)
    (hs : H + 2052 ≤ s) (hse : s + 16 + name.length ≤ e)
    (he : e ≤ len) (hs2 : len ≤ s2) (hse2 : s2 + 16 + name.length ≤ e2) (he2 : e2 ≤ G.length)
    (hG : G.length ≤ 2 ^ 32 - 4096) (hhd : hd < len) (hfuel : 1 ≤ fuel)
    (hdB : dB = allocData G H s2 e2 name ho hd)
    (hdQ : dQ = writeBytes (writeBytes (writeBytes (dB.take len) (s + 16) name) (s + 8)
      (toLE 4 (u32 name.length ||| 0xff000000))) (s + 12) (toLE 4 hd)) :
    (dQ ++ dB.drop len).length = G.length ∧
      lookup fuel ⟨meta, H, dQ ++ dB.drop len⟩ name = .ret ⟨some s2, ho, s2, true⟩ ∧
      entryAt ⟨meta, H, dQ ++ dB.drop len⟩ s = .ret (some ⟨name, hd, s⟩) ∧
      word (dQ ++ dB.drop len) (s + 12) = hd := by
  have hlenB : dB.length = G.length := by rw [hdB, length_allocData]
  have hlenQ : dQ.length = len := by
    rw [hdQ, length_writeBytes, length_writeBytes, length_writeBytes, List.length_take, hlenB]
    omega
  have hlenF : (dQ ++ dB.drop len).length = G.length := by
    rw [List.length_append, List.length_drop, hlenQ, hlenB]
    omega
  have hhi : ∀ o n, len ≤ o → readBytes (dQ ++ dB.drop len) o n = readBytes dB o n :=
    fun o n h => readBytes_append_drop dQ dB len o n hlenQ h
  have hlo : ∀ o n, o + n ≤ len → readBytes (dQ ++ dB.drop len) o n = readBytes dQ o n :=
    fun o n h => readBytes_append_left dQ _ o n (by rw [hlenQ]; exact h)
  have hhead : word (dQ ++ dB.drop len) ho = s2 := by
    unfold word
    rw [hlo _ _ (by omega)]
    show word dQ ho = s2
    rw [hdQ, word_write_disjoint _ _ _ _ (by rw [length_toLE]; omega),
      word_write_disjoint _ _ _ _ (by rw [length_toLE]; omega),
      word_write_disjoint _ _ _ _ (by omega)]
    unfold word
    rw [readBytes_take _ _ _ _ (by omega)]
    show word dB ho = s2
    rw [hdB]
    exact allocData_head _ _ _ _ _ _ _ (by omega) (by omega)
  have hrP : RecAt (dQ ++ dB.drop len) ⟨s2, name, load64 (dQ ++ dB.drop len) s2⟩ hd := by
    refine ⟨rfl, ?_, ?_, ?_⟩
    · show word _ (s2 + 8) = _
      unfold word
      rw [hhi _ _ (by omega)]
      show word dB (s2 + 8) = _
      rw [hdB]
      exact allocData_tag _ _ _ _ _ _ _ (by omega) (by omega) hn
    · show word _ (s2 + 12) = _
      unfold word
      rw [hhi _ _ (by omega)]
      show word dB (s2 + 12) = _
      rw [hdB]
      exact allocData_next _ _ _ _ _ _ _ (by omega) (by omega) (by omega)
    · show readBytes _ (s2 + 16) name.length = name
      rw [hhi _ _ (by omega), hdB]
      exact allocData_name _ _ _ _ _ _ _ (by omega) (by omega)
  have hrQ : RecAt (dQ ++ dB.drop len) ⟨s, name, load64 (dQ ++ dB.drop len) s⟩ hd := by
    have hlt : (dB.take len).length = len := by
      rw [List.length_take, hlenB]
      omega
    refine ⟨rfl, ?_, ?_, ?_⟩
    · show word _ (s + 8) = _
      unfold word
      rw [hlo _ _ (by omega)]
      show word dQ (s + 8) = _
      rw [hdQ, word_write_disjoint _ _ _ _ (by omega),
        word_write_same _ _ _ (by rw [length_writeBytes, hlt]; omega) (tag_lt _ hn)]
    · show word _ (s + 12) = _
      unfold word
      rw [hlo _ _ (by omega)]
      show word dQ (s + 12) = _
      rw [hdQ, word_write_same _ _ _ (by rw [length_writeBytes, length_writeBytes, hlt]; omega)
        (by omega)]
    · show readBytes _ (s + 16) name.length = name
      rw [hlo _ _ (by omega), hdQ,
        readBytes_writeBytes_disjoint _ _ _ _ _ (by rw [length_toLE]; omega),
        readBytes_writeBytes_disjoint _ _ _ _ _ (by rw [length_toLE]; omega),
        readBytes_writeBytes_same _ _ _ (by rw [hlt]; omega)]
  have heP := entryAt_of_RecAt ⟨meta, H, dQ ++ dB.drop len⟩ _ hd hH hrP hn1 hn
    (by show H + 4 ≤ s2; omega)
    (by show s2 + 16 + name.length ≤ (dQ ++ dB.drop len).length; rw [hlenF]; omega)
    (by show (dQ ++ dB.drop len).length ≤ 2 ^ 32 - 4096; rw [hlenF]; exact hG)
  have heQ := entryAt_of_RecAt ⟨meta, H, dQ ++ dB.drop len⟩ _ hd hH hrQ hn1 hn
    (by show H + 4 ≤ s; omega)
    (by show s + 16 + name.length ≤ (dQ ++ dB.drop len).length; rw [hlenF]; omega)
    (by show (dQ ++ dB.drop len).length ≤ 2 ^ 32 - 4096; rw [hlenF]; exact hG)
  refine ⟨hlenF, ?_, heQ, hrQ.2.2.1⟩
  obtain ⟨F1, rfl⟩ : ∃ F1, fuel = F1 + 1 := ⟨fuel - 1, by omega⟩
  unfold lookup
  simp only [headOff_eq ⟨meta, H, dQ ++ dB.drop len⟩ name hH, load32_eq_word]
  rw [← hoe, hhead]
  unfold lookupLoop
  rw [if_neg (by omega), heP]
  simp


/-- C16: a schedule of two `newCounter(name)` calls on one file in which the
claim fails. The file (4096 bytes, reachable by five sequential calls) has
room for one more record of the 256-byte name, which is not yet present. `Q`
reserves `[3552, 3840)`; `P` then runs its whole call: its record goes to
`[4096, 4384)`, the file is extended to 8192 bytes, and the record is linked at
the bucket head; `Q` then writes its record and fails to link it: the
compare-and-swap on the head fails, and the duplicate check calls `entryAt`
at 4096, beyond the 4096 bytes of the mapping of `Q`. `P` returned the slot
4096, `Q` returned the corruption error and no slot; the record of `Q` is
unreachable from the bucket head and its `next` field is 0, not `0xFFFFFFFF`. -/
theorem concurrent_creation_fails :
    ReachableNE [] (filled 5) ∧ (filled 5).data.length = 4096 ∧
      lookup 8 (filled 5) (wideName 6) = .ret ⟨none, 1900, 0, true⟩ ∧
      ∃ rP rQ file, race 8 (filled 5) (wideName 6) = some (rP, rQ, file) ∧
        rP.v = some 4096 ∧ rP.err = none ∧ rQ.v = none ∧ rQ.err = some .corrupt ∧
        file.length = 8192 ∧
        lookup 8 ⟨[], 32, file⟩ (wideName 6) = .ret ⟨some 4096, 1900, 4096, true⟩ ∧
        entryAt ⟨[], 32, file⟩ 3552 = .ret (some ⟨wideName 6, 0, 3552⟩) ∧
        word file (3552 + 12) = 0 := by
  obtain ⟨hinv, hlen, hw, hr, hrl⟩ := filled_inv 5 (by decide)
  obtain ⟨f1, f2, f3⟩ := filled_facts 5 (by decide)
  obtain ⟨hm, hH⟩ := filled_hdr 5
  have hhash : hash (wideName 6) = 466 := wideName_hash 6 (by decide)
  have hn : (wideName 6).length = 256 := List.length_replicate _ _
  have hw1 : word (filled 5).data (filled 5).hdrLen = 3552 := by rw [hH, hw]; rfl
  have hp1 : place (filled 5) (word (filled 5).data (filled 5).hdrLen) (wideName 6) =
      (3552, 3840) := by
    rw [hw1, place_hdrLen (filled 5) ⟨[], 32, []⟩ hH]
    exact f3 (by decide)
  have hp2 : place (filled 5) 3840 (wideName 6) = (4096, 4384) := by
    rw [place_hdrLen (filled 5) ⟨[], 32, []⟩ hH]
    decide!
  have hru : roundUp 4384 4096 = 8192 := by decide
  have hG : (grown (writeBytes (filled 5).data (filled 5).hdrLen (toLE 4 3840)) 4384).length =
      8192 := by
    rw [length_grown, length_writeBytes, hlen, if_neg (by omega), hru]
  obtain ⟨g1, g2, _⟩ := race_extends (filled 5) (filledRecs 5) (wideName 6) 8 3552 3840 4096 4384
    _ _ hinv (by omega) (by omega) f1 hp1 (by omega) (by rw [hH, hrl]; omega) hp2
    (by omega) (by norm_num) (by rw [f2]; omega) (by omega) rfl rfl
  obtain ⟨k1, k2, k3, k4⟩ := race_file (filled 5).meta (filled 5).hdrLen (filled 5).data.length
    (wideName 6) 3552 3840 4096 4384
    ((filled 5).hdrLen + 4 + 4 * hash (wideName 6)) (chainHead (filledRecs 5) (hash (wideName 6)))
    8 _ _ _ (by omega) (by omega) (by omega) (by omega) (by rw [hhash]; omega) rfl
    (by omega) (by omega) (by omega) (by omega) (by omega) (by rw [hG]; omega)
    (by rw [hG]; norm_num) (by rw [f2]; omega) (by omega) rfl rfl
  rw [f2, hH, hhash] at g1
  rw [f2, hH, hhash, hm] at g2
  rw [hG] at k1
  rw [f2, hH, hhash] at k1
  rw [f2, hH, hhash, hm] at k2
  rw [f2, hH, hhash, hm] at k3
  rw [f2, hH, hhash] at k4
  exact ⟨hr, hlen, g1, _, _, _, g2, rfl, rfl, rfl, rfl, k1, k2, k3, k4⟩


/-! ## Rotation -/

theorem init_current (f : file) (env : BuildEnv) (b e : Bytes) :
    (init f env b e).current = f.current := by
  unfold init
  split
  · rfl
  · split
    · rfl
    · split
      · rfl
      · simp only
        split <;> rfl

theorem ensureInit_current (f : file) (env : BuildEnv) (now : Clock) :
    (ensureInit f env now).current = f.current := by
  unfold ensureInit
  split
  · exact init_current _ _ _ _
  · rfl

theorem filename_snd (f : file) (env : BuildEnv) (now : Clock) :
    (filename f env now).2 = ensureInit f env now := by
  unfold filename
  simp only
  split <;> rfl

theorem filename_current (f : file) (env : BuildEnv) (now : Clock) :
    (filename f env now).2.current = f.current := by
  rw [filename_snd, ensureInit_current]

theorem filename_err (f : file) (env : BuildEnv) (now : Clock) :
    (filename f env now).1.err = none := by
  unfold filename
  simp only
  split <;> rfl

theorem filename_expire (f : file) (env : BuildEnv) (now : Clock)
    (h : (filename f env now).1.name = []) : (filename f env now).1.expire = none := by
  unfold filename at h ⊢
  simp only at h ⊢
  split
  · rfl
  · rename_i hne
    rw [if_neg hne] at h
    simp only at h
    have := congrArg List.length h
    simp [asBytes] at this

theorem filename_state (f : file) (env : BuildEnv) (now : Clock)
    (h : f.namePrefix ≠ [] ∨ f.err ≠ none) : (filename f env now).2 = f := by
  rw [filename_snd]
  unfold ensureInit
  rw [if_neg (by rintro ⟨h1, h2⟩; rcases h with h | h <;> contradiction)]

/-- C13: when the active mapping's file name equals the name that
`filename` computes for the current time, `rotate1` leaves the active mapping
as it is (same handle, still open and mapped), touches no file, returns the
no-op cleanup and the expiry time that `filename` computed; the other fields
of `f` are as `filename` leaves them, unchanged once `f` is initialised. -/
theorem rotate1_same_name (f : file) (env : BuildEnv) (now : Clock) (fs : Bytes → Bytes)
    (cur : Handle) (hc : f.current = some cur)
    (hname : (filename f env now).1.name = cur.name) :
    (rotate1 f env now fs).f.current = some cur ∧ (rotate1 f env now fs).fs = fs ∧
      (rotate1 f env now fs).cleanup = .nop ∧ (rotate1 f env now fs).usedAfterUnmap = false ∧
      (rotate1 f env now fs).expire = (filename f env now).1.expire ∧
      (rotate1 f env now fs).f = (filename f env now).2 ∧
      (f.namePrefix ≠ [] ∨ f.err ≠ none → (rotate1 f env now fs).f = f) := by
  have h1 := filename_current f env now
  have h2 := filename_err f env now
  have h3 := filename_expire f env now
  have h4 := filename_state f env now
  unfold rotate1
  cases hf : filename f env now with
  | mk r f1 =>
    rw [hf] at h1 h2 h3 h4 hname
    simp only at h1 h2 h3 h4 hname ⊢
    rw [if_neg (by rw [h2]; simp)]
    by_cases hn : r.name = []
    · rw [if_pos hn]
      exact ⟨by rw [h1, hc], rfl, rfl, rfl, (h3 hn).symm, rfl, h4⟩
    · rw [if_neg hn, h1, hc]
      simp only
      rw [if_pos hname]
      exact ⟨by rw [h1, hc], rfl, rfl, rfl, rfl, rfl, h4⟩

/-- C12: when the computed file name differs from that of the active mapping
`cur` and opening the new file fails, `rotate1` returns the no-op cleanup and
leaves `cur` as the active mapping, but with its file handle closed and its
mapping unmapped, and it has used `cur` after closing and unmapping it. -/
theorem rotate1_failure_closes_current (f : file) (env : BuildEnv) (now : Clock)
    (fs : Bytes → Bytes) (cur : Handle) (e : Err) (file1 : Bytes)
    (hc : f.current = some cur)
    (hnz : (filename f env now).1.name ≠ [])
    (hname : (filename f env now).1.name ≠ cur.name)
    (hfail : openMapped (fs (filename f env now).1.name) (filename f env now).2.meta =
      (.error e, file1)) :
    (rotate1 f env now fs).f.current = some ⟨cur.name, cur.m, false, false⟩ ∧
      (rotate1 f env now fs).cleanup = .nop ∧ (rotate1 f env now fs).usedAfterUnmap = true ∧
      (rotate1 f env now fs).expire = (filename f env now).1.expire := by
  have h1 := filename_current f env now
  have h2 := filename_err f env now
  unfold rotate1
  cases hf : filename f env now with
  | mk r f1 =>
    rw [hf] at h1 h2 hnz hname hfail
    simp only at h1 h2 hnz hname hfail ⊢
    rw [if_neg (by rw [h2]; simp), if_neg hnz, h1, hc]
    simp only
    rw [if_neg hname, hfail]
    exact ⟨rfl, rfl, rfl, rfl⟩


theorem rotate1_first (f f1 : file) (env : BuildEnv) (now : Clock) (fs : Bytes → Bytes)
    (r : FilenameResult) (m : mappedFile) (file1 : Bytes)
    (hf : filename f env now = (r, f1)) (hc : f.current = none) (hn : r.name ≠ [])
    (ho : openMapped (fs r.name) f1.meta = (.ok m, file1)) :
    rotate1 f env now fs =
      ⟨{ f1 with current := some ⟨r.name, m, true, true⟩ }, setFile fs r.name file1, r.expire,
        .invalidateCounters, false⟩ := by
  have h1 := filename_current f env now
  have h2 := filename_err f env now
  rw [hf] at h1 h2
  simp only at h1 h2
  unfold rotate1
  rw [hf]
  simp only
  rw [if_neg (by rw [h2]; simp), if_neg hn, h1, hc]
  simp only
  rw [ho]

theorem sampleState_first :
    rotate1 ⟨[], none, [], none⟩ sampleEnv (sampleClock 2) (fun _ => []) =
      ⟨sampleState,
        setFile (fun _ => []) (asBytes "/t/tool@v1.2.3-go1.21.3-linux-amd64-2024-01-02.v1.count")
          (freshFile (sampleMeta 2)).data,
        some 9, .invalidateCounters, false⟩ := by
  have hf : filename ⟨[], none, [], none⟩ sampleEnv (sampleClock 2) =
      (⟨asBytes "/t/tool@v1.2.3-go1.21.3-linux-amd64-2024-01-02.v1.count", some 9, none⟩,
        ⟨asBytes "/t/tool@v1.2.3-go1.21.3-linux-amd64-", none, sampleMeta 2, none⟩) := by
    decide!
  have hm : (sampleMeta 2).length ≤ 512 := by decide!
  have ho := openMapped_created (sampleMeta 2) _ (header_ok _ hm)
  rw [rotate1_first _ _ sampleEnv (sampleClock 2) (fun _ => []) _ _ _ hf rfl (by decide!) ho]
  rfl

theorem rotate1_same_name_witness :
    (rotate1 sampleState sampleEnv (sampleClock 2) sampleFiles).f.current =
        some ⟨asBytes "/t/tool@v1.2.3-go1.21.3-linux-amd64-2024-01-02.v1.count",
          freshFile (sampleMeta 2), true, true⟩ ∧
      (rotate1 sampleState sampleEnv (sampleClock 2) sampleFiles).fs = sampleFiles ∧
      (rotate1 sampleState sampleEnv (sampleClock 2) sampleFiles).cleanup = .nop ∧
      (rotate1 sampleState sampleEnv (sampleClock 2) sampleFiles).usedAfterUnmap = false ∧
      (rotate1 sampleState sampleEnv (sampleClock 2) sampleFiles).expire =
        (filename sampleState sampleEnv (sampleClock 2)).1.expire ∧
      (rotate1 sampleState sampleEnv (sampleClock 2) sampleFiles).f =
        (filename sampleState sampleEnv (sampleClock 2)).2 ∧
      (sampleState.namePrefix ≠ [] ∨ sampleState.err ≠ none →
        (rotate1 sampleState sampleEnv (sampleClock 2) sampleFiles).f = sampleState) :=
  rotate1_same_name sampleState sampleEnv (sampleClock 2) sampleFiles _ rfl (by decide!)

theorem sample_open_fails :
    openMapped (sampleFiles (filename sampleState sampleEnv (sampleClock 9)).1.name)
        (filename sampleState sampleEnv (sampleClock 9)).2.meta =
      (.error .headerMismatch, (freshFile (sampleMeta 3)).data) := by
  have hn : (filename sampleState sampleEnv (sampleClock 9)).1.name =
      asBytes "/t/tool@v1.2.3-go1.21.3-linux-amd64-2024-01-09.v1.count" := by decide!
  have hs : (filename sampleState sampleEnv (sampleClock 9)).2 = sampleState :=
    filename_state _ _ _ (Or.inl (by decide!))
  have hfile : sampleFiles (asBytes "/t/tool@v1.2.3-go1.21.3-linux-amd64-2024-01-09.v1.count") =
      (freshFile (sampleMeta 3)).data := by
    unfold sampleFiles setFile
    rw [if_pos rfl]
  have hm : (sampleMeta 2).length ≤ 512 := by decide!
  have hm3 : (sampleMeta 3).length ≤ 512 := by decide!
  have hp : (header (sampleMeta 2)).isPrefixOf (freshFile (sampleMeta 3)).data = false := by
    decide!
  rw [hn, hs, hfile]
  show openMapped _ (sampleMeta 2) = _
  rw [openMapped_existing (sampleMeta 2) _ _ (header_ok _ hm)
    (by rw [freshFile_length _ hm3]), hp]
  rfl

theorem rotate1_failure_closes_current_witness :
    (rotate1 sampleState sampleEnv (sampleClock 9) sampleFiles).f.current =
        some ⟨asBytes "/t/tool@v1.2.3-go1.21.3-linux-amd64-2024-01-02.v1.count",
          freshFile (sampleMeta 2), false, false⟩ ∧
      (rotate1 sampleState sampleEnv (sampleClock 9) sampleFiles).cleanup = .nop ∧
      (rotate1 sampleState sampleEnv (sampleClock 9) sampleFiles).usedAfterUnmap = true ∧
      (rotate1 sampleState sampleEnv (sampleClock 9) sampleFiles).expire =
        (filename sampleState sampleEnv (sampleClock 9)).1.expire :=
  rotate1_failure_closes_current sampleState sampleEnv (sampleClock 9) sampleFiles _
    .headerMismatch (freshFile (sampleMeta 3)).data rfl (by decide!) (by decide!) sample_open_fails


/-! ## Paths, digits and version strings -/

theorem clean_ne_nil (x : Bytes) : clean x ≠ [] := by
  unfold clean
  simp only
  generalize (if decide (x.head? = some 47) = true then asBytes "/" else []) ++
    (asBytes "/").intercalate
      (List.foldl (cleanStep (decide (x.head? = some 47))) [] (splitSlash x)).reverse = out
  by_cases h : out = []
  · rw [if_pos h]
    decide
  · rw [if_neg h]
    exact h

theorem join_ne_nil (dir p : Bytes) (hp : p ≠ []) : join dir p ≠ [] := by
  unfold join
  by_cases hd : dir ≠ []
  · rw [if_pos hd]
    exact clean_ne_nil _
  · rw [if_neg hd, if_pos hp]
    exact clean_ne_nil _

theorem prefixOf_ne_nil (env : BuildEnv) : prefixOf env ≠ [] := by
  unfold prefixOf
  simp [asBytes]

theorem ensureInit_initialised (f : file) (env : BuildEnv) (now : Clock) :
    (ensureInit f env now).namePrefix ≠ [] ∨ (ensureInit f env now).err ≠ none := by
  unfold ensureInit
  by_cases hf : f.namePrefix = [] ∧ f.err = none
  · rw [if_pos hf]
    unfold init
    split
    · right; simp
    · split
      · right; simp
      · split
        · right; simp
        · simp only
          split
          · right; simp
          · left
            exact join_ne_nil _ _ (prefixOf_ne_nil env)
  · rw [if_neg hf]
    by_cases h1 : f.namePrefix = []
    · right
      exact fun h2 => hf ⟨h1, h2⟩
    · left
      exact h1

/-- After `rotate1`, `f` is initialised: the name prefix is set or an error
is recorded. In particular every state with an active mapping that rotation
produces is initialised. -/
theorem rotate1_initialised (f : file) (env : BuildEnv) (now : Clock) (fs : Bytes → Bytes) :
    (rotate1 f env now fs).f.namePrefix ≠ [] ∨ (rotate1 f env now fs).f.err ≠ none := by
  have h := ensureInit_initialised f env now
  rw [← filename_snd] at h
  unfold rotate1
  cases hf : filename f env now with
  | mk r f1 =>
    rw [hf] at h
    simp only at h ⊢
    split
    · exact h
    · split
      · exact h
      · split
        · split
          · exact h
          · split <;> exact h
        · split <;> exact h

/-! ## The file name in every call -/

theorem ReachableNE.meta_eq {meta : Bytes} {m : mappedFile} (h : ReachableNE meta m) :
    m.meta = meta := by
  induction h with
  | fresh m hc =>
    obtain ⟨_, rfl⟩ := created_ok meta m hc
    rfl
  | call m fuel name r hr hn1 hret ih =>
    obtain ⟨recs, hinv⟩ := hr.inv
    by_cases hn : name.length ≤ 256
    · rcases resolve_spec m recs name fuel hinv hn1 hn with ⟨hd, _⟩ | ⟨r1, v, recs1, h1, _, _, _, h5, _⟩
      · rw [hd] at hret; cases hret
      · rw [h1] at hret
        cases hret
        rw [h5, ih]
    · unfold newCounter at hret
      rw [if_pos (by simp only [maxNameLen]; omega)] at hret
      cases hret
      rw [current_unchanged]
      exact ih
  | add m fuel name lr v delta _ hl hv ih => exact ih

theorem readBytes_of_take (d h : Bytes) (n o k : Nat) (hd : readBytes d 0 n = h)
    (hk : o + k ≤ n) : readBytes d o k = readBytes h o k := by
  rw [← hd, readBytes_zero, readBytes_take d n o k hk]

/-- The header of a file with the file invariant: its length, the word at
offset 28 and the metadata from offset 32. -/
theorem WInv.header (m : mappedFile) (hw : WInv m) :
    m.hdrLen = round 64 (32 + m.meta.length) 32 ∧ word m.data 28 = m.hdrLen ∧
      readBytes m.data 32 m.meta.length = m.meta ∧ 32 + m.meta.length ≤ m.hdrLen := by
  obtain ⟨hdr, h1, h2, h3⟩ := hw.hdr
  obtain ⟨f1, _, f3, f4, _⟩ := mappedHeader_fields m.meta hdr h1
  have hb := mappedHeader_length_bounds _ _ h1
  have hl := mappedHeader_length _ _ h1
  have hru := roundUp_ge (32 + m.meta.length) 32 (by norm_num)
  refine ⟨by rw [h2, f1], ?_, ?_, by rw [h2]; omega⟩
  · unfold word
    rw [readBytes_of_take m.data hdr hdr.length 28 4 h3 (by omega), h2]
    exact f3
  · rw [readBytes_of_take m.data hdr hdr.length 32 m.meta.length h3 (by omega)]
    exact f4

/-- An allocating call of `newCounter`: the record is placed by the limit
read from the word at `hdrLen`, the new limit is left in that word and the
offset of the record in the head word of the bucket; the header stays. -/
theorem newCounter_layout (m : mappedFile) (recs : List Rec) (name : Bytes) (fuel : Nat)
    (r : NCResult) (hinv : Inv m recs) (hn1 : 1 ≤ name.length) (hn : name.length ≤ 256)
    (hnew : findOff recs name = none) (hret : newCounter fuel m name = .ret r) :
    ∃ s e, place m (word m.data m.hdrLen) name = (s, e) ∧ r.v = some s ∧ r.err = none ∧
      word r.file m.hdrLen = e ∧ word r.file (m.hdrLen + 4 + 4 * hash name) = s ∧
      word r.file 28 = word m.data 28 ∧
      readBytes r.file 32 m.meta.length = readBytes m.data 32 m.meta.length := by
  have hw := hinv.winv
  obtain ⟨hH1, hH2, hH3⟩ := hw.hdrLen_bounds
  obtain ⟨_, _, _, hml⟩ := WInv.header m hw
  have hmin := hw.len_min
  have hh := hash_lt name
  obtain ⟨s, e, hp⟩ : ∃ s e, place m (word m.data m.hdrLen) name = (s, e) := ⟨_, _, rfl⟩
  obtain ⟨p1, p2, p3, p4, p5, p6, p7⟩ := place_facts_at m name _ s e hw hn rfl hp
  have hgl := length_grown m.data e
  have hge : m.data.length ≤ (grown m.data e).length := by
    rw [hgl]
    split
    · exact le_refl _
    · have := roundUp_ge e 4096 (by norm_num)
      omega
  rcases newCounter_new m recs name fuel s e hinv hn1 hn hnew hp with ⟨hd, _⟩ | ⟨hr, _, _⟩
  · rw [hd] at hret; cases hret
  · rw [hr] at hret
    cases hret
    refine ⟨s, e, hp, rfl, rfl, ?_, ?_, ?_, ?_⟩
    · exact allocData_limit _ _ _ _ _ _ _ (by omega) (by omega) (by omega) p5
    · exact allocData_head _ _ _ _ _ _ _ (by omega) (by omega)
    · show word (allocData _ _ _ _ _ _ _) 28 = _
      unfold word
      rw [allocData_frame _ _ _ _ _ _ _ _ _ (by omega) (by omega) (by omega),
        readBytes_grown _ _ _ _ (by omega)]
    · show readBytes (allocData _ _ _ _ _ _ _) 32 _ = _
      rw [allocData_frame _ _ _ _ _ _ _ _ _ (by omega) (by omega) (by omega),
        readBytes_grown _ _ _ _ (by omega)]

/-- C17 (as amended): in the file that `openMapped` creates for `meta`, the
header length is `hdrLen = round(32 + len(meta), 32)`; the word at offset 28
holds `hdrLen`; the metadata is stored from offset 32, before the limit word;
the allocation limit that `newCounter` reads is the word at offset `hdrLen`;
and the head of the bucket of `name` that `lookup` reads is the word at offset
`hdrLen + 4 + 4 * hash(name)`, which lies below `hdrLen + 4 + 4 * 512`.
A call of `newCounter` on the created file, for a name of 1 to 256 bytes,
returns the slot of a record at `hdrLen + 2080` and leaves the new limit (the
end of that record) in the word at `hdrLen`, the offset of the record in the
word at `hdrLen + 4 + 4 * hash(name)`, and the header as it was. The same
holds of every file reached by later calls: the header is in place, and a
call of `newCounter` that adds the name places the record by the limit it
reads from the word at `hdrLen` and leaves the new limit in that word and the
offset of the record in the head word of the bucket. -/
theorem layout_of_created (meta : Bytes) (m : mappedFile) (h : created meta = .ok m) :
    m.hdrLen = round 64 (32 + meta.length) 32 ∧ word m.data 28 = m.hdrLen ∧
      readBytes m.data 32 meta.length = meta ∧ 32 + meta.length ≤ m.hdrLen ∧
      u32 (m.hdrLen + limitOff) = m.hdrLen ∧ limitOf m = word m.data m.hdrLen ∧
      (∀ name, u32 (m.hdrLen + hashOff + hash name * 4) = m.hdrLen + 4 + 4 * hash name ∧
        hash name < 512) ∧
      (∀ fuel name lr, lookup fuel m name = .ret lr → lr.ok = true →
        lr.headOff = m.hdrLen + 4 + 4 * hash name ∧ lr.head = word m.data lr.headOff) ∧
      (∀ fuel name, 1 ≤ name.length → name.length ≤ 256 → 2 ≤ fuel →
        ∃ r, newCounter fuel m name = .ret r ∧ r.err = none ∧
          r.v = some (m.hdrLen + 2080) ∧
          word r.file m.hdrLen = m.hdrLen + 2080 + recSize name ∧
          word r.file (m.hdrLen + 4 + 4 * hash name) = m.hdrLen + 2080 ∧
          word r.file 28 = m.hdrLen ∧ readBytes r.file 32 meta.length = meta) ∧
      (∀ m1, ReachableNE meta m1 →
        m1.hdrLen = m.hdrLen ∧ word m1.data 28 = m.hdrLen ∧
          readBytes m1.data 32 meta.length = meta ∧
          limitOf m1 = word m1.data m.hdrLen ∧
          ∀ fuel name lr r, 1 ≤ name.length → name.length ≤ 256 →
            lookup fuel m1 name = .ret lr → lr.v = none → newCounter fuel m1 name = .ret r →
            ∃ s e, place m1 (word m1.data m.hdrLen) name = (s, e) ∧ r.v = some s ∧
              r.err = none ∧ word r.file m.hdrLen = e ∧
              word r.file (m.hdrLen + 4 + 4 * hash name) = s ∧
              word r.file 28 = m.hdrLen ∧ readBytes r.file 32 meta.length = meta) := by
  obtain ⟨f1, f2, f3, f4, f5, f6, f7⟩ := created_fields meta m h
  refine ⟨f1, f5, f6, f2, ?_, limitOf_eq m f3, fun name => ⟨headOff_eq m name f3, hash_lt name⟩,
    fun fuel name lr hl hok => lookup_fields m name fuel lr f3 hl hok, ?_, ?_⟩
  · simp only [limitOff, Nat.add_zero]
    exact u32_of_lt _ (by omega)
  · intro fuel name hn1 hn hf
    obtain ⟨hm, rfl⟩ := created_ok meta m h
    have hinv := Inv_freshFile meta hm
    obtain ⟨hH1, hH2, hH3⟩ := hinv.winv.hdrLen_bounds
    have hw0 : word (freshFile meta).data (freshFile meta).hdrLen = 0 := f7 _ (le_refl _)
    obtain ⟨s, e, hp⟩ : ∃ s e, place (freshFile meta) (word (freshFile meta).data
        (freshFile meta).hdrLen) name = (s, e) := ⟨_, _, rfl⟩
    obtain ⟨p1, p2, p3, p4, p5, p6, p7⟩ :=
      place_facts_at (freshFile meta) name _ s e hinv.winv hn rfl hp
    have hs : s = (freshFile meta).hdrLen + 2080 := by
      have := (place_first_start (freshFile meta) name hH1 hH3 hn).2
      rw [hw0] at hp
      rw [hp] at this
      exact this
    rcases newCounter_new (freshFile meta) [] name fuel s e hinv hn1 hn rfl hp
      with ⟨_, hcause⟩ | ⟨hr, _, _⟩
    · exfalso
      rw [hw0, if_pos rfl] at p7
      simp only [List.length_nil] at hcause
      omega
    · obtain ⟨s1, e1, hp1, k1, k2, k3, k4, k5, k6⟩ :=
        newCounter_layout (freshFile meta) [] name fuel _ hinv hn1 hn rfl hr
      rw [hp] at hp1
      cases hp1
      refine ⟨_, hr, k2, ?_, ?_, ?_, ?_, ?_⟩
      · rw [k1, hs]
      · rw [k3, p4, hs]
      · rw [k4, hs]
      · rw [k5, f5]
      · exact k6.trans f6
  · intro m1 hr
    obtain ⟨recs, hinv⟩ := hr.inv
    have hme := hr.meta_eq
    obtain ⟨g1, g2, g3, _⟩ := WInv.header m1 hinv.winv
    obtain ⟨_, _, hH3⟩ := hinv.winv.hdrLen_bounds
    rw [hme] at g1 g3
    have hH : m1.hdrLen = m.hdrLen := by rw [g1, f1]
    refine ⟨hH, by rw [g2, hH], g3, by rw [← hH]; exact limitOf_eq m1 hH3, ?_⟩
    intro fuel name lr r hn1 hn hl hv hret
    have hnew : findOff recs name = none := by
      rcases lookup_inv m1 recs name fuel hinv with h1 | ⟨hd, _⟩
      · rw [h1] at hl
        cases hl
        exact hv
      · rw [hd] at hl; cases hl
    obtain ⟨s, e, hp, k1, k2, k3, k4, k5, k6⟩ :=
      newCounter_layout m1 recs name fuel r hinv hn1 hn hnew hret
    rw [hme] at k6
    rw [hH] at hp k3 k4
    exact ⟨s, e, hp, k1, k2, k3, k4, by rw [k5, g2, hH], by rw [k6, g3]⟩

theorem layout_of_created_witness :
    (freshFile [77]).hdrLen = round 64 (32 + [(77 : UInt8)].length) 32 ∧
      word (freshFile [77]).data 28 = (freshFile [77]).hdrLen ∧
      readBytes (freshFile [77]).data 32 [(77 : UInt8)].length = [77] ∧
      32 + [(77 : UInt8)].length ≤ (freshFile [77]).hdrLen ∧
      u32 ((freshFile [77]).hdrLen + limitOff) = (freshFile [77]).hdrLen ∧
      limitOf (freshFile [77]) = word (freshFile [77]).data (freshFile [77]).hdrLen ∧
      (∀ name, u32 ((freshFile [77]).hdrLen + hashOff + hash name * 4) =
          (freshFile [77]).hdrLen + 4 + 4 * hash name ∧ hash name < 512) ∧
      (∀ fuel name lr, lookup fuel (freshFile [77]) name = .ret lr → lr.ok = true →
        lr.headOff = (freshFile [77]).hdrLen + 4 + 4 * hash name ∧
          lr.head = word (freshFile [77]).data lr.headOff) ∧
      (∀ fuel name, 1 ≤ name.length → name.length ≤ 256 → 2 ≤ fuel →
        ∃ r, newCounter fuel (freshFile [77]) name = .ret r ∧ r.err = none ∧
          r.v = some ((freshFile [77]).hdrLen + 2080) ∧
          word r.file (freshFile [77]).hdrLen = (freshFile [77]).hdrLen + 2080 + recSize name ∧
          word r.file ((freshFile [77]).hdrLen + 4 + 4 * hash name) =
            (freshFile [77]).hdrLen + 2080 ∧
          word r.file 28 = (freshFile [77]).hdrLen ∧
          readBytes r.file 32 [(77 : UInt8)].length = [77]) ∧
      (∀ m1, ReachableNE [77] m1 →
        m1.hdrLen = (freshFile [77]).hdrLen ∧ word m1.data 28 = (freshFile [77]).hdrLen ∧
          readBytes m1.data 32 [(77 : UInt8)].length = [77] ∧
          limitOf m1 = word m1.data (freshFile [77]).hdrLen ∧
          ∀ fuel name lr r, 1 ≤ name.length → name.length ≤ 256 →
            lookup fuel m1 name = .ret lr → lr.v = none → newCounter fuel m1 name = .ret r →
            ∃ s e, place m1 (word m1.data (freshFile [77]).hdrLen) name = (s, e) ∧
              r.v = some s ∧ r.err = none ∧ word r.file (freshFile [77]).hdrLen = e ∧
              word r.file ((freshFile [77]).hdrLen + 4 + 4 * hash name) = s ∧
              word r.file 28 = (freshFile [77]).hdrLen ∧
              readBytes r.file 32 [(77 : UInt8)].length = [77]) :=
  layout_of_created [77] (freshFile [77]) (created_eq [77] (by decide))


/-! ## Hash chains are acyclic -/

theorem chainHead_mem (b : Nat) : ∀ (recs : List Rec),
    chainHead recs b = 0 ∨ ∃ q ∈ recs, q.off = chainHead recs b ∧ hash q.name = b := by
  intro recs
  induction recs with
  | nil => exact Or.inl rfl
  | cons r rest ih =>
    rw [chainHead_cons]
    by_cases h : hash r.name = b
    · rw [if_pos h]
      exact Or.inr ⟨r, List.mem_cons_self _ _, rfl, h⟩
    · rw [if_neg h]
      rcases ih with h0 | ⟨q, hq, h1, h2⟩
      · exact Or.inl h0
      · exact Or.inr ⟨q, List.mem_cons_of_mem _ hq, h1, h2⟩

theorem next_of_mem (d : Bytes) (lo : Nat) : ∀ (recs : List Rec), RecsOK d recs →
    Sorted lo recs → ∀ r ∈ recs, ∃ rest : List Rec,
      (∀ q ∈ rest, q ∈ recs ∧ q.off + recSize q.name ≤ r.off) ∧
        word d (r.off + 12) = chainHead rest (hash r.name) := by
  intro recs
  induction recs with
  | nil => intro _ _ r hr; cases hr
  | cons r0 rest0 ih =>
    intro hok hs r hr
    rcases List.mem_cons.1 hr with rfl | hr1
    · exact ⟨rest0, fun q hq => ⟨List.mem_cons_of_mem _ hq, (hs.2.2.2.1 q hq).1⟩, hok.1.2.2.1⟩
    · obtain ⟨rest, h1, h2⟩ := ih hok.2 hs.2.2.2.2 r hr1
      exact ⟨rest, fun q hq => ⟨List.mem_cons_of_mem _ (h1 q hq).1, (h1 q hq).2⟩, h2⟩

theorem onChain_mem (m : mappedFile) (recs : List Rec) (hinv : Inv m recs) (b off : Nat)
    (h : OnChain m b off) : ∃ r ∈ recs, r.off = off ∧ hash r.name = b := by
  induction h with
  | head hb hne =>
    rw [hinv.heads b hb] at hne ⊢
    rcases chainHead_mem b recs with h0 | ⟨q, hq, h1, h2⟩
    · exact absurd h0 hne
    · exact ⟨q, hq, h1, h2⟩
  | next off _ hne ih =>
    obtain ⟨r, hr, h1, h2⟩ := ih
    obtain ⟨rest, g1, g2⟩ := next_of_mem m.data _ recs hinv.recs_ok hinv.sorted r hr
    have hn : storedNext m.data off = chainHead rest b := by
      unfold storedNext
      rw [← h1, g2, h2]
    rw [hn] at hne ⊢
    rcases chainHead_mem b rest with h0 | ⟨q, hq, q1, q2⟩
    · exact absurd h0 hne
    · exact ⟨q, (g1 q hq).1, q1, q2⟩

theorem onChain_facts (m : mappedFile) (recs : List Rec) (hinv : Inv m recs) (b off : Nat)
    (h : OnChain m b off) :
    m.hdrLen + 4 + 4 * 512 ≤ off ∧ off < limitOf m ∧
      (storedNext m.data off = 0 ∨ storedNext m.data off < off) := by
  obtain ⟨_, _, hH3⟩ := hinv.winv.hdrLen_bounds
  obtain ⟨r, hr, h1, h2⟩ := onChain_mem m recs hinv b off h
  obtain ⟨_, _, hlo⟩ := Sorted_mem _ recs hinv.sorted r hr
  have hb := hinv.below r hr
  have hsz := recSize_ge_32 r.name
  obtain ⟨rest, g1, g2⟩ := next_of_mem m.data _ recs hinv.recs_ok hinv.sorted r hr
  rw [limitOf_eq m hH3]
  refine ⟨by omega, by omega, ?_⟩
  have hn : storedNext m.data off = chainHead rest (hash r.name) := by
    unfold storedNext
    rw [← h1, g2]
  rw [hn]
  rcases chainHead_mem (hash r.name) rest with h0 | ⟨q, hq, q1, _⟩
  · exact Or.inl h0
  · right
    have := (g1 q hq).2
    have := recSize_ge_32 q.name
    omega

theorem mem_onChain_aux (m : mappedFile) (b : Nat) : ∀ (s : List Rec), RecsOK m.data s →
    Sorted (m.hdrLen + 2080) s → (chainHead s b = 0 ∨ OnChain m b (chainHead s b)) →
    ∀ r ∈ s, hash r.name = b → OnChain m b r.off := by
  intro s
  induction s with
  | nil => intro _ _ _ r hr; cases hr
  | cons r0 s1 ih =>
    intro hok hs hP r hr hb
    have hlo : m.hdrLen + 2080 ≤ r0.off := hs.2.2.1
    have hnx : storedNext m.data r0.off = chainHead s1 (hash r0.name) := hok.1.2.2.1
    by_cases h0 : hash r0.name = b
    · rw [chainHead_cons, if_pos h0] at hP
      have hon : OnChain m b r0.off := by
        rcases hP with hz | hon
        · omega
        · exact hon
      rcases List.mem_cons.1 hr with rfl | hr1
      · exact hon
      · refine ih hok.2 hs.2.2.2.2 ?_ r hr1 hb
        by_cases hz : chainHead s1 b = 0
        · exact Or.inl hz
        · right
          rw [h0] at hnx
          have := OnChain.next r0.off hon (by rw [hnx]; exact hz)
          rw [hnx] at this
          exact this
    · rw [chainHead_cons, if_neg h0] at hP
      rcases List.mem_cons.1 hr with rfl | hr1
      · exact absurd hb h0
      · exact ih hok.2 hs.2.2.2.2 hP r hr1 hb

theorem mem_onChain (m : mappedFile) (recs : List Rec) (hinv : Inv m recs) (r : Rec)
    (hr : r ∈ recs) : OnChain m (hash r.name) r.off := by
  refine mem_onChain_aux m (hash r.name) recs hinv.recs_ok hinv.sorted ?_ r hr rfl
  by_cases hz : chainHead recs (hash r.name) = 0
  · exact Or.inl hz
  · right
    have hh := hinv.heads _ (hash_lt r.name)
    have := OnChain.head (m := m) (hash_lt r.name) (by rw [hh]; exact hz)
    rw [hh] at this
    exact this

theorem Sorted_nodup (lo : Nat) : ∀ (recs : List Rec), Sorted lo recs →
    (recs.map (fun r => r.off)).Nodup := by
  intro recs
  induction recs with
  | nil => intro _; exact List.nodup_nil
  | cons r rest ih =>
    intro hs
    rw [List.map_cons, List.nodup_cons]
    refine ⟨?_, ih hs.2.2.2.2⟩
    intro hm
    obtain ⟨q, hq, he⟩ := List.mem_map.1 hm
    have := (hs.2.2.2.1 q hq).1
    have := recSize_ge_32 q.name
    omega

/-- C21: in every file reachable from a freshly created file by sequential
`newCounter` calls with non-empty names (and additions to resolved counters),
every record reachable from a bucket head lies at an offset of at least
`hdrLen + 4 + 4 * 512` and below the allocation limit, and its `next` field is 0
or smaller than its own offset. The offsets of the reachable records form a
list without repetition, and with at least as many steps as this list has
entries the chain walk of `lookup` returns, with `ok = true`, for every
name. -/
theorem chains_acyclic (meta : Bytes) (m : mappedFile) (hr : ReachableNE meta m) :
    (∀ b off, OnChain m b off →
      m.hdrLen + 4 + 4 * 512 ≤ off ∧ off < limitOf m ∧
        (storedNext m.data off = 0 ∨ storedNext m.data off < off)) ∧
    ∃ offs : List Nat, offs.Nodup ∧ (∀ off, off ∈ offs ↔ ∃ b, OnChain m b off) ∧
      ∀ name fuel, offs.length ≤ fuel → ∃ r, lookup fuel m name = .ret r ∧ r.ok = true := by
  obtain ⟨recs, hinv⟩ := hr.inv
  refine ⟨fun b off h => onChain_facts m recs hinv b off h,
    recs.map (fun r => r.off), Sorted_nodup _ recs hinv.sorted, ?_, ?_⟩
  · intro off
    constructor
    · intro h
      obtain ⟨r, hr1, he⟩ := List.mem_map.1 h
      exact ⟨hash r.name, by rw [← he]; exact mem_onChain m recs hinv r hr1⟩
    · rintro ⟨b, h⟩
      obtain ⟨r, hr1, he, _⟩ := onChain_mem m recs hinv b off h
      exact List.mem_map.2 ⟨r, hr1, he⟩
  · intro name fuel hf
    rw [List.length_map] at hf
    rcases lookup_inv m recs name fuel hinv with h | ⟨_, hd⟩
    · exact ⟨_, h, rfl⟩
    · omega

theorem chains_acyclic_witness :
    (∀ b off, OnChain (filled 6) b off →
      (filled 6).hdrLen + 4 + 4 * 512 ≤ off ∧ off < limitOf (filled 6) ∧
        (storedNext (filled 6).data off = 0 ∨ storedNext (filled 6).data off < off)) ∧
    ∃ offs : List Nat, offs.Nodup ∧ (∀ off, off ∈ offs ↔ ∃ b, OnChain (filled 6) b off) ∧
      ∀ name fuel, offs.length ≤ fuel →
        ∃ r, lookup fuel (filled 6) name = .ret r ∧ r.ok = true :=
  chains_acyclic [] (filled 6) (filled_inv 6 (by decide)).2.2.2.1


/-! ## C22: the mapping in the result of `file.lookup` -/

theorem filled_six_extends :
    newCounter 130 (filled 6) (wideName 7) =
      .ret ⟨some 4096, some extended, none, extended.data⟩ := by
  obtain ⟨hinv, hlen, _, _, hrl⟩ := filled_inv 6 (by decide)
  obtain ⟨f1, f2, _⟩ := filled_facts 6 (by decide)
  obtain ⟨hM, hH⟩ := filled_hdr 6
  obtain ⟨_, _, hp, _⟩ := filled_six
  rw [limitOf_eq _ (by rw [hH]; decide)] at hp
  rcases newCounter_new (filled 6) (filledRecs 6) (wideName 7) 130 4096 4384 hinv
    (by rw [wideName, List.length_replicate]; omega)
    (by rw [wideName, List.length_replicate]) f1 hp with ⟨_, hd⟩ | ⟨hret, _, _⟩
  · rw [hrl] at hd
    omega
  · rw [hret, f2, hM, hH, hlen]
    rfl

/-- When the mapping in use already holds `name`, `f.lookup(name)` returns the
active mapping together with a slot in it and leaves the state as it was. -/
theorem fileLookup_found (fuel : Nat) (refresh : fileRefs → fileRefs) (f : fileRefs)
    (name : Bytes) (c : Nat) (cur : mappedFile) (lr : LookupResult) (v : Nat)
    (hc : f.current = some c) (ho : f.objs[c]? = some cur)
    (hl : lookup fuel cur name = .ret lr) (hv : lr.v = some v) :
    fileLookup fuel refresh f name = .ret (some ⟨c, (c, v)⟩, f) := by
  unfold fileLookup fileNewCounter newCounter1
  simp only [hc, ho, hl, hv]

/-- When `current.newCounter` adds the record without replacing the mapping,
`f.lookup(name)` returns the active mapping together with a slot in it. -/
theorem fileLookup_added (fuel : Nat) (refresh : fileRefs → fileRefs) (f : fileRefs)
    (name : Bytes) (c : Nat) (cur : mappedFile) (lr : LookupResult) (v : Nat) (d : Bytes)
    (hc : f.current = some c) (ho : f.objs[c]? = some cur)
    (hl : lookup fuel cur name = .ret lr) (hv : lr.v = none)
    (hn : newCounter fuel cur name = .ret ⟨some v, none, none, d⟩) :
    ∃ f1, fileLookup fuel refresh f name = .ret (some ⟨c, (c, v)⟩, f1) ∧
      f1.current = some c := by
  refine ⟨⟨f.objs.set c { cur with data := d.take cur.data.length }, f.current⟩, ?_, hc⟩
  unfold fileLookup fileNewCounter newCounter1
  simp only [hc, ho, hl, hv, hn]
  rfl

/-- C22 (divergence): when `current.newCounter` has to extend the file and
returns a replacement mapping, `newCounter1` makes the replacement the active
mapping and the slot returned points into it, but the `counterPtr` that
`f.lookup(name)` returns names the mapping that was active when `lookup`
started, which is another object than `f.current` at the return. -/
theorem fileLookup_stale_mapping (fuel : Nat) (refresh : fileRefs → fileRefs) (f : fileRefs)
    (name : Bytes) (c : Nat) (cur : mappedFile) (lr : LookupResult) (v : Nat)
    (newM : mappedFile)
    (hc : f.current = some c) (ho : f.objs[c]? = some cur)
    (hl : lookup fuel cur name = .ret lr) (hv : lr.v = none)
    (hn : newCounter fuel cur name = .ret ⟨some v, some newM, none, newM.data⟩)
    (hrf : ∀ s, (refresh s).current = s.current) :
    ∃ cp f1, fileLookup fuel refresh f name = .ret (some cp, f1) ∧
      cp.count = (f.objs.length, v) ∧ f1.current = some f.objs.length ∧
      cp.m = c ∧ some cp.m ≠ f1.current := by
  have hlt : c < f.objs.length := by
    rcases List.getElem?_eq_some.mp ho with ⟨h, _⟩
    exact h
  refine ⟨⟨c, (f.objs.length, v)⟩,
    refresh ⟨f.objs.set c { cur with data := newM.data.take cur.data.length } ++ [newM],
      some f.objs.length⟩, ?_, rfl, ?_, rfl, ?_⟩
  · unfold fileLookup fileNewCounter newCounter1
    simp only [hc, ho, hl, hv, hn]
    rfl
  · rw [hrf]
  · rw [hrf]
    intro h
    have := Option.some.inj h
    simp only at this
    omega

theorem fileLookup_stale_mapping_witness :
    ∃ cp f1, fileLookup 130 id ⟨[filled 6], some 0⟩ (wideName 7) = .ret (some cp, f1) ∧
      cp.count = ((fileRefs.mk [filled 6] (some 0)).objs.length, 4096) ∧
      f1.current = some (fileRefs.mk [filled 6] (some 0)).objs.length ∧
      cp.m = 0 ∧ some cp.m ≠ f1.current :=
  fileLookup_stale_mapping 130 id ⟨[filled 6], some 0⟩ (wideName 7) 0 (filled 6)
    ⟨none, 32 + 4 + 4 * hash (wideName 7), 0, true⟩ 4096 extended rfl rfl filled_six.2.1 rfl
    filled_six_extends (fun _ => rfl)

end Counter
